import Mathlib

/-! quickalias: the alias resolution layer

A shallow embedding of the alias operations of quickalias
(`internal/alias/alias.go`, `internal/alias/persist.go`, `main.go`), in memory
and on disk, and the properties its specification states about them.

Go slices of records are lists, Go strings are `String`, a nil `*Alias` is
`none`, and the loops of the source are structural recursions that keep the
loop's index and accumulators explicit. `String` holds the Go strings that are
valid UTF-8; saving and loading are embedded over `GoString` as well, which
holds every Go string.
-/

namespace QuickAlias

/-! ## Data model -/

/-- The record `Alias` of `persist.go`: name, command, creation date, level. -/
structure Alias where
  Name : String
  Command : String
  Created : String
  Level : String
  deriving DecidableEq, Repr

/-- The in-memory part of the struct `QuickAlias` of `main.go`: the two alias
slices, which `PersistManager` shares through pointers. -/
structure State where
  UserAliases : List Alias
  GlobalAliases : List Alias
  deriving DecidableEq, Repr

/-! ## `alias.go` -/

/-- One `for _, a := range aliases { if a.Name == name { return &a, ... } }`
loop of `GetAlias`: the record at which the loop returns, `none` when it runs
to the end of the slice. -/
def GetAlias.scan (name : String) : List Alias → Option Alias
  | [] => none
  | a :: rest => if a.Name = name then some a else GetAlias.scan name rest

/-- The function `GetAlias` of `alias.go`: the user slice is scanned first,
then the global slice; `(nil, "")` is `(none, "")`. -/
def GetAlias (name : String) (userAliases globalAliases : List Alias) :
    Option Alias × String :=
  match GetAlias.scan name userAliases with
  | some a => (some a, "user")
  | none =>
    match GetAlias.scan name globalAliases with
    | some a => (some a, "global")
    | none => (none, "")

/-- The loop of `RemoveAlias`: `i` is the index of the record at the head of
the part of `aliases` still to visit. At the first record named `name` the
result is `append(aliases[:i], aliases[i+1:]...)`; a loop that runs to the end
returns `aliases` itself. -/
def RemoveAlias.loop (name : String) (aliases : List Alias) :
    Nat → List Alias → List Alias
  | _, [] => aliases
  | i, a :: rest =>
    if a.Name = name then aliases.take i ++ aliases.drop (i + 1)
    else RemoveAlias.loop name aliases (i + 1) rest

/-- The function `RemoveAlias` of `alias.go`. -/
def RemoveAlias (name : String) (aliases : List Alias) : List Alias :=
  RemoveAlias.loop name aliases 0 aliases

/-- A Go `map[string]bool`; a key that was never set reads as `false`. -/
abbrev NameMap := String → Bool

/-- The map `make(map[string]bool)`. -/
def NameMap.empty : NameMap := fun _ => false

/-- The assignment `m[k] = v`. -/
def NameMap.set (m : NameMap) (k : String) (v : Bool) : NameMap :=
  fun x => if x = k then v else m x

/-- First loop of `FindConflicts`: `userAliasesMap[a.Name] = true` for every
user record. -/
def FindConflicts.populate (m : NameMap) : List Alias → NameMap
  | [] => m
  | a :: rest => FindConflicts.populate (m.set a.Name true) rest

/-- Second loop of `FindConflicts`: the names of the global records found in
the map are appended to `conflicts`. -/
def FindConflicts.collect (m : NameMap) (conflicts : List String) :
    List Alias → List String
  | [] => conflicts
  | a :: rest =>
    if m a.Name then FindConflicts.collect m (conflicts ++ [a.Name]) rest
    else FindConflicts.collect m conflicts rest

/-- The function `FindConflicts` of `alias.go`. -/
def FindConflicts (userAliases globalAliases : List Alias) : List String :=
  FindConflicts.collect (FindConflicts.populate NameMap.empty userAliases) []
    globalAliases

/-! ## `main.go` -/

/-- The slice a level string selects, as `SaveAliases` and `CreateBackup`
select it: `"user"` is the user slice, every other level the global one. -/
def State.aliasesOf (qa : State) (level : String) : List Alias :=
  if level = "user" then qa.UserAliases else qa.GlobalAliases

/-- The record `newAlias` that `AddAlias` builds; `created` stands for
`time.Now().Format("2006-01-02 15:04:05")`. -/
def newAlias (name command created level : String) : Alias :=
  { Name := name, Command := command, Created := created, Level := level }

/-- The step "add or update the alias in the appropriate slice" of
`QuickAlias.AddAlias`: `RemoveAlias` on the slice of the level, then `append`
of the new record. -/
def State.addOrUpdate (qa : State) (name command created level : String) : State :=
  if level = "user" then
    { qa with UserAliases :=
        RemoveAlias name qa.UserAliases ++ [newAlias name command created level] }
  else
    { qa with GlobalAliases :=
        RemoveAlias name qa.GlobalAliases ++ [newAlias name command created level] }

/-- The step "attempt to remove the alias" of `QuickAlias.RemoveAlias`: the new
state and the flag `found`, which is `len(newAliases) < len(old slice)`. -/
def State.removeFrom (qa : State) (name level : String) : State × Bool :=
  if level = "user" then
    let newAliases := RemoveAlias name qa.UserAliases
    ({ qa with UserAliases := newAliases },
      decide (newAliases.length < qa.UserAliases.length))
  else
    let newAliases := RemoveAlias name qa.GlobalAliases
    ({ qa with GlobalAliases := newAliases },
      decide (newAliases.length < qa.GlobalAliases.length))

/-! ## The library and the file system

`persist.go` calls `encoding/json`, `strings`, `os`, `path/filepath` and
`sort`. The codec and `strings.ToLower` are parameters of the model; files are
records of a directory, a base name and the content, and every `os` call can
fail for a path the environment denies. -/

/-- The library functions the persistence layer is built on.
`MarshalIndent l` is `json.MarshalIndent(l, "", "  ")`, `none` when it returns
an error. `Unmarshal data target` is `json.Unmarshal(data, &target)`: the value
it leaves in the target and whether it returned an error. -/
structure Lib where
  ToLower : String → String
  MarshalIndent : List Alias → Option String
  Unmarshal : String → List Alias → List Alias × Bool

/-- A file: its directory, its base name and its content. -/
structure File where
  dir : String
  name : String
  data : String
  deriving DecidableEq, Repr

/-- A path, as `filepath.Join(dir, name)` builds it. -/
structure Path where
  dir : String
  name : String
  deriving DecidableEq, Repr

/-- The file system: the files, and the paths for which the environment makes
`os.ReadFile`, `os.WriteFile`, `os.MkdirAll` and `os.Remove` fail. -/
structure FS where
  files : List File
  readDenied : Path → Bool
  writeDenied : Path → Bool
  mkdirDenied : String → Bool
  removeDenied : Path → Bool

/-- The file is the one at the path. -/
def File.isAt (f : File) (p : Path) : Bool :=
  decide (f.dir = p.dir) && decide (f.name = p.name)

/-- The call `os.ReadFile(path)`: the content, `none` for an error (the file
is absent or cannot be read). -/
def FS.ReadFile (fs : FS) (p : Path) : Option String :=
  if fs.readDenied p then none
  else (fs.files.find? (fun f => f.isAt p)).map File.data

/-- The call `os.WriteFile(path, data, 0644)`: the file system with the file
replaced or created, `none` for an error, which leaves the files as they were. -/
def FS.WriteFile (fs : FS) (p : Path) (data : String) : Option FS :=
  if fs.writeDenied p then none
  else some { fs with
    files := ⟨p.dir, p.name, data⟩ :: fs.files.filter (fun f => !f.isAt p) }

/-- The call `os.MkdirAll(dir, 0755)`: whether it succeeds. Directories are
not part of the state. -/
def FS.MkdirAll (fs : FS) (dir : String) : Bool :=
  !fs.mkdirDenied dir

/-- The call `os.Remove(path)` with its error ignored. -/
def FS.Remove (fs : FS) (p : Path) : FS :=
  if fs.removeDenied p then fs
  else { fs with files := fs.files.filter (fun f => !f.isAt p) }

/-- A base name matches the pattern `backup_*.json`. -/
def matchesBackupPattern (name : String) : Bool :=
  "backup_".data.isPrefixOf name.data &&
    ".json".data.isSuffixOf (name.data.drop "backup_".length)

/-- The call `filepath.Glob(filepath.Join(dir, "backup_*.json"))`: the base
names of the files of `dir` that match. The directory is taken to hold no
pattern characters, so the call does not fail. -/
def FS.Glob (fs : FS) (dir : String) : List String :=
  ((fs.files.filter (fun f => decide (f.dir = dir))).map File.name).filter
    matchesBackupPattern

/-- The call `sort.Strings`: ascending byte order, which for UTF-8 is the
lexicographic order of the code points. -/
def sortStrings (l : List String) : List String :=
  l.insertionSort (fun a b => a.data ≤ b.data)

/-- The directory `filepath.Join(dir, sub)` for a clean `dir` other than the
root. -/
def joinDir (dir sub : String) : String :=
  dir ++ "/" ++ sub

/-! ## `persist.go` -/

/-- The constant `ALIASES_FILE`. -/
def ALIASES_FILE : String := "aliases.json"

/-- The constant `BACKUP_DIR`. -/
def BACKUP_DIR : String := "backups"

/-- The constant `MAX_BACKUPS`. -/
def MAX_BACKUPS : Nat := 5

/-- Which step of a persistence operation returned the error. -/
inductive Err where
  | createDir
  | process
  | write
  | read
  | parse
  deriving DecidableEq, Repr

/-- The struct `PersistManager` with what its pointers reach: the two
configuration directories, the alias slices of `QuickAlias`, and the file
system. -/
structure World where
  UserConfigPath : String
  GlobalConfigPath : String
  qa : State
  fs : FS

/-- The function `PersistManager.LoadAliases`: each alias file that can be read
is unmarshalled into the slice of its level, and the error of `json.Unmarshal`
is not looked at. -/
def LoadAliases (lib : Lib) (w : World) : World :=
  let w1 : World :=
    match w.fs.ReadFile ⟨w.UserConfigPath, ALIASES_FILE⟩ with
    | some data =>
      { w with qa := { w.qa with
          UserAliases := (lib.Unmarshal data w.qa.UserAliases).1 } }
    | none => w
  match w1.fs.ReadFile ⟨w1.GlobalConfigPath, ALIASES_FILE⟩ with
  | some data =>
    { w1 with qa := { w1.qa with
        GlobalAliases := (lib.Unmarshal data w1.qa.GlobalAliases).1 } }
  | none => w1

/-- The alias file of a level, the `configPath` of `SaveAliases`:
`aliases.json` in the user directory for "user", in the global directory for
every other level. -/
def World.aliasFile (w : World) (level : String) : Path :=
  if level = "user" then ⟨w.UserConfigPath, ALIASES_FILE⟩
  else ⟨w.GlobalConfigPath, ALIASES_FILE⟩

/-- The function `PersistManager.SaveAliases`: the world after the call and the
error it returns. For a level other than "user" the global directory is
created first. -/
def SaveAliases (lib : Lib) (w : World) (level : String) : World × Option Err :=
  if level ≠ "user" ∧ w.fs.MkdirAll w.GlobalConfigPath = false then
    (w, some Err.createDir)
  else
    match lib.MarshalIndent (w.qa.aliasesOf level) with
    | none => (w, some Err.process)
    | some data =>
      match w.fs.WriteFile (w.aliasFile level) data with
      | none => (w, some Err.write)
      | some fs1 => ({ w with fs := fs1 }, none)

/-- The loop of `CleanOldBackups`: `os.Remove` on each of the given base names
of the backup directory, in order. -/
def CleanOldBackups.removeAll (dir : String) : FS → List String → FS
  | fs, [] => fs
  | fs, name :: rest => CleanOldBackups.removeAll dir (fs.Remove ⟨dir, name⟩) rest

/-- The function `PersistManager.CleanOldBackups`. -/
def CleanOldBackups (w : World) : World :=
  let backupDir := joinDir w.UserConfigPath BACKUP_DIR
  let files := w.fs.Glob backupDir
  if files.length ≤ MAX_BACKUPS then w
  else
    let sorted := sortStrings files
    let toRemove := sorted.take (files.length - MAX_BACKUPS)
    { w with fs := CleanOldBackups.removeAll backupDir w.fs toRemove }

/-- The function `PersistManager.CreateBackup`; `timestamp` stands for
`time.Now().Format("20060102_1504")`. -/
def CreateBackup (lib : Lib) (w : World) (level timestamp : String) :
    World × Option Err :=
  let backupName := "backup_" ++ timestamp ++ ".json"
  let backupPath : Path := ⟨joinDir w.UserConfigPath BACKUP_DIR, backupName⟩
  match lib.MarshalIndent (w.qa.aliasesOf level) with
  | none => (w, some Err.process)
  | some data =>
    match w.fs.WriteFile backupPath data with
    | none => (w, some Err.write)
    | some fs1 => (CleanOldBackups { w with fs := fs1 }, none)

/-- The function `PersistManager.ExportConfig`: `allAliases` is the global
slice followed by the user slice. -/
def ExportConfig (lib : Lib) (w : World) (path : Path) : World × Option Err :=
  let allAliases := w.qa.GlobalAliases ++ w.qa.UserAliases
  match lib.MarshalIndent allAliases with
  | none => (w, some Err.process)
  | some data =>
    match w.fs.WriteFile path data with
    | none => (w, some Err.write)
    | some fs1 => ({ w with fs := fs1 }, none)

/-- The test on the answer to a confirmation prompt: the operation is cancelled
unless the answer lower-cases to "e", "evet" or "y". -/
def declined (lib : Lib) (response : String) : Bool :=
  decide (lib.ToLower response ≠ "e") && decide (lib.ToLower response ≠ "evet")
    && decide (lib.ToLower response ≠ "y")

/-- The loop of `ImportConfig` that separates the imported records: a record
whose level is "global" is appended to the global slice, any other record to
the user slice; the two counters are `userCount` and `globalCount`. -/
def ImportConfig.separate : List Alias → State × Nat × Nat → State × Nat × Nat
  | [], acc => acc
  | a :: rest, (qa, userCount, globalCount) =>
    if a.Level = "global" then
      ImportConfig.separate rest
        ({ qa with GlobalAliases := qa.GlobalAliases ++ [a] }, userCount, globalCount + 1)
    else
      ImportConfig.separate rest
        ({ qa with UserAliases := qa.UserAliases ++ [a] }, userCount + 1, globalCount)

/-- What a call of `ImportConfig` leaves: the world, the error it returns, and
whether the confirmation prompt was printed and an answer read. -/
structure Outcome where
  world : World
  err : Option Err
  prompted : Bool

/-- The function `PersistManager.ImportConfig`. `response` is what `Scanln`
reads; `t1` and `t2` are the timestamps of the two `CreateBackup` calls. -/
def ImportConfig (lib : Lib) (w : World) (path : Path) (response t1 t2 : String) :
    Outcome :=
  match w.fs.ReadFile path with
  | none => ⟨w, some Err.read, false⟩
  | some data =>
    match lib.Unmarshal data [] with
    | (_, true) => ⟨w, some Err.parse, false⟩
    | (aliases, false) =>
      if declined lib response then ⟨w, none, true⟩
      else
        let w1 := (CreateBackup lib w "user" t1).1
        let w2 := (CreateBackup lib w1 "global" t2).1
        let w3 : World :=
          { w2 with qa := (ImportConfig.separate aliases (⟨[], []⟩, 0, 0)).1 }
        match SaveAliases lib w3 "user" with
        | (w4, some e) => ⟨w4, some e, true⟩
        | (w4, none) =>
          match SaveAliases lib w4 "global" with
          | (w5, some e) => ⟨w5, some e, true⟩
          | (w5, none) => ⟨w5, none, true⟩

/-- The name `fmt.Sprintf("backup_%s.json", timestamp)` of a backup file. -/
def backupName (timestamp : String) : String :=
  "backup_" ++ timestamp ++ ".json"

/-- The directory `filepath.Join(pm.UserConfigPath, BACKUP_DIR)` of the
backups. -/
def World.backupDir (w : World) : String :=
  joinDir w.UserConfigPath BACKUP_DIR

/-! ## The commands of `main.go` -/

/-- The method `QuickAlias.AddAlias`. `response` is what `Scanln` reads at the
overwrite prompt, `timestamp` the time of the backup as `CreateBackup` formats
it, `created` the time of the record as `AddAlias` formats it. The prompt is
shown when `GetAlias` finds the name at either level; a declined prompt
returns nil at once. The error of `CreateBackup` is not looked at. -/
def World.AddAlias (lib : Lib) (w : World)
    (name command level response timestamp created : String) : Outcome :=
  let existing := GetAlias name w.qa.UserAliases w.qa.GlobalAliases
  let asked := existing.1.isSome && decide (existing.2 ≠ "")
  if asked && declined lib response then ⟨w, none, true⟩
  else
    let w1 := (CreateBackup lib w level timestamp).1
    let w2 : World := { w1 with qa := w1.qa.addOrUpdate name command created level }
    let saved := SaveAliases lib w2 level
    ⟨saved.1, saved.2, asked⟩

/-- The method `QuickAlias.RemoveAlias`: the world after the call and the error
it returns. A name that is not found returns nil without saving. -/
def World.RemoveAlias (lib : Lib) (w : World) (name level : String) :
    World × Option Err :=
  let removed := w.qa.removeFrom name level
  let w1 : World := { w with qa := removed.1 }
  if removed.2 = false then (w1, none)
  else SaveAliases lib w1 level

/-- One alias statement of `Init`, printed as `alias NAME=COMMAND` with the
command in single quotes. -/
structure Statement where
  name : String
  command : String
  deriving DecidableEq, Repr

/-- One `for _, a := range ...` loop of `Init`: a statement is printed for
each record, in order, after what was printed before. -/
def Init.emit : List Alias → List Statement → List Statement
  | [], out => out
  | a :: rest, out => Init.emit rest (out ++ [⟨a.Name, a.Command⟩])

/-- The method `QuickAlias.Init`: the statements it prints, the global loop
first and the user loop second. -/
def Init (qa : State) : List Statement :=
  Init.emit qa.UserAliases (Init.emit qa.GlobalAliases [])

/-! ## Listing and searching -/

/-- The call `strings.Contains(s, substr)`: `substr` is a contiguous part of
`s`; every string contains the empty string. -/
def Contains (s substr : String) : Bool :=
  decide (substr.data <:+: s.data)

/-- A line that `ListAliases` or `SearchAliases` prints. -/
inductive Line where
  | searchHeader (keyword : String)
  | globalHeader
  | userHeader
  | record (a : Alias)
  | noGlobal
  | noUser
  | totalFound (n : Nat)
  | noResults (keyword : String)
  | totalResults (n : Nat)
  deriving DecidableEq, Repr

/-- The output of a listing with the two counters the function computes. -/
structure Listing where
  out : List Line
  globalCount : Nat
  userCount : Nat
  deriving DecidableEq, Repr

/-- A record loop of `ListAliases`: a record passes when the keyword is empty,
or its name contains the keyword, or its command does; its line is printed and
the counter goes up by one. -/
def ListAliases.loop (keyword : String) : List Alias → List Line × Nat → List Line × Nat
  | [], acc => acc
  | a :: rest, (out, count) =>
    if keyword = "" ∨ Contains a.Name keyword = true ∨ Contains a.Command keyword = true then
      ListAliases.loop keyword rest (out ++ [Line.record a], count + 1)
    else ListAliases.loop keyword rest (out, count)

/-- The function `ListAliases` of `alias.go`. -/
def ListAliases (userAliases globalAliases : List Alias) (keyword : String) : Listing :=
  let afterGlobal := ListAliases.loop keyword globalAliases ([Line.globalHeader], 0)
  let out1 := if afterGlobal.2 = 0 then afterGlobal.1 ++ [Line.noGlobal] else afterGlobal.1
  let afterUser := ListAliases.loop keyword userAliases (out1 ++ [Line.userHeader], 0)
  let out2 := if afterUser.2 = 0 then afterUser.1 ++ [Line.noUser] else afterUser.1
  let out3 :=
    if keyword ≠ "" then out2 ++ [Line.totalFound (afterGlobal.2 + afterUser.2)] else out2
  ⟨out3, afterGlobal.2, afterUser.2⟩

/-- A record loop of `SearchAliases`: a record passes when its name contains
the keyword or its command does. -/
def SearchAliases.loop (keyword : String) : List Alias → List Line × Nat → List Line × Nat
  | [], acc => acc
  | a :: rest, (out, count) =>
    if Contains a.Name keyword = true ∨ Contains a.Command keyword = true then
      SearchAliases.loop keyword rest (out ++ [Line.record a], count + 1)
    else SearchAliases.loop keyword rest (out, count)

/-- The function `SearchAliases` of `alias.go`. -/
def SearchAliases (userAliases globalAliases : List Alias) (keyword : String) : Listing :=
  let afterGlobal :=
    SearchAliases.loop keyword globalAliases
      ([Line.searchHeader keyword, Line.globalHeader], 0)
  let afterUser :=
    SearchAliases.loop keyword userAliases (afterGlobal.1 ++ [Line.userHeader], 0)
  let totalFound := afterGlobal.2 + afterUser.2
  let out :=
    if totalFound = 0 then afterUser.1 ++ [Line.noResults keyword]
    else afterUser.1 ++ [Line.totalResults totalFound]
  ⟨out, afterGlobal.2, afterUser.2⟩

/-! ## Timestamps

`time.Now()` is read as the wall clock of the one location the process runs
in: a date and a time of day. -/

/-- A reading of the wall clock. -/
structure Instant where
  year : Nat
  month : Nat
  day : Nat
  hour : Nat
  minute : Nat
  second : Nat
  deriving DecidableEq, Repr

/-- The decimal digit of the units of a number. -/
def digitChar (n : Nat) : Char :=
  match n % 10 with
  | 0 => '0'
  | 1 => '1'
  | 2 => '2'
  | 3 => '3'
  | 4 => '4'
  | 5 => '5'
  | 6 => '6'
  | 7 => '7'
  | 8 => '8'
  | _ => '9'

/-- A number below 100 in two digits, as the layouts `01`, `02`, `15`, `04`
print the month, the day, the hour and the minute. -/
def pad2 (n : Nat) : List Char :=
  [digitChar (n / 10), digitChar n]

/-- The year as the layout `2006` prints it: four digits with leading zeros,
and all its digits from the year 10000 on. -/
def padYear (n : Nat) : List Char :=
  if n < 10000 then pad2 (n / 100) ++ pad2 (n % 100) else (Nat.repr n).data

/-- The timestamp `time.Now().Format("20060102_1504")`. -/
def Instant.stamp (i : Instant) : String :=
  String.mk (padYear i.year ++ pad2 i.month ++ pad2 i.day ++ ['_']
    ++ pad2 i.hour ++ pad2 i.minute)

/-! ## A reference codec

A model of the two `encoding/json` calls on the documents this program writes:
arrays of flat objects with string, number, boolean and null values. It is the
`Lib` at which the operations are run on concrete files; the general theorems
hold for every `Lib`. A document outside the fragment (nested values, signed
or fractional numbers, surrogate escapes) is reported as a syntax error. -/

/-- Lower-casing of the ASCII letters. -/
def asciiLower (s : String) : String :=
  String.mk (s.data.map Char.toLower)

/-- The hexadecimal digit of a number below 16. -/
def hexDigit (n : Nat) : Char :=
  "0123456789abcdef".data.getD n '0'

/-- The escape `\uXXXX` of a code point below 0x10000. -/
def unicodeEscape (n : Nat) : List Char :=
  ['\\', 'u', hexDigit (n / 4096 % 16), hexDigit (n / 256 % 16),
    hexDigit (n / 16 % 16), hexDigit (n % 16)]

/-- How the encoder writes one character of a string. -/
def escapeChar (c : Char) : List Char :=
  if c = '"' then ['\\', '"']
  else if c = '\\' then ['\\', '\\']
  else if c = '\n' then ['\\', 'n']
  else if c = '\r' then ['\\', 'r']
  else if c = '\t' then ['\\', 't']
  else if c.toNat < 32 ∨ c = '<' ∨ c = '>' ∨ c = '&' ∨ c.toNat = 8232 ∨ c.toNat = 8233
    then unicodeEscape c.toNat
  else [c]

/-- A JSON string literal. -/
def quoteString (s : String) : String :=
  String.mk ('"' :: (s.data.flatMap escapeChar ++ ['"']))

/-- One record as the encoder writes it inside an array, indented by two
spaces: the fields `name`, `command`, `created`, `level` in this order. -/
def encodeAlias (a : Alias) : String :=
  "  \x7b\n    \"name\": " ++ quoteString a.Name ++
  ",\n    \"command\": " ++ quoteString a.Command ++
  ",\n    \"created\": " ++ quoteString a.Created ++
  ",\n    \"level\": " ++ quoteString a.Level ++ "\n  \x7d"

/-- The encoder: `[]` for the empty slice, otherwise one record per element. -/
def refMarshalIndent (l : List Alias) : String :=
  match l with
  | [] => "[]"
  | _ => "[\n" ++ ",\n".intercalate (l.map encodeAlias) ++ "\n]"

/-- The tokens of a document. -/
inductive Tok where
  | lbrack
  | rbrack
  | lbrace
  | rbrace
  | colon
  | comma
  | str (s : String)
  | num
  | bool
  | null
  deriving DecidableEq, Repr

/-- Where the scanner is: between tokens, inside a string, after a backslash,
inside a `\u` escape, inside a number, inside a literal word. -/
inductive ScanMode where
  | normal
  | str (buf : List Char)
  | esc (buf : List Char)
  | uni (buf : List Char) (digits : List Char)
  | num (buf : List Char)
  | word (buf : List Char)
  deriving DecidableEq, Repr

/-- The value of a hexadecimal digit. -/
def hexValue (c : Char) : Option Nat :=
  if '0' ≤ c ∧ c ≤ '9' then some (c.toNat - 48)
  else if 'a' ≤ c ∧ c ≤ 'f' then some (c.toNat - 87)
  else if 'A' ≤ c ∧ c ≤ 'F' then some (c.toNat - 55)
  else none

/-- The number written by hexadecimal digits. -/
def hexNumber (ds : List Char) : Option Nat :=
  ds.foldlM (fun acc c => (hexValue c).map (fun v => acc * 16 + v)) 0

/-- The scanner between tokens. -/
def scanNormal (toks : List Tok) (c : Char) : Option (ScanMode × List Tok) :=
  if c = ' ' ∨ c = '\t' ∨ c = '\n' ∨ c = '\r' then some (ScanMode.normal, toks)
  else if c = '[' then some (ScanMode.normal, toks ++ [Tok.lbrack])
  else if c = ']' then some (ScanMode.normal, toks ++ [Tok.rbrack])
  else if c = '{' then some (ScanMode.normal, toks ++ [Tok.lbrace])
  else if c = '}' then some (ScanMode.normal, toks ++ [Tok.rbrace])
  else if c = ':' then some (ScanMode.normal, toks ++ [Tok.colon])
  else if c = ',' then some (ScanMode.normal, toks ++ [Tok.comma])
  else if c = '"' then some (ScanMode.str [], toks)
  else if c.isDigit then some (ScanMode.num [c], toks)
  else if c.isLower then some (ScanMode.word [c], toks)
  else none

/-- The token a finished number is: an unsigned integer without a leading
zero. -/
def numberTok (buf : List Char) : Option Tok :=
  if buf.head? = some '0' ∧ buf.length ≠ 1 then none else some Tok.num

/-- The token a finished word is. -/
def wordTok (buf : List Char) : Option Tok :=
  if buf = "true".data ∨ buf = "false".data then some Tok.bool
  else if buf = "null".data then some Tok.null
  else none

/-- One step of the scanner. -/
def scanStep (st : ScanMode × List Tok) (c : Char) : Option (ScanMode × List Tok) :=
  match st with
  | (ScanMode.normal, toks) => scanNormal toks c
  | (ScanMode.str buf, toks) =>
    if c = '"' then some (ScanMode.normal, toks ++ [Tok.str (String.mk buf)])
    else if c = '\\' then some (ScanMode.esc buf, toks)
    else if c.toNat < 32 then none
    else some (ScanMode.str (buf ++ [c]), toks)
  | (ScanMode.esc buf, toks) =>
    if c = '"' ∨ c = '\\' ∨ c = '/' then some (ScanMode.str (buf ++ [c]), toks)
    else if c = 'n' then some (ScanMode.str (buf ++ ['\n']), toks)
    else if c = 'r' then some (ScanMode.str (buf ++ ['\r']), toks)
    else if c = 't' then some (ScanMode.str (buf ++ ['\t']), toks)
    else if c = 'b' then some (ScanMode.str (buf ++ [Char.ofNat 8]), toks)
    else if c = 'f' then some (ScanMode.str (buf ++ [Char.ofNat 12]), toks)
    else if c = 'u' then some (ScanMode.uni buf [], toks)
    else none
  | (ScanMode.uni buf digits, toks) =>
    if (digits ++ [c]).length < 4 then
      (hexValue c).map (fun _ => (ScanMode.uni buf (digits ++ [c]), toks))
    else
      match hexNumber (digits ++ [c]) with
      | some n =>
        if 55296 ≤ n ∧ n < 57344 then none
        else some (ScanMode.str (buf ++ [Char.ofNat n]), toks)
      | none => none
  | (ScanMode.num buf, toks) =>
    if c.isDigit then some (ScanMode.num (buf ++ [c]), toks)
    else (numberTok buf).bind (fun t => scanNormal (toks ++ [t]) c)
  | (ScanMode.word buf, toks) =>
    if c.isLower then some (ScanMode.word (buf ++ [c]), toks)
    else (wordTok buf).bind (fun t => scanNormal (toks ++ [t]) c)

/-- The tokens of a text, `none` for a text that is not a document of the
fragment. -/
def scan (text : String) : Option (List Tok) :=
  match text.data.foldlM scanStep (ScanMode.normal, []) with
  | some (ScanMode.normal, toks) => some toks
  | some (ScanMode.num buf, toks) => (numberTok buf).map (fun t => toks ++ [t])
  | some (ScanMode.word buf, toks) => (wordTok buf).map (fun t => toks ++ [t])
  | _ => none

/-- Where the decoder is in the array of records. -/
inductive Phase where
  | start
  | elemOrEnd
  | elem
  | afterElem
  | keyOrEnd
  | key
  | colon (k : String)
  | value (k : String)
  | afterValue
  | done
  deriving DecidableEq, Repr

/-- The decoder's state: the phase, the records decoded so far, the record
being decoded, and whether a type error was saved. -/
structure DecodeState where
  phase : Phase
  acc : List Alias
  cur : Alias
  typeError : Bool
  deriving DecidableEq, Repr

/-- The zero value of `Alias`. -/
def Alias.zero : Alias := ⟨"", "", "", ""⟩

/-- A key names a field of `Alias`: the match is exact or ignores case. -/
def isField (k : String) : Bool :=
  asciiLower k = "name" || asciiLower k = "command" || asciiLower k = "created"
    || asciiLower k = "level"

/-- A string value stored in the field the key names; a key that names no
field is skipped. -/
def Alias.setField (a : Alias) (k v : String) : Alias :=
  if asciiLower k = "name" then { a with Name := v }
  else if asciiLower k = "command" then { a with Command := v }
  else if asciiLower k = "created" then { a with Created := v }
  else if asciiLower k = "level" then { a with Level := v }
  else a

/-- One step of the decoder. A value of the wrong type saves a type error and
leaves the field, or the whole record, at what it was; decoding goes on. -/
def decodeStep (st : DecodeState) (t : Tok) : Option DecodeState :=
  match st.phase, t with
  | Phase.start, Tok.lbrack => some { st with phase := Phase.elemOrEnd }
  | Phase.start, Tok.null => some { st with phase := Phase.done }
  | Phase.elemOrEnd, Tok.rbrack => some { st with phase := Phase.done }
  | Phase.elemOrEnd, Tok.lbrace | Phase.elem, Tok.lbrace =>
    some { st with phase := Phase.keyOrEnd, cur := Alias.zero }
  | Phase.elemOrEnd, Tok.null | Phase.elem, Tok.null =>
    some { st with phase := Phase.afterElem, acc := st.acc ++ [Alias.zero] }
  | Phase.elemOrEnd, Tok.str _ | Phase.elem, Tok.str _
  | Phase.elemOrEnd, Tok.num | Phase.elem, Tok.num
  | Phase.elemOrEnd, Tok.bool | Phase.elem, Tok.bool =>
    some { st with phase := Phase.afterElem, acc := st.acc ++ [Alias.zero],
                   typeError := true }
  | Phase.afterElem, Tok.comma => some { st with phase := Phase.elem }
  | Phase.afterElem, Tok.rbrack => some { st with phase := Phase.done }
  | Phase.keyOrEnd, Tok.rbrace | Phase.afterValue, Tok.rbrace =>
    some { st with phase := Phase.afterElem, acc := st.acc ++ [st.cur] }
  | Phase.keyOrEnd, Tok.str k | Phase.key, Tok.str k =>
    some { st with phase := Phase.colon k }
  | Phase.colon k, Tok.colon => some { st with phase := Phase.value k }
  | Phase.value k, Tok.str v =>
    some { st with phase := Phase.afterValue, cur := st.cur.setField k v }
  | Phase.value _, Tok.null => some { st with phase := Phase.afterValue }
  | Phase.value k, Tok.num | Phase.value k, Tok.bool =>
    some { st with phase := Phase.afterValue,
                   typeError := st.typeError || isField k }
  | Phase.afterValue, Tok.comma => some { st with phase := Phase.key }
  | _, _ => none

/-- The decoder `json.Unmarshal(data, &target)` for a target of length 0, as
every target of this program is. A text that is not a document, or a document
that is not an array or `null`, leaves the target as it was and is an error; an
array is decoded to its end, and the error of a wrongly typed value is
returned with the records decoded. -/
def refUnmarshal (data : String) (target : List Alias) : List Alias × Bool :=
  match scan data with
  | none => (target, true)
  | some toks =>
    match toks.foldlM decodeStep ⟨Phase.start, [], Alias.zero, false⟩ with
    | some ⟨Phase.done, acc, _, typeError⟩ => (acc, typeError)
    | _ => (target, true)

/-- The reference library. -/
def refLib : Lib where
  ToLower := asciiLower
  MarshalIndent := fun l => some (refMarshalIndent l)
  Unmarshal := refUnmarshal

/-- The tokens of one record as the encoder writes it. -/
def recordToks (a : Alias) : List Tok :=
  [Tok.lbrace, Tok.str "name", Tok.colon, Tok.str a.Name, Tok.comma,
    Tok.str "command", Tok.colon, Tok.str a.Command, Tok.comma,
    Tok.str "created", Tok.colon, Tok.str a.Created, Tok.comma,
    Tok.str "level", Tok.colon, Tok.str a.Level, Tok.rbrace]

/-- The tokens of a slice as the encoder writes it. -/
def sliceToks : List Alias → List Tok
  | [] => [Tok.lbrack, Tok.rbrack]
  | a :: l => Tok.lbrack :: (recordToks a ++
      (l.flatMap (fun b => Tok.comma :: recordToks b) ++ [Tok.rbrack]))

/-! ## Strings that are not valid UTF-8

A Go string is a sequence of bytes, and a command-line argument may hold bytes
that are not the UTF-8 encoding of anything. `String` is the Go strings that
are valid UTF-8. `GoString` is every Go string, as `encoding/json` walks
through it with `utf8.DecodeRuneInString`: runes that are validly encoded, and
single bytes at which no valid encoding starts. `SaveAliases` and `LoadAliases`
are embedded a second time over records of such strings; on records whose
strings are valid UTF-8 the two embeddings write and read the same text. -/

/-- One step of `utf8.DecodeRuneInString` through a Go string: a validly
encoded rune, or a byte at which no valid encoding starts, for which Go reports
`utf8.RuneError` with width 1. -/
inductive GoUnit where
  | rune (c : Char)
  | invalid (byte : Nat)
  deriving DecidableEq, Repr

/-- A Go string, valid UTF-8 or not. -/
abbrev GoString := List GoUnit

/-- A string that is valid UTF-8, as a Go string. -/
def GoString.ofString (s : String) : GoString :=
  s.data.map GoUnit.rune

/-- The record `Alias` of `persist.go` with strings that need not be valid
UTF-8. -/
structure RawAlias where
  Name : GoString
  Command : GoString
  Created : GoString
  Level : GoString
  deriving DecidableEq, Repr

/-- A record whose strings are valid UTF-8, among all records. -/
def Alias.raw (a : Alias) : RawAlias :=
  ⟨GoString.ofString a.Name, GoString.ofString a.Command,
    GoString.ofString a.Created, GoString.ofString a.Level⟩

/-- How the encoder writes one step of a string: a rune as `escapeChar` writes
it, and for a byte that is not valid UTF-8 the six characters of the escape
`\ufffd` of the replacement rune. -/
def escapeUnit : GoUnit → List Char
  | GoUnit.rune c => escapeChar c
  | GoUnit.invalid _ => unicodeEscape 65533

/-- A JSON string literal for a Go string. -/
def rawQuote (s : GoString) : String :=
  String.mk ('"' :: (s.flatMap escapeUnit ++ ['"']))

/-- One record as the encoder writes it inside an array. -/
def rawEncodeAlias (a : RawAlias) : String :=
  "  \x7b\n    \"name\": " ++ rawQuote a.Name ++
  ",\n    \"command\": " ++ rawQuote a.Command ++
  ",\n    \"created\": " ++ rawQuote a.Created ++
  ",\n    \"level\": " ++ rawQuote a.Level ++ "\n  \x7d"

/-- The encoder `json.MarshalIndent(l, "", "  ")` on records of Go strings. -/
def rawMarshalIndent (l : List RawAlias) : String :=
  match l with
  | [] => "[]"
  | _ => "[\n" ++ ",\n".intercalate (l.map rawEncodeAlias) ++ "\n]"

/-- The decoder `json.Unmarshal(data, &target)` into records of Go strings:
the strings it stores are valid UTF-8. -/
def rawUnmarshal (data : String) (target : List RawAlias) : List RawAlias × Bool :=
  match scan data with
  | none => (target, true)
  | some toks =>
    match toks.foldlM decodeStep ⟨Phase.start, [], Alias.zero, false⟩ with
    | some ⟨Phase.done, acc, _, typeError⟩ => (acc.map Alias.raw, typeError)
    | _ => (target, true)

/-- The two `encoding/json` calls on records of Go strings. -/
structure RawLib where
  MarshalIndent : List RawAlias → Option String
  Unmarshal : String → List RawAlias → List RawAlias × Bool

/-- The reference library on records of Go strings. -/
def rawLib : RawLib where
  MarshalIndent := fun l => some (rawMarshalIndent l)
  Unmarshal := rawUnmarshal

/-- The two alias slices, of records of Go strings. -/
structure RawState where
  UserAliases : List RawAlias
  GlobalAliases : List RawAlias
  deriving DecidableEq, Repr

/-- The slice a level string selects: `"user"` is the user slice, every other
level the global one. -/
def RawState.aliasesOf (qa : RawState) (level : String) : List RawAlias :=
  if level = "user" then qa.UserAliases else qa.GlobalAliases

/-- The struct `PersistManager` with what its pointers reach, the alias slices
holding records of Go strings. -/
structure RawWorld where
  UserConfigPath : String
  GlobalConfigPath : String
  qa : RawState
  fs : FS

/-- The function `PersistManager.LoadAliases` on records of Go strings. -/
def RawWorld.LoadAliases (lib : RawLib) (w : RawWorld) : RawWorld :=
  let w1 : RawWorld :=
    match w.fs.ReadFile ⟨w.UserConfigPath, ALIASES_FILE⟩ with
    | some data =>
      { w with qa := { w.qa with
          UserAliases := (lib.Unmarshal data w.qa.UserAliases).1 } }
    | none => w
  match w1.fs.ReadFile ⟨w1.GlobalConfigPath, ALIASES_FILE⟩ with
  | some data =>
    { w1 with qa := { w1.qa with
        GlobalAliases := (lib.Unmarshal data w1.qa.GlobalAliases).1 } }
  | none => w1

/-- The alias file of a level, the `configPath` of `SaveAliases`. -/
def RawWorld.aliasFile (w : RawWorld) (level : String) : Path :=
  if level = "user" then ⟨w.UserConfigPath, ALIASES_FILE⟩
  else ⟨w.GlobalConfigPath, ALIASES_FILE⟩

/-- The function `PersistManager.SaveAliases` on records of Go strings. -/
def RawWorld.SaveAliases (lib : RawLib) (w : RawWorld) (level : String) :
    RawWorld × Option Err :=
  if level ≠ "user" ∧ w.fs.MkdirAll w.GlobalConfigPath = false then
    (w, some Err.createDir)
  else
    match lib.MarshalIndent (w.qa.aliasesOf level) with
    | none => (w, some Err.process)
    | some data =>
      match w.fs.WriteFile (w.aliasFile level) data with
      | none => (w, some Err.write)
      | some fs1 => ({ w with fs := fs1 }, none)

/-! ## Vocabulary of the specification -/

/-- A record named `name` is present in the set. -/
def Present (name : String) (aliases : List Alias) : Prop :=
  ∃ a ∈ aliases, a.Name = name

/-- The record `a` is the first record of the set whose name is `name`:
it is named `name` and no record before it is. -/
def IsFirstNamed (name : String) (aliases : List Alias) (a : Alias) : Prop :=
  ∃ before after, aliases = before ++ a :: after ∧ a.Name = name ∧
    ∀ b ∈ before, b.Name ≠ name

/-- Names are unique within the set. -/
def UniqueNames (aliases : List Alias) : Prop :=
  (aliases.map Alias.Name).Nodup

/-- What an operation on the files never touches: the in-memory sets, the two
configuration directories and what the environment denies. -/
def SameSetting (w1 w : World) : Prop :=
  w1.qa = w.qa ∧ w1.UserConfigPath = w.UserConfigPath ∧
  w1.GlobalConfigPath = w.GlobalConfigPath ∧
  w1.fs.readDenied = w.fs.readDenied ∧ w1.fs.writeDenied = w.fs.writeDenied ∧
  w1.fs.mkdirDenied = w.fs.mkdirDenied ∧ w1.fs.removeDenied = w.fs.removeDenied

/-- The two sets a record sequence is separated into by the level field:
the records whose level is "global" are the Global set, all others the User
set, each in the order of the sequence. -/
def importedSets (L : List Alias) : State :=
  ⟨L.filter (fun a => decide (a.Level ≠ "global")),
   L.filter (fun a => decide (a.Level = "global"))⟩

/-- The world of a confirmed import at the point where the saving starts: after
the two backups, with the in-memory sets replaced by the imported ones. -/
def stagedWorld (lib : Lib) (w : World) (L : List Alias) (t1 t2 : String) : World :=
  { (CreateBackup lib (CreateBackup lib w "user" t1).1 "global" t2).1 with
    qa := importedSets L }

/-- A file system with the given files in which no call is denied. -/
def openFS (files : List File) : FS :=
  ⟨files, fun _ => false, fun _ => false, fun _ => false, fun _ => false⟩

/-- A file system with the given files in which writing to one path is
denied. -/
def lockedFS (files : List File) (locked : Path) : FS :=
  ⟨files, fun _ => false, fun p => decide (p = locked), fun _ => false, fun _ => false⟩

/-- The import file of the specification's scenario: record `a` at level
"global" and record `b` without a level. -/
def scenarioImport : File :=
  ⟨"/tmp", "in.json",
   "[\x7b\"name\":\"a\",\"command\":\"ls\",\"level\":\"global\"\x7d,\x7b\"name\":\"b\",\"command\":\"pwd\"\x7d]"⟩

/-- A world for the examples: one user alias, one global alias, and the
scenario's import file on an otherwise empty disk. -/
def scenarioWorld : World :=
  ⟨"/home/u/.config/quickalias", "/etc/quickalias",
   ⟨[⟨"ll", "ls -l", "2024-01-01 10:00:00", "user"⟩],
    [⟨"deploy", "kubectl apply -f .", "2024-01-01 09:00:00", "global"⟩]⟩,
   openFS [scenarioImport]⟩

/-- The example world with a User alias file that cannot be written. -/
def lockedWorld : World :=
  ⟨"/home/u/.config/quickalias", "/etc/quickalias", scenarioWorld.qa,
   lockedFS [scenarioImport] ⟨"/home/u/.config/quickalias", "aliases.json"⟩⟩

/-- An import file with two records named `a` at the user level. -/
def duplicateImport : File :=
  ⟨"/tmp", "dup.json",
   "[\x7b\"name\":\"a\",\"command\":\"ls\",\"level\":\"user\"\x7d,\x7b\"name\":\"a\",\"command\":\"pwd\",\"level\":\"user\"\x7d]"⟩

/-- The example world with the duplicate import file on the disk. -/
def duplicateWorld : World :=
  ⟨"/home/u/.config/quickalias", "/etc/quickalias", scenarioWorld.qa,
   openFS [duplicateImport]⟩

/-- A JSON array whose one record has a number where the command should
be. -/
def mistypedText : String :=
  "[\x7b\"name\":\"a\",\"command\":5\x7d]"

/-- A world at start-up, both sets empty, whose User alias file is the
mistyped text. -/
def mistypedWorld : World :=
  ⟨"/home/u/.config/quickalias", "/etc/quickalias", ⟨[], []⟩,
   openFS [⟨"/home/u/.config/quickalias", "aliases.json", mistypedText⟩]⟩

/-- No two files of the file system are at the same path. -/
def FS.WellFormed (fs : FS) : Prop :=
  (fs.files.map (fun f => (f.dir, f.name))).Nodup

/-- A sequence of `CreateBackup` calls for one level, one call per timestamp,
each on the world the call before it left. -/
def createBackups (lib : Lib) (level : String) : World → List String → World
  | w, [] => w
  | w, t :: ts => createBackups lib level (CreateBackup lib w level t).1 ts

/-- The fields of a wall-clock reading are in range. -/
def Instant.Valid (i : Instant) : Prop :=
  1 ≤ i.month ∧ i.month ≤ 12 ∧ 1 ≤ i.day ∧ i.day ≤ 31 ∧ i.hour < 24 ∧
  i.minute < 60 ∧ i.second < 60

/-- The two readings fall in the same minute. -/
def Instant.SameMinute (i j : Instant) : Prop :=
  i.year = j.year ∧ i.month = j.month ∧ i.day = j.day ∧ i.hour = j.hour ∧
  i.minute = j.minute

/-- The minute of `i` is earlier than the minute of `j`: the order of the
dates, then of the hours, then of the minutes. -/
def Instant.MinuteBefore (i j : Instant) : Prop :=
  i.year < j.year ∨ (i.year = j.year ∧ (i.month < j.month ∨ (i.month = j.month ∧
    (i.day < j.day ∨ (i.day = j.day ∧ (i.hour < j.hour ∨ (i.hour = j.hour ∧
      i.minute < j.minute)))))))

/-- The reading `i` is earlier than the reading `j`. -/
def Instant.Before (i j : Instant) : Prop :=
  i.MinuteBefore j ∨ (i.SameMinute j ∧ i.second < j.second)

/-- The command a shell ends up with for `name` after it evaluates the
statements in order, each definition replacing an earlier one of the same
name: the last definition wins, as the specification takes the shell to do. -/
def effectiveCommand (stmts : List Statement) (name : String) : Option String :=
  stmts.foldl (fun cur s => if s.name = name then some s.command else cur) none

/-- The inclusion test of the specification for a listing: the keyword is
empty, or the name contains it, or the command contains it. -/
def Matches (keyword : String) (a : Alias) : Bool :=
  decide (keyword = "") || Contains a.Name keyword || Contains a.Command keyword

/-- A mutating command with what the environment answers to it. -/
inductive Command where
  | add (name command level response timestamp created : String)
  | remove (name level : String)
  | importFile (path : Path) (response t1 t2 : String)

/-- The command is an add or remove of `main.go`, whose level is "user" or
"global", or an import. -/
def Command.LevelOk : Command → Prop
  | Command.add _ _ level _ _ _ => level = "user" ∨ level = "global"
  | Command.remove _ _ => True
  | Command.importFile _ _ _ _ => True

/-- The world after one command. -/
def Command.run (lib : Lib) (w : World) : Command → World
  | Command.add name command level response timestamp created =>
    (w.AddAlias lib name command level response timestamp created).world
  | Command.remove name level => (w.RemoveAlias lib name level).1
  | Command.importFile path response t1 t2 =>
    (ImportConfig lib w path response t1 t2).world

/-- The world after a sequence of commands. -/
def runCommands (lib : Lib) (w : World) (cmds : List Command) : World :=
  cmds.foldl (Command.run lib) w

/-- Every record of the Global set has level "global" and no record of the
User set has. -/
def LevelPlaced (qa : State) : Prop :=
  (∀ a ∈ qa.GlobalAliases, a.Level = "global") ∧
  (∀ a ∈ qa.UserAliases, a.Level ≠ "global")

/-- The names `kept` are the most recent of the names `seen`: they are
distinct names of `seen`, as many as there are up to `MAX_BACKUPS`, and every
name of `seen` that is not kept is smaller than every name kept. -/
def Retains (seen kept : List String) : Prop :=
  kept.Nodup ∧ (∀ k ∈ kept, k ∈ seen) ∧ kept.length = min seen.length MAX_BACKUPS ∧
  ∀ s ∈ seen, s ∉ kept → ∀ k ∈ kept, s.data < k.data

/-- The names of the backup files after one `CreateBackup` call for the level
at each of the instants, in the order of the list. -/
def backupsAfter (lib : Lib) (level : String) (w : World) (instants : List Instant) :
    List String :=
  (createBackups lib level w (instants.map Instant.stamp)).fs.Glob w.backupDir

/-- A world whose backup directory holds seven backups, named by day, and one
other file. -/
def crowdedWorld : World :=
  ⟨"/home/u/.config/quickalias", "/etc/quickalias", ⟨[], []⟩,
    openFS [⟨"/home/u/.config/quickalias/backups", "backup_20240103_0900.json", "[]"⟩,
      ⟨"/home/u/.config/quickalias/backups", "backup_20240101_0900.json", "[]"⟩,
      ⟨"/home/u/.config/quickalias/backups", "backup_20240107_0900.json", "[]"⟩,
      ⟨"/home/u/.config/quickalias/backups", "backup_20240102_0900.json", "[]"⟩,
      ⟨"/home/u/.config/quickalias/backups", "notes.txt", "keep"⟩,
      ⟨"/home/u/.config/quickalias/backups", "backup_20240105_0900.json", "[]"⟩,
      ⟨"/home/u/.config/quickalias/backups", "backup_20240104_0900.json", "[]"⟩,
      ⟨"/home/u/.config/quickalias/backups", "backup_20240106_0900.json", "[]"⟩]⟩

/-- Seven instants for the examples, one a day at nine, not in order of
time. -/
def sevenInstants : List Instant :=
  [⟨2024, 1, 3, 9, 0, 0⟩, ⟨2024, 1, 1, 9, 0, 10⟩, ⟨2024, 1, 2, 9, 0, 20⟩,
   ⟨2024, 1, 7, 9, 0, 30⟩, ⟨2024, 1, 4, 9, 0, 40⟩, ⟨2024, 1, 6, 9, 0, 50⟩,
   ⟨2024, 1, 5, 9, 0, 0⟩]

/-- The step is a validly encoded rune. -/
def GoUnit.isRune : GoUnit → Bool
  | GoUnit.rune _ => true
  | GoUnit.invalid _ => false

/-- The Go string is valid UTF-8. -/
def GoString.Valid (s : GoString) : Prop :=
  s.all GoUnit.isRune = true

/-- Every string of the record is valid UTF-8. -/
def RawAlias.Valid (a : RawAlias) : Prop :=
  GoString.Valid a.Name ∧ GoString.Valid a.Command ∧ GoString.Valid a.Created ∧
    GoString.Valid a.Level

/-- An alias as `qq add` builds it from a name argument made of the letter a
followed by the byte 0xFF, which no UTF-8 encoding holds. -/
def strayByteAlias : RawAlias :=
  ⟨[GoUnit.rune 'a', GoUnit.invalid 255], GoString.ofString "ls",
    GoString.ofString "2024-01-01 10:00:00", GoString.ofString "user"⟩

/-- A world whose User set is the one alias with the stray byte, no alias file
written yet, every file operation allowed. -/
def strayByteWorld : RawWorld :=
  ⟨"/home/u/.config/quickalias", "/etc/quickalias", ⟨[strayByteAlias], []⟩, openFS []⟩

/-- A world whose User set holds two aliases of valid UTF-8 strings, one with
characters the encoder escapes and one outside ASCII. -/
def quotedWorld : RawWorld :=
  ⟨"/home/u/.config/quickalias", "/etc/quickalias",
    ⟨[⟨GoString.ofString "say", GoString.ofString "echo \"a<b\" \\ \t&",
        GoString.ofString "2024-01-01 10:00:00", GoString.ofString "user"⟩,
      ⟨GoString.ofString "café", GoString.ofString "ls -l",
        GoString.ofString "2024-01-01 11:00:00", GoString.ofString "user"⟩], []⟩,
    openFS []⟩

instance (fs : FS) : Decidable fs.WellFormed := by
  unfold FS.WellFormed; infer_instance

instance (i : Instant) : Decidable i.Valid := by
  unfold Instant.Valid; infer_instance

instance (i j : Instant) : Decidable (i.SameMinute j) := by
  unfold Instant.SameMinute; infer_instance

instance (i j : Instant) : Decidable (i.MinuteBefore j) := by
  unfold Instant.MinuteBefore; infer_instance

instance (i j : Instant) : Decidable (i.Before j) := by
  unfold Instant.Before; infer_instance

instance (name : String) (aliases : List Alias) : Decidable (Present name aliases) := by
  unfold Present; infer_instance

instance (aliases : List Alias) : Decidable (UniqueNames aliases) := by
  unfold UniqueNames; infer_instance

instance (s : GoString) : Decidable (GoString.Valid s) := by
  unfold GoString.Valid; infer_instance

instance (a : RawAlias) : Decidable a.Valid := by
  unfold RawAlias.Valid; infer_instance

/-! ## Lemmas about the loops -/

theorem scan_eq_none_iff (name : String) (l : List Alias) :
    GetAlias.scan name l = none ↔ ¬ Present name l := by
  induction l with
  | nil => simp [GetAlias.scan, Present]
  | cons a rest ih =>
    unfold GetAlias.scan
    by_cases h : a.Name = name
    · simp [h, Present]
    · simp only [h, if_false, ih]
      simp [Present, h]

theorem scan_eq_some_iff (name : String) (l : List Alias) (a : Alias) :
    GetAlias.scan name l = some a ↔ IsFirstNamed name l a := by
  induction l with
  | nil => simp [GetAlias.scan, IsFirstNamed]
  | cons b rest ih =>
    unfold GetAlias.scan
    by_cases h : b.Name = name
    · simp only [h, if_true, Option.some.injEq]
      constructor
      · rintro rfl
        exact ⟨[], rest, rfl, h, by simp⟩
      · rintro ⟨before, after, heq, _, hb⟩
        cases before with
        | nil => simp at heq; exact heq.1
        | cons c before =>
          simp at heq
          exact absurd h (heq.1 ▸ hb c (by simp))
    · simp only [h, if_false, ih]
      constructor
      · rintro ⟨before, after, heq, ha, hb⟩
        refine ⟨b :: before, after, by simp [heq], ha, ?_⟩
        intro c hc
        rcases List.mem_cons.1 hc with rfl | hc
        · exact h
        · exact hb c hc
      · rintro ⟨before, after, heq, ha, hb⟩
        cases before with
        | nil =>
          simp at heq
          exact absurd ha (heq.1 ▸ h)
        | cons c before =>
          simp at heq
          exact ⟨before, after, heq.2, ha, fun d hd => hb d (by simp [hd])⟩

theorem present_of_isFirstNamed {name : String} {l : List Alias} {a : Alias}
    (h : IsFirstNamed name l a) : Present name l := by
  obtain ⟨before, after, heq, ha, _⟩ := h
  exact ⟨a, by simp [heq], ha⟩

theorem exists_isFirstNamed {name : String} {l : List Alias}
    (h : Present name l) : ∃ a, IsFirstNamed name l a := by
  cases hs : GetAlias.scan name l with
  | none => exact absurd h ((scan_eq_none_iff name l).1 hs)
  | some a => exact ⟨a, (scan_eq_some_iff name l a).1 hs⟩

theorem removeLoop_eq (name : String) (rest : List Alias) :
    ∀ before : List Alias,
      RemoveAlias.loop name (before ++ rest) before.length rest
        = before ++ rest.eraseP (fun a => decide (a.Name = name)) := by
  induction rest with
  | nil => intro before; simp [RemoveAlias.loop]
  | cons a rest ih =>
    intro before
    unfold RemoveAlias.loop
    by_cases h : a.Name = name
    · simp [h, List.take_append_eq_append_take, List.drop_append_eq_append_drop]
    · have := ih (before ++ [a])
      simp only [List.append_assoc, List.singleton_append, List.length_append,
        List.length_singleton] at this
      simp [h, this]

theorem removeAlias_eq_eraseP (name : String) (l : List Alias) :
    RemoveAlias name l = l.eraseP (fun a => decide (a.Name = name)) := by
  have := removeLoop_eq name l []
  simpa [RemoveAlias] using this

theorem populate_apply (l : List Alias) :
    ∀ (m : NameMap) (x : String),
      FindConflicts.populate m l x = true ↔ m x = true ∨ Present x l := by
  induction l with
  | nil => intro m x; simp [FindConflicts.populate, Present]
  | cons a rest ih =>
    intro m x
    unfold FindConflicts.populate
    rw [ih]
    by_cases h : x = a.Name
    · simp [NameMap.set, h, Present]
    · have h2 : ¬ a.Name = x := fun e => h e.symm
      simp [NameMap.set, h, h2, Present]

theorem collect_eq (m : NameMap) (l : List Alias) :
    ∀ acc : List String,
      FindConflicts.collect m acc l
        = acc ++ (l.filter (fun a => m a.Name)).map Alias.Name := by
  induction l with
  | nil => intro acc; simp [FindConflicts.collect]
  | cons a rest ih =>
    intro acc
    unfold FindConflicts.collect
    by_cases h : m a.Name = true
    · simp [h, ih]
    · simp [h, ih]

theorem findConflicts_eq (U G : List Alias) :
    FindConflicts U G
      = (G.filter (fun g => decide (Present g.Name U))).map Alias.Name := by
  unfold FindConflicts
  rw [collect_eq]
  simp only [List.nil_append]
  congr 1
  apply List.filter_congr
  intro g _
  have := populate_apply U NameMap.empty g.Name
  simp only [NameMap.empty, Bool.false_eq_true, false_or] at this
  by_cases hp : Present g.Name U
  · simp [hp, this.2 hp]
  · have : FindConflicts.populate NameMap.empty U g.Name = false := by
      cases hq : FindConflicts.populate NameMap.empty U g.Name with
      | false => rfl
      | true => exact absurd (this.1 hq) hp
    simp [hp, this]

theorem removeAlias_of_isFirstNamed {name : String} {before after : List Alias}
    {a : Alias} (ha : a.Name = name) (hb : ∀ b ∈ before, b.Name ≠ name) :
    RemoveAlias name (before ++ a :: after) = before ++ after := by
  rw [removeAlias_eq_eraseP, List.eraseP_append_right _ (by simpa using hb)]
  simp [ha]

theorem removeAlias_of_not_present {name : String} {l : List Alias}
    (h : ¬ Present name l) : RemoveAlias name l = l := by
  rw [removeAlias_eq_eraseP]
  apply List.eraseP_of_forall_not
  intro a ha hp
  exact h ⟨a, ha, by simpa using hp⟩

theorem removeAlias_sublist (name : String) (l : List Alias) :
    (RemoveAlias name l).Sublist l := by
  rw [removeAlias_eq_eraseP]
  exact List.eraseP_sublist l

theorem removeAlias_length (name : String) (l : List Alias) :
    (RemoveAlias name l).length
      = if Present name l then l.length - 1 else l.length := by
  by_cases h : Present name l
  · obtain ⟨a, before, after, heq, ha, hb⟩ :
        ∃ a before after, l = before ++ a :: after ∧ a.Name = name ∧
          ∀ b ∈ before, b.Name ≠ name := by
      obtain ⟨a, before, after, h1, h2, h3⟩ := exists_isFirstNamed h
      exact ⟨a, before, after, h1, h2, h3⟩
    rw [if_pos h, heq, removeAlias_of_isFirstNamed ha hb]
    simp
  · rw [if_neg h, removeAlias_of_not_present h]

theorem removeAlias_filter_ne (name : String) (l : List Alias) :
    (RemoveAlias name l).filter (fun a => decide (a.Name ≠ name))
      = l.filter (fun a => decide (a.Name ≠ name)) := by
  by_cases h : Present name l
  · obtain ⟨a, before, after, heq, ha, hb⟩ := exists_isFirstNamed h
    rw [heq, removeAlias_of_isFirstNamed ha hb]
    simp [ha]
  · rw [removeAlias_of_not_present h]

theorem uniqueNames_removeAlias {name : String} {l : List Alias}
    (h : UniqueNames l) : UniqueNames (RemoveAlias name l) :=
  List.Nodup.sublist ((removeAlias_sublist name l).map Alias.Name) h

theorem not_present_removeAlias {name : String} {l : List Alias}
    (h : UniqueNames l) : ¬ Present name (RemoveAlias name l) := by
  by_cases hp : Present name l
  · obtain ⟨a, before, after, heq, ha, hb⟩ := exists_isFirstNamed hp
    rw [heq, removeAlias_of_isFirstNamed ha hb]
    rintro ⟨c, hc, hcn⟩
    rw [heq] at h
    unfold UniqueNames at h
    rw [List.map_append, List.map_cons, List.nodup_append] at h
    rcases List.mem_append.1 hc with hc | hc
    · exact hb c hc hcn
    · have hnd := h.2.1
      rw [List.nodup_cons] at hnd
      exact hnd.1 (List.mem_map.2 ⟨c, hc, hcn.trans ha.symm⟩)
  · rw [removeAlias_of_not_present hp]
    exact hp

theorem uniqueNames_upsert {l : List Alias} (r : Alias) (h : UniqueNames l) :
    UniqueNames (RemoveAlias r.Name l ++ [r]) := by
  unfold UniqueNames
  rw [List.map_append, List.nodup_append]
  refine ⟨uniqueNames_removeAlias h, by simp, ?_⟩
  intro x hx hx2
  simp only [List.map_cons, List.map_nil, List.mem_singleton] at hx2
  obtain ⟨c, hc, hcn⟩ := List.mem_map.1 hx
  exact not_present_removeAlias h ⟨c, hc, hcn.trans hx2⟩

theorem aliasesOf_addOrUpdate (qa : State) (name command created level : String) :
    (qa.addOrUpdate name command created level).aliasesOf level
      = RemoveAlias name (qa.aliasesOf level)
          ++ [newAlias name command created level] := by
  by_cases h : level = "user" <;> simp [State.addOrUpdate, State.aliasesOf, h]

theorem aliasesOf_addOrUpdate_other (qa : State)
    (name command created level other : String)
    (h : ¬ (other = "user" ↔ level = "user")) :
    (qa.addOrUpdate name command created level).aliasesOf other
      = qa.aliasesOf other := by
  by_cases h1 : level = "user" <;> by_cases h2 : other = "user" <;>
    simp_all [State.addOrUpdate, State.aliasesOf]

theorem aliasesOf_congr (qa : State) (level other : String)
    (h : other = "user" ↔ level = "user") :
    qa.aliasesOf other = qa.aliasesOf level := by
  by_cases h1 : level = "user" <;> by_cases h2 : other = "user" <;>
    simp_all [State.aliasesOf]

theorem aliasesOf_removeFrom (qa : State) (name level : String) :
    (qa.removeFrom name level).1.aliasesOf level
      = RemoveAlias name (qa.aliasesOf level) := by
  by_cases h : level = "user" <;> simp [State.removeFrom, State.aliasesOf, h]

theorem aliasesOf_removeFrom_other (qa : State) (name level other : String)
    (h : ¬ (other = "user" ↔ level = "user")) :
    (qa.removeFrom name level).1.aliasesOf other = qa.aliasesOf other := by
  by_cases h1 : level = "user" <;> by_cases h2 : other = "user" <;>
    simp_all [State.removeFrom, State.aliasesOf]

theorem removeFrom_found (qa : State) (name level : String) :
    (qa.removeFrom name level).2
      = decide ((RemoveAlias name (qa.aliasesOf level)).length
          < (qa.aliasesOf level).length) := by
  by_cases h : level = "user" <;> simp [State.removeFrom, State.aliasesOf, h]

/-! ## Lookup and precedence -/

/-- C1: `GetAlias` returns the first record of the User set named `name` with
level "user" when the User set has one; otherwise the first record of the
Global set named `name` with level "global" when the Global set has one;
otherwise no record and the empty level. So a name present only in the User
set resolves to "user", only in the Global set to "global", and a name in
neither is not found. -/
theorem C1_getAlias_resolution (name : String) (U G : List Alias) :
    (Present name U →
      ∃ a, IsFirstNamed name U a ∧ GetAlias name U G = (some a, "user")) ∧
    (¬ Present name U → Present name G →
      ∃ a, IsFirstNamed name G a ∧ GetAlias name U G = (some a, "global")) ∧
    (¬ Present name U → ¬ Present name G → GetAlias name U G = (none, "")) ∧
    (Present name U → ¬ Present name G → (GetAlias name U G).2 = "user") ∧
    (¬ Present name U → Present name G → (GetAlias name U G).2 = "global") := by
  have user_case : Present name U →
      ∃ a, IsFirstNamed name U a ∧ GetAlias name U G = (some a, "user") := by
    intro hU
    obtain ⟨a, ha⟩ := exists_isFirstNamed hU
    refine ⟨a, ha, ?_⟩
    simp [GetAlias, (scan_eq_some_iff name U a).2 ha]
  have global_case : ¬ Present name U → Present name G →
      ∃ a, IsFirstNamed name G a ∧ GetAlias name U G = (some a, "global") := by
    intro hU hG
    obtain ⟨a, ha⟩ := exists_isFirstNamed hG
    refine ⟨a, ha, ?_⟩
    simp [GetAlias, (scan_eq_none_iff name U).2 hU, (scan_eq_some_iff name G a).2 ha]
  refine ⟨user_case, global_case, ?_, ?_, ?_⟩
  · intro hU hG
    simp [GetAlias, (scan_eq_none_iff name U).2 hU, (scan_eq_none_iff name G).2 hG]
  · intro hU _
    obtain ⟨a, _, h⟩ := user_case hU
    rw [h]
  · intro hU hG
    obtain ⟨a, _, h⟩ := global_case hU hG
    rw [h]

/-- C1 at the scenario of the specification: with an empty User set and
`deploy` in the Global set, `deploy` resolves to the Global record. -/
theorem C1_getAlias_resolution_witness :
    ∃ a, IsFirstNamed "deploy" [⟨"deploy", "kubectl apply -f .", "", "global"⟩] a ∧
      GetAlias "deploy" [] [⟨"deploy", "kubectl apply -f .", "", "global"⟩]
        = (some a, "global") :=
  (C1_getAlias_resolution "deploy" []
    [⟨"deploy", "kubectl apply -f .", "", "global"⟩]).2.1 (by decide) (by decide)

/-- C2: User shadows Global. For a name present in both sets `GetAlias`
returns level "user" and a record that is an element of the User set; the
level is never "global", and the result is the same whatever the Global set
holds, so the Global record of that name is never the one returned. -/
theorem C2_user_shadows_global (name : String) (U G : List Alias)
    (hU : Present name U) (hG : Present name G) :
    (GetAlias name U G).2 = "user" ∧
    (GetAlias name U G).2 ≠ "global" ∧
    (∃ a, (GetAlias name U G).1 = some a ∧ a ∈ U ∧ a.Name = name ∧
      IsFirstNamed name U a) ∧
    (∀ G2 : List Alias, GetAlias name U G2 = GetAlias name U G) := by
  have _ := hG
  obtain ⟨a, ha⟩ := exists_isFirstNamed hU
  have hs := (scan_eq_some_iff name U a).2 ha
  have hres : ∀ G2 : List Alias, GetAlias name U G2 = (some a, "user") := by
    intro G2; simp [GetAlias, hs]
  obtain ⟨before, after, heq, hn, _⟩ := id ha
  refine ⟨by rw [hres G], by rw [hres G]; simp, ⟨a, by rw [hres G], ?_, hn, ha⟩, ?_⟩
  · simp [heq]
  · intro G2; rw [hres G2, hres G]

/-- C2 at a concrete input: `deploy` defined at both levels resolves to the
User record. -/
theorem C2_user_shadows_global_witness :
    (GetAlias "deploy" [⟨"deploy", "echo hi", "", "user"⟩]
      [⟨"deploy", "kubectl apply -f .", "", "global"⟩]).2 = "user" :=
  (C2_user_shadows_global "deploy" [⟨"deploy", "echo hi", "", "user"⟩]
    [⟨"deploy", "kubectl apply -f .", "", "global"⟩] (by decide) (by decide)).1

/-! ## Conflict detection -/

/-- C3: `FindConflicts U G` is the list of the names of the records of `G`, in
the order of `G`, whose name is the name of some record of `U`; a name is in
the result exactly when it is present in both sets. -/
theorem C3_findConflicts_filter (U G : List Alias) :
    FindConflicts U G
      = (G.filter (fun g => decide (Present g.Name U))).map Alias.Name ∧
    ∀ n : String, n ∈ FindConflicts U G ↔ Present n U ∧ Present n G := by
  refine ⟨findConflicts_eq U G, ?_⟩
  intro n
  rw [findConflicts_eq]
  simp only [List.mem_map, List.mem_filter, decide_eq_true_eq]
  constructor
  · rintro ⟨g, ⟨hg, hp⟩, rfl⟩
    exact ⟨hp, g, hg, rfl⟩
  · rintro ⟨hp, g, hg, rfl⟩
    exact ⟨g, ⟨hg, hp⟩, rfl⟩

/-- C4 as stated fails: with a Global set holding two records named `a`, the
name `a`, present in both sets, is listed twice. -/
theorem C4_conflict_once_counterexample :
    Present "a" [⟨"a", "ls", "", "user"⟩] ∧
    Present "a" [⟨"a", "pwd", "", "global"⟩, ⟨"a", "cd", "", "global"⟩] ∧
    (FindConflicts [⟨"a", "ls", "", "user"⟩]
      [⟨"a", "pwd", "", "global"⟩, ⟨"a", "cd", "", "global"⟩]).count "a" = 2 := by
  decide

/-- C4 amended: for a name present in both sets, `FindConflicts U G` lists it
once for each record of `G` with that name, so at least once, and exactly once
when the names of `G` are unique. -/
theorem C4_conflict_once_amended (U G : List Alias) (name : String)
    (hU : Present name U) (hG : Present name G) :
    (FindConflicts U G).count name
      = G.countP (fun g => decide (g.Name = name)) ∧
    1 ≤ (FindConflicts U G).count name ∧
    (UniqueNames G → (FindConflicts U G).count name = 1) := by
  have hcount : (FindConflicts U G).count name
      = G.countP (fun g => decide (g.Name = name)) := by
    rw [findConflicts_eq, List.count, List.countP_map, List.countP_filter]
    apply List.countP_congr
    intro g _
    simp only [Function.comp, beq_iff_eq, Bool.and_eq_true, decide_eq_true_eq]
    constructor
    · rintro ⟨h, _⟩; exact h
    · intro h; exact ⟨h, h ▸ hU⟩
  have hpos : 1 ≤ G.countP (fun g => decide (g.Name = name)) := by
    obtain ⟨g, hg, hn⟩ := hG
    exact List.countP_pos_iff.2 ⟨g, hg, by simpa using hn⟩
  refine ⟨hcount, hcount ▸ hpos, ?_⟩
  intro huniq
  rw [hcount]
  have h1 : G.countP (fun g => decide (g.Name = name))
      = (G.map Alias.Name).count name := by
    rw [List.count, List.countP_map]
    apply List.countP_congr
    intro g _
    simp [Function.comp]
  have h2 : (G.map Alias.Name).count name ≤ 1 :=
    List.nodup_iff_count_le_one.1 huniq name
  omega

/-- C4 amended at a concrete input: one record named `deploy` at each level
gives exactly one conflict entry. -/
theorem C4_conflict_once_amended_witness :
    (FindConflicts [⟨"deploy", "echo hi", "", "user"⟩]
      [⟨"deploy", "kubectl apply -f .", "", "global"⟩]).count "deploy" = 1 :=
  (C4_conflict_once_amended [⟨"deploy", "echo hi", "", "user"⟩]
    [⟨"deploy", "kubectl apply -f .", "", "global"⟩] "deploy"
    (by decide) (by decide)).2.2 (by decide)

/-! ## Add or update -/

/-- C5: when the names of a level's set are unique, after `AddAlias` stores a
record for `name` at that level (remove, then append), looking `name` up in the
resulting set returns exactly the record just written: same name, command,
creation date and level. Through `GetAlias` it is found with level "user" when
stored at the user level, and with level "global" when stored at the global
level and the User set has no record of that name. -/
theorem C5_upsert_then_find (qa : State) (name command created level : String)
    (h : UniqueNames (qa.aliasesOf level)) :
    GetAlias.scan name ((qa.addOrUpdate name command created level).aliasesOf level)
      = some (newAlias name command created level) ∧
    (level = "user" →
      GetAlias name (qa.addOrUpdate name command created level).UserAliases
          (qa.addOrUpdate name command created level).GlobalAliases
        = (some (newAlias name command created level), "user")) ∧
    (level ≠ "user" → ¬ Present name qa.UserAliases →
      GetAlias name (qa.addOrUpdate name command created level).UserAliases
          (qa.addOrUpdate name command created level).GlobalAliases
        = (some (newAlias name command created level), "global")) := by
  have hscan : ∀ S : List Alias, UniqueNames S →
      GetAlias.scan name (RemoveAlias name S ++ [newAlias name command created level])
        = some (newAlias name command created level) := by
    intro S hS
    rw [scan_eq_some_iff]
    refine ⟨RemoveAlias name S, [], rfl, rfl, ?_⟩
    intro b hb hn
    exact not_present_removeAlias hS ⟨b, hb, hn⟩
  refine ⟨?_, ?_, ?_⟩
  · rw [aliasesOf_addOrUpdate]
    exact hscan _ h
  · intro hl
    subst hl
    have hU : UniqueNames qa.UserAliases := by simpa [State.aliasesOf] using h
    simp [GetAlias, State.addOrUpdate, hscan _ hU]
  · intro hl hnp
    have hG : UniqueNames qa.GlobalAliases := by simpa [State.aliasesOf, hl] using h
    simp [GetAlias, State.addOrUpdate, hl, hscan _ hG, (scan_eq_none_iff name _).2 hnp]

/-- C5 at a concrete input: overwriting `deploy` in a user set of two records
and looking it up returns the new record. -/
theorem C5_upsert_then_find_witness :
    GetAlias.scan "deploy"
        ((State.addOrUpdate
          ⟨[⟨"deploy", "old", "t0", "user"⟩, ⟨"ll", "ls -l", "t0", "user"⟩], []⟩
          "deploy" "echo hi" "t1" "user").aliasesOf "user")
      = some (newAlias "deploy" "echo hi" "t1" "user") :=
  (C5_upsert_then_find
    ⟨[⟨"deploy", "old", "t0", "user"⟩, ⟨"ll", "ls -l", "t0", "user"⟩], []⟩
    "deploy" "echo hi" "t1" "user" (by decide)).1

/-- C6: storing a record through `AddAlias` does not duplicate: the set of the
level keeps its size when a record of that name was already in it, and grows
by one otherwise. -/
theorem C6_upsert_size (qa : State) (name command created level : String) :
    ((qa.addOrUpdate name command created level).aliasesOf level).length
      = if Present name (qa.aliasesOf level) then (qa.aliasesOf level).length
        else (qa.aliasesOf level).length + 1 := by
  rw [aliasesOf_addOrUpdate, List.length_append, removeAlias_length]
  by_cases h : Present name (qa.aliasesOf level)
  · obtain ⟨a, ha, _⟩ := id h
    have hpos : 0 < (qa.aliasesOf level).length := List.length_pos_of_mem ha
    simp only [if_pos h, List.length_singleton]
    omega
  · simp [if_neg h]

/-- C7: after `AddAlias` stores a record, that record is the last element of
the level's set; what stands before it is the old set without its first record
of that name, in the old relative order, and every old record of another name
is still there. -/
theorem C7_upsert_appends_last (qa : State) (name command created level : String) :
    ((qa.addOrUpdate name command created level).aliasesOf level).getLast?
      = some (newAlias name command created level) ∧
    ((qa.addOrUpdate name command created level).aliasesOf level).dropLast
      = (qa.aliasesOf level).eraseP (fun a => decide (a.Name = name)) ∧
    (((qa.addOrUpdate name command created level).aliasesOf level).dropLast).Sublist
      (qa.aliasesOf level) ∧
    (((qa.addOrUpdate name command created level).aliasesOf level).dropLast).filter
        (fun a => decide (a.Name ≠ name))
      = (qa.aliasesOf level).filter (fun a => decide (a.Name ≠ name)) ∧
    (∀ a ∈ qa.aliasesOf level, a.Name ≠ name →
      a ∈ ((qa.addOrUpdate name command created level).aliasesOf level).dropLast) := by
  rw [aliasesOf_addOrUpdate]
  have hdrop : (RemoveAlias name (qa.aliasesOf level)
      ++ [newAlias name command created level]).dropLast
      = RemoveAlias name (qa.aliasesOf level) := by simp
  rw [hdrop]
  refine ⟨by simp, removeAlias_eq_eraseP _ _, removeAlias_sublist _ _,
    removeAlias_filter_ne _ _, ?_⟩
  intro a ha hn
  have : a ∈ (qa.aliasesOf level).filter (fun a => decide (a.Name ≠ name)) := by
    simp [List.mem_filter, ha, hn]
  rw [← removeAlias_filter_ne] at this
  exact (List.mem_filter.1 this).1

/-- C8: uniqueness of names within a level is preserved. If the names of a
level's set are unique, they are still unique after `AddAlias` stores any
record at any level, after `QuickAlias.RemoveAlias` removes any name from any
level, and in the result of `RemoveAlias` on the set. -/
theorem C8_unique_names_preserved (qa : State) (level : String)
    (h : UniqueNames (qa.aliasesOf level)) :
    (∀ name command created op : String,
      UniqueNames ((qa.addOrUpdate name command created op).aliasesOf level)) ∧
    (∀ name op : String, UniqueNames ((qa.removeFrom name op).1.aliasesOf level)) ∧
    (∀ name : String, UniqueNames (RemoveAlias name (qa.aliasesOf level))) := by
  refine ⟨?_, ?_, fun name => uniqueNames_removeAlias h⟩
  · intro name command created op
    by_cases hop : level = "user" ↔ op = "user"
    · rw [aliasesOf_congr _ op level hop, aliasesOf_addOrUpdate,
        ← aliasesOf_congr qa op level hop]
      exact uniqueNames_upsert (newAlias name command created op) h
    · rw [aliasesOf_addOrUpdate_other _ _ _ _ _ _ hop]
      exact h
  · intro name op
    by_cases hop : level = "user" ↔ op = "user"
    · rw [aliasesOf_congr _ op level hop, aliasesOf_removeFrom,
        ← aliasesOf_congr qa op level hop]
      exact uniqueNames_removeAlias h
    · rw [aliasesOf_removeFrom_other _ _ _ _ hop]
      exact h

/-- C8 at a concrete input: a user set with unique names keeps them unique
when `deploy` is overwritten. -/
theorem C8_unique_names_preserved_witness :
    UniqueNames ((State.addOrUpdate
      ⟨[⟨"deploy", "old", "t0", "user"⟩, ⟨"ll", "ls -l", "t0", "user"⟩], []⟩
      "deploy" "echo hi" "t1" "user").aliasesOf "user") :=
  (C8_unique_names_preserved
    ⟨[⟨"deploy", "old", "t0", "user"⟩, ⟨"ll", "ls -l", "t0", "user"⟩], []⟩
    "user" (by decide)).1 "deploy" "echo hi" "t1" "user"

/-! ## Remove -/

/-- C9: `RemoveAlias` of a name that no record of the set has returns the set
itself: same records, same order, same length. The function only returns a
slice, so there is no error to signal, and `QuickAlias.RemoveAlias` leaves the
state as it was with `found` false. -/
theorem C9_remove_absent (name : String) (S : List Alias)
    (h : ¬ Present name S) :
    RemoveAlias name S = S ∧
    (RemoveAlias name S).length = S.length ∧
    (∀ (qa : State) (level : String), qa.aliasesOf level = S →
      qa.removeFrom name level = (qa, false)) := by
  have heq := removeAlias_of_not_present h
  refine ⟨heq, by rw [heq], ?_⟩
  intro qa level hS
  cases qa with
  | mk U G =>
    by_cases hl : level = "user"
    · have hU : U = S := by simpa [State.aliasesOf, hl] using hS
      subst hU
      simp [State.removeFrom, hl, heq]
    · have hG : G = S := by simpa [State.aliasesOf, hl] using hS
      subst hG
      simp [State.removeFrom, hl, heq]

/-- C9 at a concrete input: removing `gs` from a set that only holds `ll`
returns the set unchanged. -/
theorem C9_remove_absent_witness :
    RemoveAlias "gs" [⟨"ll", "ls -l", "t0", "user"⟩]
      = [⟨"ll", "ls -l", "t0", "user"⟩] :=
  (C9_remove_absent "gs" [⟨"ll", "ls -l", "t0", "user"⟩] (by decide)).1

/-- C10: `RemoveAlias` of a name that some record of the set has returns the
set with exactly its first record of that name removed. The result is one
shorter, keeps all other records in their relative order, and keeps every
later record of the same name; `QuickAlias.RemoveAlias` sees `found` true. -/
theorem C10_remove_present (name : String) (S : List Alias)
    (h : Present name S) :
    (∃ before a after, S = before ++ a :: after ∧ a.Name = name ∧
      (∀ b ∈ before, b.Name ≠ name) ∧ RemoveAlias name S = before ++ after) ∧
    (RemoveAlias name S).length = S.length - 1 ∧
    (RemoveAlias name S).length + 1 = S.length ∧
    (RemoveAlias name S).Sublist S ∧
    (RemoveAlias name S).countP (fun a => decide (a.Name = name)) + 1
      = S.countP (fun a => decide (a.Name = name)) ∧
    (∀ (qa : State) (level : String), qa.aliasesOf level = S →
      (qa.removeFrom name level).2 = true) := by
  obtain ⟨a, before, after, heq, ha, hb⟩ := exists_isFirstNamed h
  have hrem : RemoveAlias name S = before ++ after := by
    rw [heq]; exact removeAlias_of_isFirstNamed ha hb
  have hlen : (RemoveAlias name S).length + 1 = S.length := by
    rw [hrem, heq]; simp; omega
  refine ⟨⟨before, a, after, heq, ha, hb, hrem⟩, by omega, hlen,
    removeAlias_sublist _ _, ?_, ?_⟩
  · rw [hrem, heq]
    simp [List.countP_append, List.countP_cons, ha]
    omega
  · intro qa level hS
    rw [removeFrom_found, hS]
    simp only [decide_eq_true_eq]
    omega

/-- C10 at a concrete input: of two records named `a` only the first one is
removed, and the later one stays in the result. -/
theorem C10_remove_present_witness :
    (RemoveAlias "a"
        [⟨"b", "x", "t0", "user"⟩, ⟨"a", "ls", "t0", "user"⟩,
          ⟨"a", "pwd", "t1", "user"⟩]).countP (fun a => decide (a.Name = "a")) + 1
      = [(⟨"b", "x", "t0", "user"⟩ : Alias), ⟨"a", "ls", "t0", "user"⟩,
          ⟨"a", "pwd", "t1", "user"⟩].countP (fun a => decide (a.Name = "a")) :=
  (C10_remove_present "a"
    [⟨"b", "x", "t0", "user"⟩, ⟨"a", "ls", "t0", "user"⟩, ⟨"a", "pwd", "t1", "user"⟩]
    (by decide)).2.2.2.2.1


/-! ## Lemmas about the persistence layer -/

theorem separate_eq (l : List Alias) :
    ∀ (qa : State) (u g : Nat),
      ImportConfig.separate l (qa, u, g)
        = (⟨qa.UserAliases ++ l.filter (fun a => decide (a.Level ≠ "global")),
            qa.GlobalAliases ++ l.filter (fun a => decide (a.Level = "global"))⟩,
           u + (l.filter (fun a => decide (a.Level ≠ "global"))).length,
           g + (l.filter (fun a => decide (a.Level = "global"))).length) := by
  induction l with
  | nil => intro qa u g; simp [ImportConfig.separate]
  | cons a rest ih =>
    intro qa u g
    unfold ImportConfig.separate
    by_cases h : a.Level = "global"
    · simp only [h, if_true, ih]
      simp [h, Nat.add_assoc, Nat.add_comm 1]
    · simp only [h, if_false, ih]
      simp [h, Nat.add_assoc, Nat.add_comm 1]

theorem writeFile_oracles {fs fs1 : FS} {p : Path} {data : String}
    (h : fs.WriteFile p data = some fs1) :
    fs1.readDenied = fs.readDenied ∧ fs1.writeDenied = fs.writeDenied ∧
    fs1.mkdirDenied = fs.mkdirDenied ∧ fs1.removeDenied = fs.removeDenied := by
  unfold FS.WriteFile at h
  by_cases hd : fs.writeDenied p = true
  · simp [hd] at h
  · simp only [hd, if_false, Option.some.injEq, Bool.false_eq_true] at h
    subst h
    exact ⟨rfl, rfl, rfl, rfl⟩

theorem writeFile_eq_some {fs : FS} {p : Path} {data : String}
    (h : fs.writeDenied p = false) :
    fs.WriteFile p data = some { fs with
      files := ⟨p.dir, p.name, data⟩ :: fs.files.filter (fun f => !f.isAt p) } := by
  simp [FS.WriteFile, h]

theorem writeFile_eq_none {fs : FS} {p : Path} {data : String}
    (h : fs.writeDenied p = true) : fs.WriteFile p data = none := by
  simp [FS.WriteFile, h]

theorem readFile_after_write {fs fs1 : FS} {p : Path} {data : String}
    (h : fs.WriteFile p data = some fs1) (hr : fs.readDenied p = false) :
    fs1.ReadFile p = some data := by
  unfold FS.WriteFile at h
  by_cases hd : fs.writeDenied p = true
  · simp [hd] at h
  · simp only [hd, if_false, Option.some.injEq, Bool.false_eq_true] at h
    subst h
    simp [FS.ReadFile, hr, File.isAt]

theorem remove_oracles (fs : FS) (p : Path) :
    (fs.Remove p).readDenied = fs.readDenied ∧
    (fs.Remove p).writeDenied = fs.writeDenied ∧
    (fs.Remove p).mkdirDenied = fs.mkdirDenied ∧
    (fs.Remove p).removeDenied = fs.removeDenied := by
  unfold FS.Remove
  by_cases hd : fs.removeDenied p = true
  · simp [hd]
  · simp [hd]

theorem removeAll_oracles (dir : String) (names : List String) :
    ∀ fs : FS,
      (CleanOldBackups.removeAll dir fs names).readDenied = fs.readDenied ∧
      (CleanOldBackups.removeAll dir fs names).writeDenied = fs.writeDenied ∧
      (CleanOldBackups.removeAll dir fs names).mkdirDenied = fs.mkdirDenied ∧
      (CleanOldBackups.removeAll dir fs names).removeDenied = fs.removeDenied := by
  induction names with
  | nil => intro fs; exact ⟨rfl, rfl, rfl, rfl⟩
  | cons n rest ih =>
    intro fs
    unfold CleanOldBackups.removeAll
    obtain ⟨h1, h2, h3, h4⟩ := ih (fs.Remove ⟨dir, n⟩)
    obtain ⟨r1, r2, r3, r4⟩ := remove_oracles fs ⟨dir, n⟩
    exact ⟨h1.trans r1, h2.trans r2, h3.trans r3, h4.trans r4⟩

theorem sameSetting_refl (w : World) : SameSetting w w :=
  ⟨rfl, rfl, rfl, rfl, rfl, rfl, rfl⟩

theorem cleanOldBackups_setting (w : World) : SameSetting (CleanOldBackups w) w := by
  unfold CleanOldBackups
  by_cases h : (w.fs.Glob (joinDir w.UserConfigPath BACKUP_DIR)).length ≤ MAX_BACKUPS
  · simp only [h, if_true]
    exact sameSetting_refl w
  · simp only [h, if_false]
    obtain ⟨h1, h2, h3, h4⟩ := removeAll_oracles (joinDir w.UserConfigPath BACKUP_DIR)
      ((sortStrings (w.fs.Glob (joinDir w.UserConfigPath BACKUP_DIR))).take
        ((w.fs.Glob (joinDir w.UserConfigPath BACKUP_DIR)).length - MAX_BACKUPS)) w.fs
    exact ⟨rfl, rfl, rfl, h1, h2, h3, h4⟩

theorem createBackup_setting (lib : Lib) (w : World) (level timestamp : String) :
    SameSetting (CreateBackup lib w level timestamp).1 w := by
  unfold CreateBackup
  cases hm : lib.MarshalIndent (w.qa.aliasesOf level) with
  | none => exact sameSetting_refl w
  | some data =>
    simp only []
    cases hw : w.fs.WriteFile
        ⟨joinDir w.UserConfigPath BACKUP_DIR, "backup_" ++ timestamp ++ ".json"⟩ data with
    | none => exact sameSetting_refl w
    | some fs1 =>
      obtain ⟨o1, o2, o3, o4⟩ := writeFile_oracles hw
      obtain ⟨c1, c2, c3, c4, c5, c6, c7⟩ := cleanOldBackups_setting { w with fs := fs1 }
      exact ⟨c1, c2, c3, c4.trans o1, c5.trans o2, c6.trans o3, c7.trans o4⟩

theorem saveAliases_mkdir_failed {lib : Lib} {w : World} {level : String}
    (h : level ≠ "user" ∧ w.fs.MkdirAll w.GlobalConfigPath = false) :
    SaveAliases lib w level = (w, some Err.createDir) := by
  unfold SaveAliases
  rw [if_pos h]

theorem saveAliases_marshal_failed {lib : Lib} {w : World} {level : String}
    (h : ¬ (level ≠ "user" ∧ w.fs.MkdirAll w.GlobalConfigPath = false))
    (hm : lib.MarshalIndent (w.qa.aliasesOf level) = none) :
    SaveAliases lib w level = (w, some Err.process) := by
  unfold SaveAliases
  rw [if_neg h, hm]

theorem saveAliases_write_failed {lib : Lib} {w : World} {level data : String}
    (h : ¬ (level ≠ "user" ∧ w.fs.MkdirAll w.GlobalConfigPath = false))
    (hm : lib.MarshalIndent (w.qa.aliasesOf level) = some data)
    (hw : w.fs.WriteFile (w.aliasFile level) data = none) :
    SaveAliases lib w level = (w, some Err.write) := by
  unfold SaveAliases
  rw [if_neg h, hm]
  simp only [hw]

theorem saveAliases_written {lib : Lib} {w : World} {level data : String} {fs1 : FS}
    (h : ¬ (level ≠ "user" ∧ w.fs.MkdirAll w.GlobalConfigPath = false))
    (hm : lib.MarshalIndent (w.qa.aliasesOf level) = some data)
    (hw : w.fs.WriteFile (w.aliasFile level) data = some fs1) :
    SaveAliases lib w level = ({ w with fs := fs1 }, none) := by
  unfold SaveAliases
  rw [if_neg h, hm]
  simp only [hw]

/-- The four ways `SaveAliases` ends. -/
theorem saveAliases_cases (lib : Lib) (w : World) (level : String) :
    SaveAliases lib w level = (w, some Err.createDir) ∨
    SaveAliases lib w level = (w, some Err.process) ∨
    SaveAliases lib w level = (w, some Err.write) ∨
    ∃ data fs1, lib.MarshalIndent (w.qa.aliasesOf level) = some data ∧
      w.fs.WriteFile (w.aliasFile level) data = some fs1 ∧
      SaveAliases lib w level = ({ w with fs := fs1 }, none) := by
  by_cases h : level ≠ "user" ∧ w.fs.MkdirAll w.GlobalConfigPath = false
  · exact Or.inl (saveAliases_mkdir_failed h)
  · rcases Option.eq_none_or_eq_some (lib.MarshalIndent (w.qa.aliasesOf level))
      with hm | ⟨data, hm⟩
    · exact Or.inr (Or.inl (saveAliases_marshal_failed h hm))
    · rcases Option.eq_none_or_eq_some (w.fs.WriteFile (w.aliasFile level) data)
        with hw | ⟨fs1, hw⟩
      · exact Or.inr (Or.inr (Or.inl (saveAliases_write_failed h hm hw)))
      · exact Or.inr (Or.inr (Or.inr ⟨data, fs1, hm, hw, saveAliases_written h hm hw⟩))

theorem saveAliases_setting (lib : Lib) (w : World) (level : String) :
    SameSetting (SaveAliases lib w level).1 w := by
  rcases saveAliases_cases lib w level with h | h | h | ⟨data, fs1, _, hw, h⟩
  · rw [h]; exact sameSetting_refl w
  · rw [h]; exact sameSetting_refl w
  · rw [h]; exact sameSetting_refl w
  · rw [h]
    obtain ⟨o1, o2, o3, o4⟩ := writeFile_oracles hw
    exact ⟨rfl, rfl, rfl, o1, o2, o3, o4⟩

theorem saveAliases_of_error {lib : Lib} {w : World} {level : String} {e : Err}
    (h : (SaveAliases lib w level).2 = some e) : (SaveAliases lib w level).1 = w := by
  rcases saveAliases_cases lib w level with h1 | h1 | h1 | ⟨data, fs1, _, _, h1⟩
  · rw [h1]
  · rw [h1]
  · rw [h1]
  · rw [h1] at h; simp at h

theorem importConfig_read_failed {lib : Lib} {w : World} {path : Path}
    (response t1 t2 : String) (h : w.fs.ReadFile path = none) :
    ImportConfig lib w path response t1 t2 = ⟨w, some Err.read, false⟩ := by
  unfold ImportConfig
  rw [h]

theorem importConfig_parse_failed {lib : Lib} {w : World} {path : Path} {data : String}
    (response t1 t2 : String) (h : w.fs.ReadFile path = some data)
    (hp : (lib.Unmarshal data []).2 = true) :
    ImportConfig lib w path response t1 t2 = ⟨w, some Err.parse, false⟩ := by
  unfold ImportConfig
  rw [h]
  rcases hu : lib.Unmarshal data [] with ⟨l, b⟩
  rw [hu] at hp
  simp only at hp
  subst hp
  simp only [hu]

theorem importConfig_declined {lib : Lib} {w : World} {path : Path} {data : String}
    {response : String} (t1 t2 : String) (h : w.fs.ReadFile path = some data)
    (hp : (lib.Unmarshal data []).2 = false) (hno : declined lib response = true) :
    ImportConfig lib w path response t1 t2 = ⟨w, none, true⟩ := by
  unfold ImportConfig
  rw [h]
  rcases hu : lib.Unmarshal data [] with ⟨l, b⟩
  rw [hu] at hp
  simp only at hp
  subst hp
  simp only [hu, hno, if_true]

theorem separate_from_empty (L : List Alias) :
    (ImportConfig.separate L (⟨[], []⟩, 0, 0)).1 = importedSets L := by
  rw [separate_eq]
  simp [importedSets]

/-- A confirmed import is the two saves run on the staged world. -/
theorem importConfig_confirmed {lib : Lib} {w : World} {path : Path} {data : String}
    {L : List Alias} {response : String} (t1 t2 : String)
    (h : w.fs.ReadFile path = some data) (hp : lib.Unmarshal data [] = (L, false))
    (hyes : declined lib response = false) :
    ImportConfig lib w path response t1 t2
      = match SaveAliases lib (stagedWorld lib w L t1 t2) "user" with
        | (w4, some e) => ⟨w4, some e, true⟩
        | (w4, none) =>
          match SaveAliases lib w4 "global" with
          | (w5, some e) => ⟨w5, some e, true⟩
          | (w5, none) => ⟨w5, none, true⟩ := by
  unfold ImportConfig
  rw [h]
  simp only [hp, hyes, Bool.false_eq_true, if_false, separate_from_empty, stagedWorld]

theorem importConfig_confirmed_qa {lib : Lib} {w : World} {path : Path} {data : String}
    {L : List Alias} {response : String} (t1 t2 : String)
    (h : w.fs.ReadFile path = some data) (hp : lib.Unmarshal data [] = (L, false))
    (hyes : declined lib response = false) :
    (ImportConfig lib w path response t1 t2).world.qa = importedSets L ∧
    (ImportConfig lib w path response t1 t2).prompted = true := by
  rw [importConfig_confirmed t1 t2 h hp hyes]
  have h1 := (saveAliases_setting lib (stagedWorld lib w L t1 t2) "user").1
  have h2 := (saveAliases_setting lib
    (SaveAliases lib (stagedWorld lib w L t1 t2) "user").1 "global").1
  have hq : (stagedWorld lib w L t1 t2).qa = importedSets L := rfl
  rcases hs : SaveAliases lib (stagedWorld lib w L t1 t2) "user" with ⟨w4, e⟩
  rw [hs] at h1 h2
  simp only at h1 h2
  cases e with
  | some e => exact ⟨h1.trans hq, rfl⟩
  | none =>
    simp only
    rcases hs2 : SaveAliases lib w4 "global" with ⟨w5, e2⟩
    rw [hs2] at h2
    simp only at h2
    cases e2 with
    | some e2 => exact ⟨h2.trans (h1.trans hq), rfl⟩
    | none => exact ⟨h2.trans (h1.trans hq), rfl⟩

theorem stagedWorld_setting (lib : Lib) (w : World) (L : List Alias) (t1 t2 : String) :
    (stagedWorld lib w L t1 t2).qa = importedSets L ∧
    (stagedWorld lib w L t1 t2).UserConfigPath = w.UserConfigPath ∧
    (stagedWorld lib w L t1 t2).GlobalConfigPath = w.GlobalConfigPath ∧
    (stagedWorld lib w L t1 t2).fs.writeDenied = w.fs.writeDenied ∧
    (stagedWorld lib w L t1 t2).fs.mkdirDenied = w.fs.mkdirDenied := by
  obtain ⟨_, a2, a3, _, a5, a6, _⟩ := createBackup_setting lib w "user" t1
  obtain ⟨_, b2, b3, _, b5, b6, _⟩ :=
    createBackup_setting lib (CreateBackup lib w "user" t1).1 "global" t2
  exact ⟨rfl, b2.trans a2, b3.trans a3, b5.trans a5, b6.trans a6⟩

/-! ## Import -/

/-- C11: after a confirmed import of the record sequence `L`, whatever the sets
held before, the Global set is the records of `L` whose level is "global" and
the User set is the records of `L` with any other level, each in the order of
`L`; the two sizes add up to the size of `L` and every record of the new sets
comes from `L`. -/
theorem C11_import_partitions (lib : Lib) (w : World) (path : Path)
    (response t1 t2 data : String) (L : List Alias)
    (hread : w.fs.ReadFile path = some data)
    (hparse : lib.Unmarshal data [] = (L, false))
    (hyes : declined lib response = false) :
    (ImportConfig lib w path response t1 t2).world.qa.GlobalAliases
      = L.filter (fun a => decide (a.Level = "global")) ∧
    (ImportConfig lib w path response t1 t2).world.qa.UserAliases
      = L.filter (fun a => decide (a.Level ≠ "global")) ∧
    (ImportConfig lib w path response t1 t2).world.qa.UserAliases.length
      + (ImportConfig lib w path response t1 t2).world.qa.GlobalAliases.length
      = L.length ∧
    (∀ a, a ∈ (ImportConfig lib w path response t1 t2).world.qa.UserAliases ∨
        a ∈ (ImportConfig lib w path response t1 t2).world.qa.GlobalAliases → a ∈ L) := by
  have hq := (importConfig_confirmed_qa t1 t2 hread hparse hyes).1
  rw [hq]
  refine ⟨rfl, rfl, ?_, ?_⟩
  · simp only [importedSets]
    have := List.length_eq_countP_add_countP (fun a => decide (a.Level = "global")) L
    simp only [List.countP_eq_length_filter] at this
    rw [this, Nat.add_comm]
    congr 2
    apply List.filter_congr
    intro a _
    simp
  · intro a ha
    simp only [importedSets, List.mem_filter] at ha
    rcases ha with ha | ha
    · exact ha.1
    · exact ha.1

/-- C11 at the scenario of the specification: the import file holds `a` at
level "global" and `b` without a level; after the confirmed import the Global
set is `a` alone, and the previous global alias is gone. -/
theorem C11_import_partitions_witness :
    (ImportConfig refLib scenarioWorld ⟨"/tmp", "in.json"⟩ "y"
        "20240102_1200" "20240102_1200").world.qa.GlobalAliases
      = [(⟨"a", "ls", "", "global"⟩ : Alias), ⟨"b", "pwd", "", ""⟩].filter
          (fun a => decide (a.Level = "global")) :=
  (C11_import_partitions refLib scenarioWorld ⟨"/tmp", "in.json"⟩ "y"
    "20240102_1200" "20240102_1200" scenarioImport.data
    [⟨"a", "ls", "", "global"⟩, ⟨"b", "pwd", "", ""⟩]
    (by decide) (by decide) (by decide)).1

/-- C13: when the import file is read and parsed and the answer to the
confirmation prompt is not affirmative, `ImportConfig` returns no error and
changes nothing: the in-memory sets and the files are as before, so no backup
was created and no alias file written. -/
theorem C13_import_declined (lib : Lib) (w : World) (path : Path)
    (response t1 t2 data : String)
    (hread : w.fs.ReadFile path = some data)
    (hparse : (lib.Unmarshal data []).2 = false)
    (hno : lib.ToLower response ≠ "e" ∧ lib.ToLower response ≠ "evet" ∧
      lib.ToLower response ≠ "y") :
    (ImportConfig lib w path response t1 t2).err = none ∧
    (ImportConfig lib w path response t1 t2).world = w ∧
    (ImportConfig lib w path response t1 t2).prompted = true := by
  have hd : declined lib response = true := by
    simp [declined, hno.1, hno.2.1, hno.2.2]
  rw [importConfig_declined t1 t2 hread hparse hd]
  exact ⟨rfl, rfl, rfl⟩

/-- C13 at a concrete input: the answer "n" to the scenario's import leaves the
world as it was. -/
theorem C13_import_declined_witness :
    (ImportConfig refLib scenarioWorld ⟨"/tmp", "in.json"⟩ "n"
        "20240102_1200" "20240102_1200").world = scenarioWorld :=
  (C13_import_declined refLib scenarioWorld ⟨"/tmp", "in.json"⟩ "n"
    "20240102_1200" "20240102_1200" scenarioImport.data
    (by decide) (by decide) (by decide)).2.1

/-- C14: when the import file cannot be read, or its content does not parse as
a sequence of alias records, `ImportConfig` returns an error and leaves the
world as it was: the in-memory sets and the files are unchanged, and no
confirmation was asked for. -/
theorem C14_import_unreadable (lib : Lib) (w : World) (path : Path)
    (response t1 t2 : String)
    (h : w.fs.ReadFile path = none ∨
      ∃ data, w.fs.ReadFile path = some data ∧ (lib.Unmarshal data []).2 = true) :
    (ImportConfig lib w path response t1 t2).err ≠ none ∧
    (ImportConfig lib w path response t1 t2).world = w ∧
    (ImportConfig lib w path response t1 t2).prompted = false ∧
    (w.fs.ReadFile path = none →
      (ImportConfig lib w path response t1 t2).err = some Err.read) ∧
    (w.fs.ReadFile path ≠ none →
      (ImportConfig lib w path response t1 t2).err = some Err.parse) := by
  rcases h with h | ⟨data, h, hp⟩
  · rw [importConfig_read_failed response t1 t2 h]
    exact ⟨by simp, rfl, rfl, fun _ => rfl, fun hne => absurd h hne⟩
  · rw [importConfig_parse_failed response t1 t2 h hp]
    refine ⟨by simp, rfl, rfl, fun hn => ?_, fun _ => rfl⟩
    rw [h] at hn
    exact absurd hn (by simp)

/-- C14 at a concrete input: importing a file that does not exist is an error
and leaves the world as it was. -/
theorem C14_import_unreadable_witness :
    (ImportConfig refLib scenarioWorld ⟨"/tmp", "missing.json"⟩ "y"
        "20240102_1200" "20240102_1200").world = scenarioWorld :=
  (C14_import_unreadable refLib scenarioWorld ⟨"/tmp", "missing.json"⟩ "y"
    "20240102_1200" "20240102_1200" (Or.inl (by decide))).2.1

/-- C15: in a confirmed import the in-memory sets are replaced by the imported
ones before anything is saved, and stay so whatever the saves do. The User
level is saved first: when that save fails its error is returned and the world
is left as staged, so the Global save was not attempted; when it succeeds and
the Global save fails, that error is returned. In particular a User alias file
that cannot be written gives the write error with the sets already
replaced. -/
theorem C15_import_save_failure (lib : Lib) (w : World) (path : Path)
    (response t1 t2 data : String) (L : List Alias)
    (hread : w.fs.ReadFile path = some data)
    (hparse : lib.Unmarshal data [] = (L, false))
    (hyes : declined lib response = false) :
    (ImportConfig lib w path response t1 t2).world.qa = importedSets L ∧
    (∀ e, (SaveAliases lib (stagedWorld lib w L t1 t2) "user").2 = some e →
      (ImportConfig lib w path response t1 t2).err = some e ∧
      (ImportConfig lib w path response t1 t2).world = stagedWorld lib w L t1 t2) ∧
    (∀ e, (SaveAliases lib (stagedWorld lib w L t1 t2) "user").2 = none →
      (SaveAliases lib (SaveAliases lib (stagedWorld lib w L t1 t2) "user").1
        "global").2 = some e →
      (ImportConfig lib w path response t1 t2).err = some e ∧
      (ImportConfig lib w path response t1 t2).world
        = (SaveAliases lib (stagedWorld lib w L t1 t2) "user").1) ∧
    (∀ text, lib.MarshalIndent (importedSets L).UserAliases = some text →
      w.fs.writeDenied ⟨w.UserConfigPath, ALIASES_FILE⟩ = true →
      (ImportConfig lib w path response t1 t2).err = some Err.write ∧
      (ImportConfig lib w path response t1 t2).world = stagedWorld lib w L t1 t2) := by
  have first : ∀ e, (SaveAliases lib (stagedWorld lib w L t1 t2) "user").2 = some e →
      (ImportConfig lib w path response t1 t2).err = some e ∧
      (ImportConfig lib w path response t1 t2).world = stagedWorld lib w L t1 t2 := by
    intro e he
    have hw := saveAliases_of_error he
    rw [importConfig_confirmed t1 t2 hread hparse hyes]
    rcases hs : SaveAliases lib (stagedWorld lib w L t1 t2) "user" with ⟨w4, e4⟩
    rw [hs] at he hw
    simp only at he hw
    subst he hw
    exact ⟨rfl, rfl⟩
  refine ⟨(importConfig_confirmed_qa t1 t2 hread hparse hyes).1, first, ?_, ?_⟩
  · intro e h1 h2
    have hw := saveAliases_of_error h2
    rw [importConfig_confirmed t1 t2 hread hparse hyes]
    rcases hs : SaveAliases lib (stagedWorld lib w L t1 t2) "user" with ⟨w4, e4⟩
    rw [hs] at h1 h2 hw
    simp only at h1 h2 hw
    subst h1
    simp only
    rcases hs2 : SaveAliases lib w4 "global" with ⟨w5, e5⟩
    rw [hs2] at h2 hw
    simp only at h2 hw
    subst h2 hw
    exact ⟨rfl, rfl⟩
  · intro text hm hden
    obtain ⟨hq, hp, _, hwd, _⟩ := stagedWorld_setting lib w L t1 t2
    have hsave : SaveAliases lib (stagedWorld lib w L t1 t2) "user"
        = (stagedWorld lib w L t1 t2, some Err.write) := by
      have hm2 : lib.MarshalIndent ((stagedWorld lib w L t1 t2).qa.aliasesOf "user")
          = some text := by
        rw [hq]; simpa [State.aliasesOf] using hm
      have hw2 : (stagedWorld lib w L t1 t2).fs.WriteFile
          ((stagedWorld lib w L t1 t2).aliasFile "user") text = none := by
        apply writeFile_eq_none
        rw [hwd]
        simpa [World.aliasFile, hp] using hden
      exact saveAliases_write_failed (by simp) hm2 hw2
    apply first
    rw [hsave]

/-- C15 at a concrete input: the scenario's import with a User alias file that
cannot be written returns the write error, and the User set is already the
imported one. -/
theorem C15_import_save_failure_witness :
    (ImportConfig refLib
        lockedWorld
        ⟨"/tmp", "in.json"⟩ "y" "20240102_1200" "20240102_1200").err
      = some Err.write :=
  ((C15_import_save_failure refLib
      lockedWorld
      ⟨"/tmp", "in.json"⟩ "y" "20240102_1200" "20240102_1200" scenarioImport.data
      [⟨"a", "ls", "", "global"⟩, ⟨"b", "pwd", "", ""⟩]
      (by decide) (by decide) (by decide)).2.2.2
    (refMarshalIndent [⟨"b", "pwd", "", ""⟩]) (by decide) (by decide)).1

/-- C12, the code at a failing input: the import file holds two records named
`a` at the user level. The confirmed import succeeds and the rebuilt User set
holds both, so its names are not unique. -/
theorem C12_import_duplicate_names :
    (ImportConfig refLib duplicateWorld ⟨"/tmp", "dup.json"⟩ "y"
        "20240102_1200" "20240102_1200").err = none ∧
    (ImportConfig refLib duplicateWorld ⟨"/tmp", "dup.json"⟩ "y"
        "20240102_1200" "20240102_1200").world.qa.UserAliases
      = [⟨"a", "ls", "", "user"⟩, ⟨"a", "pwd", "", "user"⟩] ∧
    ¬ UniqueNames (ImportConfig refLib duplicateWorld ⟨"/tmp", "dup.json"⟩ "y"
        "20240102_1200" "20240102_1200").world.qa.UserAliases := by
  decide

/-- C16, the code at a failing input: a confirmed import whose two backups fall
in the same minute. Both backup writes succeed, yet the backup directory holds
one file, its content is the snapshot of the pre-import Global set, and no file
on the disk holds the snapshot of the pre-import User set: the second backup
has overwritten the first. -/
theorem C16_import_backup_overwritten :
    (ImportConfig refLib scenarioWorld ⟨"/tmp", "in.json"⟩ "y"
        "20240102_1200" "20240102_1200").world.fs.Glob
          "/home/u/.config/quickalias/backups"
      = ["backup_20240102_1200.json"] ∧
    (ImportConfig refLib scenarioWorld ⟨"/tmp", "in.json"⟩ "y"
        "20240102_1200" "20240102_1200").world.fs.ReadFile
          ⟨"/home/u/.config/quickalias/backups", "backup_20240102_1200.json"⟩
      = some (refMarshalIndent scenarioWorld.qa.GlobalAliases) ∧
    (∀ f ∈ (ImportConfig refLib scenarioWorld ⟨"/tmp", "in.json"⟩ "y"
        "20240102_1200" "20240102_1200").world.fs.files,
      f.data ≠ refMarshalIndent scenarioWorld.qa.UserAliases) ∧
    (CreateBackup refLib scenarioWorld "user" "20240102_1200").2 = none ∧
    (CreateBackup refLib (CreateBackup refLib scenarioWorld "user" "20240102_1200").1
      "global" "20240102_1200").2 = none := by
  decide

/-! ## Export, save and load -/

theorem exportConfig_written {lib : Lib} {w : World} {path : Path} {text : String}
    (hm : lib.MarshalIndent (w.qa.GlobalAliases ++ w.qa.UserAliases) = some text)
    (hw : w.fs.writeDenied path = false) :
    ExportConfig lib w path
      = ({ w with fs := { w.fs with
            files := ⟨path.dir, path.name, text⟩
              :: w.fs.files.filter (fun f => !f.isAt path) } }, none) := by
  unfold ExportConfig
  simp only [hm, writeFile_eq_some hw]

theorem loadAliases_fs (lib : Lib) (w : World) :
    (LoadAliases lib w).fs = w.fs ∧
    (LoadAliases lib w).UserConfigPath = w.UserConfigPath ∧
    (LoadAliases lib w).GlobalConfigPath = w.GlobalConfigPath := by
  rcases hu : w.fs.ReadFile ⟨w.UserConfigPath, ALIASES_FILE⟩ with _ | du <;>
    rcases hg : w.fs.ReadFile ⟨w.GlobalConfigPath, ALIASES_FILE⟩ with _ | dg <;>
    simp [LoadAliases, hu, hg]

theorem loadAliases_user (lib : Lib) (w : World) :
    (LoadAliases lib w).qa.UserAliases
      = match w.fs.ReadFile ⟨w.UserConfigPath, ALIASES_FILE⟩ with
        | some data => (lib.Unmarshal data w.qa.UserAliases).1
        | none => w.qa.UserAliases := by
  rcases hu : w.fs.ReadFile ⟨w.UserConfigPath, ALIASES_FILE⟩ with _ | du <;>
    rcases hg : w.fs.ReadFile ⟨w.GlobalConfigPath, ALIASES_FILE⟩ with _ | dg <;>
    simp [LoadAliases, hu, hg]

theorem loadAliases_global (lib : Lib) (w : World) :
    (LoadAliases lib w).qa.GlobalAliases
      = match w.fs.ReadFile ⟨w.GlobalConfigPath, ALIASES_FILE⟩ with
        | some data => (lib.Unmarshal data w.qa.GlobalAliases).1
        | none => w.qa.GlobalAliases := by
  rcases hu : w.fs.ReadFile ⟨w.UserConfigPath, ALIASES_FILE⟩ with _ | du <;>
    rcases hg : w.fs.ReadFile ⟨w.GlobalConfigPath, ALIASES_FILE⟩ with _ | dg <;>
    simp [LoadAliases, hu, hg]

theorem importedSets_export (G U : List Alias)
    (hG : ∀ a ∈ G, a.Level = "global") (hU : ∀ a ∈ U, a.Level ≠ "global") :
    importedSets (G ++ U) = ⟨U, G⟩ := by
  have h1 : G.filter (fun a => decide (a.Level ≠ "global")) = [] := by
    rw [List.filter_eq_nil_iff]
    intro a ha
    simp [hG a ha]
  have h2 : U.filter (fun a => decide (a.Level ≠ "global")) = U := by
    rw [List.filter_eq_self]
    intro a ha
    simpa using hU a ha
  have h3 : G.filter (fun a => decide (a.Level = "global")) = G := by
    rw [List.filter_eq_self]
    intro a ha
    simpa using hG a ha
  have h4 : U.filter (fun a => decide (a.Level = "global")) = [] := by
    rw [List.filter_eq_nil_iff]
    intro a ha
    simpa using hU a ha
  simp only [importedSets, List.filter_append, h1, h2, h3, h4, List.nil_append,
    List.append_nil]

/-- C17: the sequence `ExportConfig` serializes is the Global set followed by
the User set, of length |G| + |U|: when the encoder accepts it and the file can
be written, the export file holds the encoding of exactly that sequence and no
error is returned; an encoder or write failure is returned as the error with
the files untouched. In every case the in-memory sets are the same after the
call as before. -/
theorem C17_export_global_then_user (lib : Lib) (w : World) (path : Path) :
    (ExportConfig lib w path).1.qa = w.qa ∧
    (w.qa.GlobalAliases ++ w.qa.UserAliases).length
      = w.qa.GlobalAliases.length + w.qa.UserAliases.length ∧
    (w.qa.GlobalAliases ++ w.qa.UserAliases).take w.qa.GlobalAliases.length
      = w.qa.GlobalAliases ∧
    (w.qa.GlobalAliases ++ w.qa.UserAliases).drop w.qa.GlobalAliases.length
      = w.qa.UserAliases ∧
    (∀ text, lib.MarshalIndent (w.qa.GlobalAliases ++ w.qa.UserAliases) = some text →
      w.fs.writeDenied path = false →
      (ExportConfig lib w path).2 = none ∧
      (ExportConfig lib w path).1.fs.files.find? (fun f => f.isAt path)
        = some ⟨path.dir, path.name, text⟩) ∧
    (lib.MarshalIndent (w.qa.GlobalAliases ++ w.qa.UserAliases) = none →
      ExportConfig lib w path = (w, some Err.process)) ∧
    (∀ text, lib.MarshalIndent (w.qa.GlobalAliases ++ w.qa.UserAliases) = some text →
      w.fs.writeDenied path = true →
      ExportConfig lib w path = (w, some Err.write)) := by
  refine ⟨?_, by simp, by simp, by simp, ?_, ?_, ?_⟩
  · rcases hm : lib.MarshalIndent (w.qa.GlobalAliases ++ w.qa.UserAliases) with _ | text
    · simp [ExportConfig, hm]
    · rcases hw : w.fs.WriteFile path text with _ | fs1 <;>
        simp [ExportConfig, hm, hw]
  · intro text hm hw
    rw [exportConfig_written hm hw]
    simp [File.isAt]
  · intro hm
    simp [ExportConfig, hm]
  · intro text hm hw
    unfold ExportConfig
    simp only [hm, writeFile_eq_none hw]

/-- C17 at a concrete input: exporting the example world writes the encoding of
the global alias followed by the user alias. -/
theorem C17_export_global_then_user_witness :
    (ExportConfig refLib scenarioWorld ⟨"/tmp", "out.json"⟩).1.fs.files.find?
        (fun f => f.isAt ⟨"/tmp", "out.json"⟩)
      = some ⟨"/tmp", "out.json",
          refMarshalIndent
            [⟨"deploy", "kubectl apply -f .", "2024-01-01 09:00:00", "global"⟩,
             ⟨"ll", "ls -l", "2024-01-01 10:00:00", "user"⟩]⟩ :=
  ((C17_export_global_then_user refLib scenarioWorld ⟨"/tmp", "out.json"⟩).2.2.2.2.1
    _ rfl rfl).2

/-- C18: export then import is a round trip. When every record of the Global
set has level "global" and no record of the User set has, the codec reads back
what it wrote and the export file can be written and read, a confirmed import
of the exported file rebuilds the same Global set and the same User set, with
the same records in the same order. -/
theorem C18_export_import_roundtrip (lib : Lib) (w : World) (path : Path)
    (response t1 t2 text : String)
    (hG : ∀ a ∈ w.qa.GlobalAliases, a.Level = "global")
    (hU : ∀ a ∈ w.qa.UserAliases, a.Level ≠ "global")
    (hm : lib.MarshalIndent (w.qa.GlobalAliases ++ w.qa.UserAliases) = some text)
    (hcodec : lib.Unmarshal text [] = (w.qa.GlobalAliases ++ w.qa.UserAliases, false))
    (hw : w.fs.writeDenied path = false) (hr : w.fs.readDenied path = false)
    (hyes : declined lib response = false) :
    (ExportConfig lib w path).2 = none ∧
    (ImportConfig lib (ExportConfig lib w path).1 path response t1 t2).world.qa
      = w.qa ∧
    importedSets (w.qa.GlobalAliases ++ w.qa.UserAliases) = w.qa := by
  have hsets : importedSets (w.qa.GlobalAliases ++ w.qa.UserAliases) = w.qa :=
    importedSets_export _ _ hG hU
  have hread : (ExportConfig lib w path).1.fs.ReadFile path = some text := by
    rw [exportConfig_written hm hw]
    exact readFile_after_write (writeFile_eq_some hw) hr
  refine ⟨by rw [exportConfig_written hm hw], ?_, hsets⟩
  rw [(importConfig_confirmed_qa t1 t2 hread hcodec hyes).1, hsets]

set_option maxRecDepth 100000 in
/-- C18 at a concrete input: exporting the example world and importing the
exported file gives back the same two sets. -/
theorem C18_export_import_roundtrip_witness :
    (ImportConfig refLib (ExportConfig refLib scenarioWorld ⟨"/tmp", "out.json"⟩).1
        ⟨"/tmp", "out.json"⟩ "y" "20240102_1200" "20240102_1200").world.qa
      = scenarioWorld.qa :=
  (C18_export_import_roundtrip refLib scenarioWorld ⟨"/tmp", "out.json"⟩ "y"
    "20240102_1200" "20240102_1200"
    (refMarshalIndent (scenarioWorld.qa.GlobalAliases ++ scenarioWorld.qa.UserAliases))
    (by decide) (by decide) rfl (by decide) rfl rfl (by decide)).2.1

/-- C20 as stated fails: the User alias file is a JSON array whose record has a
number for its command. `json.Unmarshal` reports an error for it, so the
content fails to parse as alias records, yet the set loaded into the empty
User set is not empty: it holds the record decoded up to the error. -/
theorem C20_load_malformed_counterexample :
    mistypedWorld.qa = ⟨[], []⟩ ∧
    mistypedWorld.fs.ReadFile ⟨mistypedWorld.UserConfigPath, ALIASES_FILE⟩
      = some mistypedText ∧
    (refLib.Unmarshal mistypedText []).2 = true ∧
    (LoadAliases refLib mistypedWorld).qa.UserAliases = [⟨"a", "", "", ""⟩] ∧
    (LoadAliases refLib mistypedWorld).qa.UserAliases ≠ [] := by
  decide

/-- C20 amended: `LoadAliases` has no error to return and does not touch the
files, and for each level independently, the sets being empty before loading:
when the level's alias file is absent or cannot be read the loaded set is
empty; when it is read, the loaded set is what `json.Unmarshal` leaves in the
slice, its error being ignored, so it is empty whenever a failed parse leaves
the target as it was. -/
theorem C20_load_aliases_amended (lib : Lib) (w : World)
    (hempty : w.qa = ⟨[], []⟩) :
    (LoadAliases lib w).fs = w.fs ∧
    (w.fs.ReadFile ⟨w.UserConfigPath, ALIASES_FILE⟩ = none →
      (LoadAliases lib w).qa.UserAliases = []) ∧
    (∀ data, w.fs.ReadFile ⟨w.UserConfigPath, ALIASES_FILE⟩ = some data →
      (LoadAliases lib w).qa.UserAliases = (lib.Unmarshal data []).1) ∧
    (∀ data, w.fs.ReadFile ⟨w.UserConfigPath, ALIASES_FILE⟩ = some data →
      lib.Unmarshal data [] = ([], true) → (LoadAliases lib w).qa.UserAliases = []) ∧
    (w.fs.ReadFile ⟨w.GlobalConfigPath, ALIASES_FILE⟩ = none →
      (LoadAliases lib w).qa.GlobalAliases = []) ∧
    (∀ data, w.fs.ReadFile ⟨w.GlobalConfigPath, ALIASES_FILE⟩ = some data →
      (LoadAliases lib w).qa.GlobalAliases = (lib.Unmarshal data []).1) ∧
    (∀ data, w.fs.ReadFile ⟨w.GlobalConfigPath, ALIASES_FILE⟩ = some data →
      lib.Unmarshal data [] = ([], true) → (LoadAliases lib w).qa.GlobalAliases = []) := by
  have hU : w.qa.UserAliases = [] := by rw [hempty]
  have hG : w.qa.GlobalAliases = [] := by rw [hempty]
  refine ⟨(loadAliases_fs lib w).1, ?_, ?_, ?_, ?_, ?_, ?_⟩
  · intro h; rw [loadAliases_user, h]; exact hU
  · intro data h; rw [loadAliases_user, h, hU]
  · intro data h hu; simp [loadAliases_user, h, hU, hu]
  · intro h; rw [loadAliases_global, h]; exact hG
  · intro data h; rw [loadAliases_global, h, hG]
  · intro data h hu; simp [loadAliases_global, h, hG, hu]

/-- C20 amended at a concrete input: at start-up with a User alias file that is
not JSON at all, the loaded User set is empty. -/
theorem C20_load_aliases_amended_witness :
    (LoadAliases refLib
        ⟨"/home/u/.config/quickalias", "/etc/quickalias", ⟨[], []⟩,
          openFS [⟨"/home/u/.config/quickalias", "aliases.json", "not json"⟩]⟩).qa.UserAliases
      = [] :=
  (C20_load_aliases_amended refLib
    ⟨"/home/u/.config/quickalias", "/etc/quickalias", ⟨[], []⟩,
      openFS [⟨"/home/u/.config/quickalias", "aliases.json", "not json"⟩]⟩
    rfl).2.2.2.1 "not json" (by decide) (by decide)


/-! ## The add and remove commands -/

theorem getAlias_of_present {name : String} {U G : List Alias}
    (h : Present name U ∨ Present name G) :
    (GetAlias name U G).1.isSome = true ∧ (GetAlias name U G).2 ≠ "" := by
  by_cases hU : Present name U
  · obtain ⟨a, ha⟩ := exists_isFirstNamed hU
    simp [GetAlias, (scan_eq_some_iff name U a).2 ha]
  · have hG : Present name G := h.resolve_left hU
    obtain ⟨a, ha⟩ := exists_isFirstNamed hG
    simp [GetAlias, (scan_eq_none_iff name U).2 hU, (scan_eq_some_iff name G a).2 ha]

theorem getAlias_of_absent {name : String} {U G : List Alias}
    (hU : ¬ Present name U) (hG : ¬ Present name G) :
    GetAlias name U G = (none, "") := by
  simp [GetAlias, (scan_eq_none_iff name U).2 hU, (scan_eq_none_iff name G).2 hG]

/-- What `AddAlias` does when it goes on after the prompt: the backup is taken
of the world as it is, then the record is stored, then the level is saved. -/
theorem addAlias_proceeds {lib : Lib} {w : World}
    {name command level response timestamp created : String}
    (h : ((GetAlias name w.qa.UserAliases w.qa.GlobalAliases).1.isSome
        && decide ((GetAlias name w.qa.UserAliases w.qa.GlobalAliases).2 ≠ "")
        && declined lib response) = false) :
    (w.AddAlias lib name command level response timestamp created).world
      = (SaveAliases lib
          { (CreateBackup lib w level timestamp).1 with
            qa := (CreateBackup lib w level timestamp).1.qa.addOrUpdate
              name command created level } level).1 ∧
    (w.AddAlias lib name command level response timestamp created).err
      = (SaveAliases lib
          { (CreateBackup lib w level timestamp).1 with
            qa := (CreateBackup lib w level timestamp).1.qa.addOrUpdate
              name command created level } level).2 := by
  unfold World.AddAlias
  simp only [h, Bool.false_eq_true, if_false, and_self]

theorem addAlias_qa (lib : Lib) (w : World)
    (name command level response timestamp created : String) :
    (w.AddAlias lib name command level response timestamp created).world.qa = w.qa ∨
    (w.AddAlias lib name command level response timestamp created).world.qa
      = w.qa.addOrUpdate name command created level := by
  by_cases h : ((GetAlias name w.qa.UserAliases w.qa.GlobalAliases).1.isSome
        && decide ((GetAlias name w.qa.UserAliases w.qa.GlobalAliases).2 ≠ "")
        && declined lib response) = true
  · left
    unfold World.AddAlias
    simp only [h, if_true]
  · right
    have h2 := Bool.eq_false_iff.2 h
    rw [(addAlias_proceeds h2).1, (saveAliases_setting lib _ level).1]
    simp only
    rw [(createBackup_setting lib w level timestamp).1]

theorem removeAliasCmd_qa (lib : Lib) (w : World) (name level : String) :
    (w.RemoveAlias lib name level).1.qa = (w.qa.removeFrom name level).1 := by
  unfold World.RemoveAlias
  by_cases h : (w.qa.removeFrom name level).2 = false
  · simp only [h, if_true]
  · have h2 : (w.qa.removeFrom name level).2 = true := by simpa using h
    simp only [h2, Bool.true_eq_false, if_false]
    rw [(saveAliases_setting lib _ level).1]

/-- C24, the code at a failing input: removing the user alias `ll` from the
example world, whose backup directory is empty. `QuickAlias.RemoveAlias`
returns no error and the record is gone from the User set, yet the backup
directory is still empty and no file on the disk holds the set as it was
before the removal. Adding in the same world does take the backup first: the
backup file holds the set as it was before the add. -/
theorem C24_remove_without_backup :
    (scenarioWorld.RemoveAlias refLib "ll" "user").2 = none ∧
    (scenarioWorld.RemoveAlias refLib "ll" "user").1.qa.UserAliases = [] ∧
    (scenarioWorld.RemoveAlias refLib "ll" "user").1.fs.Glob scenarioWorld.backupDir
      = [] ∧
    (∀ f ∈ (scenarioWorld.RemoveAlias refLib "ll" "user").1.fs.files,
      f.data ≠ refMarshalIndent scenarioWorld.qa.UserAliases) ∧
    (scenarioWorld.AddAlias refLib "gs" "git status" "user" "" "20240102_1205"
        "2024-01-02 12:05:00").world.fs.ReadFile
          ⟨scenarioWorld.backupDir, "backup_20240102_1205.json"⟩
      = some (refMarshalIndent scenarioWorld.qa.UserAliases) := by
  decide

/-- C25: when the name being added already exists at either level and the
answer to the overwrite prompt is not affirmative, `AddAlias` returns no error
and changes nothing: the in-memory sets and the files are as before, so no
backup was created and no alias file written. -/
theorem C25_add_declined (lib : Lib) (w : World)
    (name command level response timestamp created : String)
    (hex : Present name w.qa.UserAliases ∨ Present name w.qa.GlobalAliases)
    (hno : lib.ToLower response ≠ "e" ∧ lib.ToLower response ≠ "evet" ∧
      lib.ToLower response ≠ "y") :
    (w.AddAlias lib name command level response timestamp created).err = none ∧
    (w.AddAlias lib name command level response timestamp created).world = w ∧
    (w.AddAlias lib name command level response timestamp created).prompted = true := by
  have hd : declined lib response = true := by
    simp [declined, hno.1, hno.2.1, hno.2.2]
  obtain ⟨h1, h2⟩ := getAlias_of_present hex
  unfold World.AddAlias
  simp only [h1, h2, hd, ne_eq, not_false_eq_true, decide_True, Bool.and_self, if_true,
    and_self]

/-- C25 at a concrete input: adding `ll`, which the example world has, and
answering "n" leaves the world as it was. -/
theorem C25_add_declined_witness :
    (scenarioWorld.AddAlias refLib "ll" "ls" "user" "n" "20240102_1205"
        "2024-01-02 12:05:00").world = scenarioWorld :=
  (C25_add_declined refLib scenarioWorld "ll" "ls" "user" "n" "20240102_1205"
    "2024-01-02 12:05:00" (Or.inl (by decide)) (by decide)).2.1

/-! ## Shell initialisation -/

theorem emit_eq (l : List Alias) :
    ∀ out : List Statement,
      Init.emit l out = out ++ l.map (fun a => (⟨a.Name, a.Command⟩ : Statement)) := by
  induction l with
  | nil => intro out; simp [Init.emit]
  | cons a rest ih => intro out; simp [Init.emit, ih]

theorem init_eq (qa : State) :
    Init qa = qa.GlobalAliases.map (fun a => (⟨a.Name, a.Command⟩ : Statement))
      ++ qa.UserAliases.map (fun a => (⟨a.Name, a.Command⟩ : Statement)) := by
  simp [Init, emit_eq]

theorem foldl_lastWins (name : String) (l : List Statement) :
    ∀ cur : Option String,
      l.foldl (fun cur s => if s.name = name then some s.command else cur) cur
        = match effectiveCommand l name with
          | some c => some c
          | none => cur := by
  unfold effectiveCommand
  induction l with
  | nil => intro cur; rfl
  | cons s rest ih =>
    intro cur
    simp only [List.foldl_cons]
    rw [ih, ih (if s.name = name then some s.command else none)]
    by_cases h : s.name = name
    · simp only [h, if_true]
      cases List.foldl (fun cur s => if s.name = name then some s.command else cur)
        none rest <;> rfl
    · simp only [h, if_false]
      cases List.foldl (fun cur s => if s.name = name then some s.command else cur)
        none rest <;> rfl

theorem effectiveCommand_append (name : String) (l1 l2 : List Statement) :
    effectiveCommand (l1 ++ l2) name
      = match effectiveCommand l2 name with
        | some c => some c
        | none => effectiveCommand l1 name := by
  have h := foldl_lastWins name l2 (effectiveCommand l1 name)
  unfold effectiveCommand at h ⊢
  rw [List.foldl_append]
  exact h

theorem effectiveCommand_absent {name : String} {l : List Alias}
    (h : ¬ Present name l) :
    effectiveCommand (l.map (fun a => (⟨a.Name, a.Command⟩ : Statement))) name = none := by
  induction l with
  | nil => rfl
  | cons a rest ih =>
    have ha : a.Name ≠ name := fun e => h ⟨a, by simp, e⟩
    have hr : ¬ Present name rest := fun ⟨b, hb, e⟩ => h ⟨b, by simp [hb], e⟩
    have := effectiveCommand_append name [(⟨a.Name, a.Command⟩ : Statement)]
      (rest.map (fun a => (⟨a.Name, a.Command⟩ : Statement)))
    simp only [List.singleton_append] at this
    rw [List.map_cons, this, ih hr]
    simp [effectiveCommand, ha]

theorem effectiveCommand_unique {name : String} {l : List Alias}
    (h : UniqueNames l) :
    effectiveCommand (l.map (fun a => (⟨a.Name, a.Command⟩ : Statement))) name
      = (GetAlias.scan name l).map Alias.Command := by
  induction l with
  | nil => rfl
  | cons a rest ih =>
    have hu : UniqueNames rest := by
      unfold UniqueNames at h ⊢
      rw [List.map_cons, List.nodup_cons] at h
      exact h.2
    have := effectiveCommand_append name [(⟨a.Name, a.Command⟩ : Statement)]
      (rest.map (fun a => (⟨a.Name, a.Command⟩ : Statement)))
    simp only [List.singleton_append] at this
    rw [List.map_cons, this]
    unfold GetAlias.scan
    by_cases ha : a.Name = name
    · have hr : ¬ Present name rest := by
        rintro ⟨b, hb, e⟩
        unfold UniqueNames at h
        rw [List.map_cons, List.nodup_cons] at h
        exact h.1 (List.mem_map.2 ⟨b, hb, e.trans ha.symm⟩)
      rw [effectiveCommand_absent hr]
      simp [effectiveCommand, ha]
    · rw [ih hu]
      simp only [ha, if_false]
      cases GetAlias.scan name rest <;> simp [effectiveCommand, ha]

/-- C26: `Init` prints one statement per record, the Global records in set
order first and the User records in set order after them. So for a name
present in the User set the last statement for it is a User one, and with
names unique within each level the command the shell ends up with for every
name, the last definition winning, is the command of the record `GetAlias`
returns, and no command when `GetAlias` finds none. -/
theorem C26_init_order_and_precedence (qa : State) (name : String) :
    Init qa = qa.GlobalAliases.map (fun a => (⟨a.Name, a.Command⟩ : Statement))
      ++ qa.UserAliases.map (fun a => (⟨a.Name, a.Command⟩ : Statement)) ∧
    (Init qa).length = qa.GlobalAliases.length + qa.UserAliases.length ∧
    (Present name qa.UserAliases →
      effectiveCommand (Init qa) name
        = effectiveCommand
            (qa.UserAliases.map (fun a => (⟨a.Name, a.Command⟩ : Statement))) name) ∧
    (UniqueNames qa.UserAliases → UniqueNames qa.GlobalAliases →
      effectiveCommand (Init qa) name
        = (GetAlias name qa.UserAliases qa.GlobalAliases).1.map Alias.Command) := by
  refine ⟨init_eq qa, by simp [init_eq], ?_, ?_⟩
  · intro hU
    rw [init_eq, effectiveCommand_append]
    cases hc : effectiveCommand
        (qa.UserAliases.map (fun a => (⟨a.Name, a.Command⟩ : Statement))) name with
    | some c => rfl
    | none =>
      exfalso
      obtain ⟨a, before, after, heq, ha, _⟩ := exists_isFirstNamed hU
      rw [heq, List.map_append, List.map_cons] at hc
      have h2 := effectiveCommand_append name
        (before.map (fun a => (⟨a.Name, a.Command⟩ : Statement)))
        ((⟨a.Name, a.Command⟩ : Statement)
          :: after.map (fun a => (⟨a.Name, a.Command⟩ : Statement)))
      rw [hc] at h2
      have h3 := effectiveCommand_append name [(⟨a.Name, a.Command⟩ : Statement)]
        (after.map (fun a => (⟨a.Name, a.Command⟩ : Statement)))
      simp only [List.singleton_append] at h3
      rw [h3] at h2
      cases hafter : effectiveCommand
          (after.map (fun a => (⟨a.Name, a.Command⟩ : Statement))) name with
      | some c => rw [hafter] at h2; simp at h2
      | none => rw [hafter] at h2; simp [effectiveCommand, ha] at h2
  · intro hU hG
    rw [init_eq, effectiveCommand_append, effectiveCommand_unique hU,
      effectiveCommand_unique hG]
    unfold GetAlias
    cases GetAlias.scan name qa.UserAliases with
    | some a => rfl
    | none =>
      simp only [Option.map_none']
      cases GetAlias.scan name qa.GlobalAliases <;> rfl

/-- C26 at the scenario of the specification: `deploy` defined at both levels
evaluates to the User command. -/
theorem C26_init_order_and_precedence_witness :
    effectiveCommand
        (Init ⟨[⟨"deploy", "echo hi", "", "user"⟩],
          [⟨"deploy", "kubectl apply -f .", "", "global"⟩]⟩) "deploy"
      = (GetAlias "deploy" [⟨"deploy", "echo hi", "", "user"⟩]
          [⟨"deploy", "kubectl apply -f .", "", "global"⟩]).1.map Alias.Command :=
  (C26_init_order_and_precedence
    ⟨[⟨"deploy", "echo hi", "", "user"⟩],
      [⟨"deploy", "kubectl apply -f .", "", "global"⟩]⟩ "deploy").2.2.2
    (by decide) (by decide)

/-! ## Listing and searching -/

theorem contains_iff (s substr : String) :
    Contains s substr = true ↔ ∃ before after, s.data = before ++ substr.data ++ after := by
  unfold Contains
  rw [decide_eq_true_eq]
  constructor
  · rintro ⟨before, after, h⟩
    exact ⟨before, after, h.symm⟩
  · rintro ⟨before, after, h⟩
    exact ⟨before, after, h.symm⟩

theorem contains_empty (s : String) : Contains s "" = true := by
  rw [contains_iff]
  exact ⟨[], s.data, by simp⟩

theorem matches_iff (keyword : String) (a : Alias) :
    Matches keyword a = true ↔
      keyword = "" ∨ Contains a.Name keyword = true ∨ Contains a.Command keyword = true := by
  simp [Matches, or_assoc]

theorem matches_iff_search (keyword : String) (a : Alias) :
    Matches keyword a = true ↔
      Contains a.Name keyword = true ∨ Contains a.Command keyword = true := by
  rw [matches_iff]
  constructor
  · rintro (h | h)
    · subst h; exact Or.inl (contains_empty _)
    · exact h
  · exact Or.inr

theorem listLoop_eq (keyword : String) (l : List Alias) :
    ∀ (out : List Line) (count : Nat),
      ListAliases.loop keyword l (out, count)
        = (out ++ (l.filter (Matches keyword)).map Line.record,
           count + (l.filter (Matches keyword)).length) := by
  induction l with
  | nil => intro out count; simp [ListAliases.loop]
  | cons a rest ih =>
    intro out count
    unfold ListAliases.loop
    by_cases h : Matches keyword a = true
    · rw [if_pos ((matches_iff keyword a).1 h), ih]
      simp [List.filter_cons, h, Nat.add_assoc, Nat.add_comm 1]
    · rw [if_neg (fun hc => h ((matches_iff keyword a).2 hc)), ih]
      simp [List.filter_cons, h]

theorem searchLoop_eq (keyword : String) (l : List Alias) :
    ∀ (out : List Line) (count : Nat),
      SearchAliases.loop keyword l (out, count)
        = (out ++ (l.filter (Matches keyword)).map Line.record,
           count + (l.filter (Matches keyword)).length) := by
  induction l with
  | nil => intro out count; simp [SearchAliases.loop]
  | cons a rest ih =>
    intro out count
    unfold SearchAliases.loop
    by_cases h : Matches keyword a = true
    · rw [if_pos ((matches_iff_search keyword a).1 h), ih]
      simp [List.filter_cons, h, Nat.add_assoc, Nat.add_comm 1]
    · rw [if_neg (fun hc => h ((matches_iff_search keyword a).2 hc)), ih]
      simp [List.filter_cons, h]

/-- The lines of `ListAliases` in closed form. -/
theorem listAliases_out (U G : List Alias) (keyword : String) :
    (ListAliases U G keyword).out
      = [Line.globalHeader] ++ (G.filter (Matches keyword)).map Line.record
        ++ (if (G.filter (Matches keyword)).length = 0 then [Line.noGlobal] else [])
        ++ [Line.userHeader] ++ (U.filter (Matches keyword)).map Line.record
        ++ (if (U.filter (Matches keyword)).length = 0 then [Line.noUser] else [])
        ++ (if keyword ≠ "" then
              [Line.totalFound ((G.filter (Matches keyword)).length
                + (U.filter (Matches keyword)).length)]
            else []) := by
  unfold ListAliases
  simp only [listLoop_eq, Nat.zero_add]
  split_ifs <;> simp

theorem listAliases_counts (U G : List Alias) (keyword : String) :
    (ListAliases U G keyword).globalCount = (G.filter (Matches keyword)).length ∧
    (ListAliases U G keyword).userCount = (U.filter (Matches keyword)).length := by
  unfold ListAliases
  simp only [listLoop_eq, Nat.zero_add, and_self]

theorem searchAliases_counts (U G : List Alias) (keyword : String) :
    (SearchAliases U G keyword).globalCount = (G.filter (Matches keyword)).length ∧
    (SearchAliases U G keyword).userCount = (U.filter (Matches keyword)).length := by
  unfold SearchAliases
  simp only [searchLoop_eq, Nat.zero_add, and_self]

theorem searchAliases_out (U G : List Alias) (keyword : String) :
    (SearchAliases U G keyword).out
      = [Line.searchHeader keyword, Line.globalHeader]
        ++ (G.filter (Matches keyword)).map Line.record
        ++ [Line.userHeader] ++ (U.filter (Matches keyword)).map Line.record
        ++ (if (G.filter (Matches keyword)).length
              + (U.filter (Matches keyword)).length = 0
            then [Line.noResults keyword]
            else [Line.totalResults ((G.filter (Matches keyword)).length
              + (U.filter (Matches keyword)).length)]) := by
  unfold SearchAliases
  simp only [searchLoop_eq, Nat.zero_add]
  split_ifs <;> simp

/-- C27: `ListAliases` shows exactly the records whose name or command contains
the keyword as a substring, compared character by character, and every record
when the keyword is empty. The Global section comes first, each section is in
the order of its set and depends on its own set alone, and the count computed
for a level is the number of records of that level that are shown. -/
theorem C27_list_filter (U G : List Alias) (keyword : String) :
    (ListAliases U G keyword).out
      = [Line.globalHeader] ++ (G.filter (Matches keyword)).map Line.record
        ++ (if (G.filter (Matches keyword)).length = 0 then [Line.noGlobal] else [])
        ++ [Line.userHeader] ++ (U.filter (Matches keyword)).map Line.record
        ++ (if (U.filter (Matches keyword)).length = 0 then [Line.noUser] else [])
        ++ (if keyword ≠ "" then
              [Line.totalFound ((G.filter (Matches keyword)).length
                + (U.filter (Matches keyword)).length)]
            else []) ∧
    (ListAliases U G keyword).globalCount = (G.filter (Matches keyword)).length ∧
    (ListAliases U G keyword).userCount = (U.filter (Matches keyword)).length ∧
    (∀ a, Line.record a ∈ (ListAliases U G keyword).out ↔
      (a ∈ G ∨ a ∈ U) ∧
      (keyword = "" ∨
        (∃ before after, a.Name.data = before ++ keyword.data ++ after) ∨
        (∃ before after, a.Command.data = before ++ keyword.data ++ after))) ∧
    (keyword = "" →
      G.filter (Matches keyword) = G ∧ U.filter (Matches keyword) = U) := by
  refine ⟨listAliases_out U G keyword, (listAliases_counts U G keyword).1,
    (listAliases_counts U G keyword).2, ?_, ?_⟩
  · intro a
    rw [listAliases_out]
    have hm : Matches keyword a = true ↔
        (keyword = "" ∨
          (∃ before after, a.Name.data = before ++ keyword.data ++ after) ∨
          (∃ before after, a.Command.data = before ++ keyword.data ++ after)) := by
      rw [matches_iff, contains_iff, contains_iff]
    rw [← hm]
    split_ifs <;> simp [List.mem_filter, or_and_right]
  · intro hk
    subst hk
    constructor <;>
    · rw [List.filter_eq_self]
      intro a _
      simp [Matches]

/-- C28: `ListAliases` prints the combined-total line exactly when the keyword
is not empty, and the total on it is the Global count plus the User count;
with an empty keyword there is no total line. -/
theorem C28_list_total_line (U G : List Alias) (keyword : String) :
    ((∃ n, Line.totalFound n ∈ (ListAliases U G keyword).out) ↔ keyword ≠ "") ∧
    (∀ n, Line.totalFound n ∈ (ListAliases U G keyword).out →
      n = (ListAliases U G keyword).globalCount + (ListAliases U G keyword).userCount) ∧
    (keyword ≠ "" →
      Line.totalFound ((ListAliases U G keyword).globalCount
        + (ListAliases U G keyword).userCount) ∈ (ListAliases U G keyword).out) ∧
    (keyword = "" → ∀ n, Line.totalFound n ∉ (ListAliases U G keyword).out) := by
  have hmem : ∀ n, Line.totalFound n ∈ (ListAliases U G keyword).out ↔
      keyword ≠ "" ∧ n = (G.filter (Matches keyword)).length
        + (U.filter (Matches keyword)).length := by
    intro n
    rw [listAliases_out]
    split_ifs with hg hu hk <;> simp_all
  obtain ⟨hgc, huc⟩ := listAliases_counts U G keyword
  refine ⟨?_, ?_, ?_, ?_⟩
  · constructor
    · rintro ⟨n, hn⟩
      exact ((hmem n).1 hn).1
    · intro hk
      exact ⟨_, (hmem _).2 ⟨hk, rfl⟩⟩
  · intro n hn
    rw [hgc, huc]
    exact ((hmem n).1 hn).2
  · intro hk
    rw [hgc, huc]
    exact (hmem _).2 ⟨hk, rfl⟩
  · intro hk n hn
    exact ((hmem n).1 hn).1 hk

/-- C28 at a concrete input: a listing with the keyword `ls` ends with the
total of the two counts. -/
theorem C28_list_total_line_witness :
    Line.totalFound
        ((ListAliases [⟨"ll", "ls -l", "", "user"⟩] [⟨"deploy", "kubectl", "", "global"⟩]
            "ls").globalCount
          + (ListAliases [⟨"ll", "ls -l", "", "user"⟩]
              [⟨"deploy", "kubectl", "", "global"⟩] "ls").userCount)
      ∈ (ListAliases [⟨"ll", "ls -l", "", "user"⟩] [⟨"deploy", "kubectl", "", "global"⟩]
          "ls").out :=
  (C28_list_total_line [⟨"ll", "ls -l", "", "user"⟩]
    [⟨"deploy", "kubectl", "", "global"⟩] "ls").2.2.1 (by decide)

/-- C30: the inclusion test of `ListAliases` and the test of `SearchAliases`
are the same predicate for every keyword, the empty one included, because
every string contains the empty string. So for the same sets and keyword both
compute the same count for each level, and `SearchAliases` prints the line for
no results exactly when the two counts add up to zero, and the line with the
total otherwise. -/
theorem C30_list_search_same_filter (U G : List Alias) (keyword : String) :
    (∀ a : Alias,
      (keyword = "" ∨ Contains a.Name keyword = true ∨ Contains a.Command keyword = true) ↔
      (Contains a.Name keyword = true ∨ Contains a.Command keyword = true)) ∧
    (SearchAliases U G keyword).globalCount = (ListAliases U G keyword).globalCount ∧
    (SearchAliases U G keyword).userCount = (ListAliases U G keyword).userCount ∧
    (Line.noResults keyword ∈ (SearchAliases U G keyword).out ↔
      (SearchAliases U G keyword).globalCount
        + (SearchAliases U G keyword).userCount = 0) ∧
    ((∃ n, Line.totalResults n ∈ (SearchAliases U G keyword).out) ↔
      (SearchAliases U G keyword).globalCount
        + (SearchAliases U G keyword).userCount ≠ 0) := by
  obtain ⟨hlg, hlu⟩ := listAliases_counts U G keyword
  obtain ⟨hsg, hsu⟩ := searchAliases_counts U G keyword
  refine ⟨?_, by rw [hlg, hsg], by rw [hlu, hsu], ?_, ?_⟩
  · intro a
    rw [← matches_iff, ← matches_iff_search]
  · rw [hsg, hsu, searchAliases_out]
    split_ifs with h <;> simp_all
  · rw [hsg, hsu, searchAliases_out]
    split_ifs with h <;> simp_all

/-! ## Placement by level -/

theorem importConfig_qa (lib : Lib) (w : World) (path : Path) (response t1 t2 : String) :
    (ImportConfig lib w path response t1 t2).world.qa = w.qa ∨
    ∃ L, (ImportConfig lib w path response t1 t2).world.qa = importedSets L := by
  rcases hr : w.fs.ReadFile path with _ | data
  · left; rw [importConfig_read_failed response t1 t2 hr]
  · rcases hu : lib.Unmarshal data [] with ⟨L, failed⟩
    cases failed with
    | true =>
      left
      rw [importConfig_parse_failed response t1 t2 hr (by rw [hu])]
    | false =>
      by_cases hd : declined lib response = true
      · left
        rw [importConfig_declined t1 t2 hr (by rw [hu]) hd]
      · right
        exact ⟨L, (importConfig_confirmed_qa t1 t2 hr hu (Bool.eq_false_iff.2 hd)).1⟩

theorem levelPlaced_importedSets (L : List Alias) : LevelPlaced (importedSets L) := by
  constructor
  · intro a ha
    simpa using (List.mem_filter.1 ha).2
  · intro a ha
    simpa using (List.mem_filter.1 ha).2

theorem levelPlaced_removeFrom {qa : State} (h : LevelPlaced qa) (name level : String) :
    LevelPlaced (qa.removeFrom name level).1 := by
  by_cases hl : level = "user"
  · simp only [State.removeFrom, hl, if_true]
    exact ⟨h.1, fun a ha => h.2 a ((removeAlias_sublist name _).subset ha)⟩
  · simp only [State.removeFrom, hl, if_false]
    exact ⟨fun a ha => h.1 a ((removeAlias_sublist name _).subset ha), h.2⟩

theorem levelPlaced_addOrUpdate {qa : State} (h : LevelPlaced qa)
    (name command created level : String) (hl : level = "user" ∨ level = "global") :
    LevelPlaced (qa.addOrUpdate name command created level) := by
  rcases hl with hl | hl
  · subst hl
    simp only [State.addOrUpdate, if_true]
    refine ⟨h.1, ?_⟩
    intro a ha
    rcases List.mem_append.1 ha with ha | ha
    · exact h.2 a ((removeAlias_sublist name _).subset ha)
    · rw [List.mem_singleton.1 ha]
      simp [newAlias]
  · subst hl
    have hne : ¬ ("global" = "user") := by decide
    simp only [State.addOrUpdate, hne, if_false]
    refine ⟨?_, h.2⟩
    intro a ha
    rcases List.mem_append.1 ha with ha | ha
    · exact h.1 a ((removeAlias_sublist name _).subset ha)
    · rw [List.mem_singleton.1 ha]
      simp [newAlias]

theorem levelPlaced_run {lib : Lib} {w : World} (h : LevelPlaced w.qa)
    (c : Command) (hc : c.LevelOk) : LevelPlaced (c.run lib w).qa := by
  cases c with
  | add name command level response timestamp created =>
    simp only [Command.run]
    rcases addAlias_qa lib w name command level response timestamp created with e | e
    · rw [e]; exact h
    · rw [e]; exact levelPlaced_addOrUpdate h name command created level hc
  | remove name level =>
    simp only [Command.run]
    rw [removeAliasCmd_qa]
    exact levelPlaced_removeFrom h name level
  | importFile path response t1 t2 =>
    simp only [Command.run]
    rcases importConfig_qa lib w path response t1 t2 with e | ⟨L, e⟩
    · rw [e]; exact h
    · rw [e]; exact levelPlaced_importedSets L

/-- C29: starting from two empty sets, after any sequence of add commands at
level "user" or "global", remove commands and imports, every record of the
Global set has level "global" and no record of the User set has. So separating
the exported sequence, Global followed by User, by the level field gives each
record back to the set it came from. -/
theorem C29_level_placement (lib : Lib) (w : World) (cmds : List Command)
    (hstart : w.qa = ⟨[], []⟩) (hcmds : ∀ c ∈ cmds, c.LevelOk) :
    LevelPlaced (runCommands lib w cmds).qa ∧
    importedSets ((runCommands lib w cmds).qa.GlobalAliases
        ++ (runCommands lib w cmds).qa.UserAliases)
      = (runCommands lib w cmds).qa := by
  have hinv : ∀ (cmds : List Command) (w : World), LevelPlaced w.qa →
      (∀ c ∈ cmds, c.LevelOk) → LevelPlaced (runCommands lib w cmds).qa := by
    intro cmds
    induction cmds with
    | nil => intro w h _; exact h
    | cons c rest ih =>
      intro w h hc
      have h1 := @levelPlaced_run lib w h c (hc c (by simp))
      have h2 := ih (c.run lib w) h1 (fun d hd => hc d (by simp [hd]))
      simpa [runCommands] using h2
  have h0 : LevelPlaced w.qa := by
    rw [hstart]
    exact ⟨by simp, by simp⟩
  have hp := hinv cmds w h0 hcmds
  exact ⟨hp, importedSets_export _ _ hp.1 hp.2⟩

/-- C29 at a concrete input: an add at each level, a removal and the import of
the scenario, from empty sets. -/
theorem C29_level_placement_witness :
    LevelPlaced (runCommands refLib
      ⟨"/home/u/.config/quickalias", "/etc/quickalias", ⟨[], []⟩, openFS [scenarioImport]⟩
      [Command.add "ll" "ls -l" "user" "" "20240102_1205" "2024-01-02 12:05:00",
       Command.add "deploy" "kubectl apply -f ." "global" "" "20240102_1206"
         "2024-01-02 12:06:00",
       Command.remove "ll" "user",
       Command.importFile ⟨"/tmp", "in.json"⟩ "y" "20240102_1207" "20240102_1207"]).qa :=
  (C29_level_placement refLib
    ⟨"/home/u/.config/quickalias", "/etc/quickalias", ⟨[], []⟩, openFS [scenarioImport]⟩
    [Command.add "ll" "ls -l" "user" "" "20240102_1205" "2024-01-02 12:05:00",
     Command.add "deploy" "kubectl apply -f ." "global" "" "20240102_1206"
       "2024-01-02 12:06:00",
     Command.remove "ll" "user",
     Command.importFile ⟨"/tmp", "in.json"⟩ "y" "20240102_1207" "20240102_1207"]
    rfl (by
      intro c hc
      simp only [List.mem_cons, List.mem_singleton, List.not_mem_nil, or_false] at hc
      rcases hc with h | h | h | h <;> subst h <;> simp [Command.LevelOk])).1

/-! ## Backup names and time -/

theorem lex_cons_iff (a b : Char) (l1 l2 : List Char) :
    a :: l1 < b :: l2 ↔ a < b ∨ (a = b ∧ l1 < l2) := by
  constructor
  · intro h
    cases h with
    | cons h => exact Or.inr ⟨rfl, h⟩
    | rel h => exact Or.inl h
  · rintro (h | ⟨rfl, h⟩)
    · exact List.Lex.rel h
    · exact List.Lex.cons h

theorem lex_append_iff (x : List Char) :
    ∀ (y l1 l2 : List Char), x.length = y.length →
      (x ++ l1 < y ++ l2 ↔ x < y ∨ (x = y ∧ l1 < l2)) := by
  induction x with
  | nil =>
    intro y l1 l2 h
    have hy : y = [] := List.length_eq_zero.1 h.symm
    subst hy
    constructor
    · intro h1; exact Or.inr ⟨rfl, by simpa using h1⟩
    · rintro (h1 | ⟨_, h1⟩)
      · exact absurd h1 (lt_irrefl _)
      · simpa using h1
  | cons a x ih =>
    intro y l1 l2 h
    cases y with
    | nil => simp at h
    | cons b y =>
      have hl : x.length = y.length := by simpa using h
      rw [List.cons_append, List.cons_append, lex_cons_iff, lex_cons_iff, ih y l1 l2 hl]
      constructor
      · rintro (h1 | ⟨rfl, h1 | ⟨rfl, h1⟩⟩)
        · exact Or.inl (Or.inl h1)
        · exact Or.inl (Or.inr ⟨rfl, h1⟩)
        · exact Or.inr ⟨rfl, h1⟩
      · rintro ((h1 | ⟨rfl, h1⟩) | ⟨h1, h2⟩)
        · exact Or.inl h1
        · exact Or.inr ⟨rfl, Or.inl h1⟩
        · have hab : a = b := (List.cons.inj h1).1
          have hxy : x = y := (List.cons.inj h1).2
          exact Or.inr ⟨hab, Or.inr ⟨hxy, h2⟩⟩

theorem digitChar_lt_iff {a b : Nat} (ha : a < 10) (hb : b < 10) :
    digitChar a < digitChar b ↔ a < b := by
  interval_cases a <;> interval_cases b <;> decide

theorem digitChar_eq_iff {a b : Nat} (ha : a < 10) (hb : b < 10) :
    digitChar a = digitChar b ↔ a = b := by
  interval_cases a <;> interval_cases b <;> decide

theorem digitChar_mod (n : Nat) : digitChar (n % 10) = digitChar n := by
  simp [digitChar]

theorem pad2_eq_iff {a b : Nat} (ha : a < 100) (hb : b < 100) :
    pad2 a = pad2 b ↔ a = b := by
  unfold pad2
  rw [← digitChar_mod a, ← digitChar_mod b]
  simp only [List.cons.injEq, and_true]
  rw [digitChar_eq_iff (by omega) (by omega),
    digitChar_eq_iff (Nat.mod_lt _ (by decide)) (Nat.mod_lt _ (by decide))]
  omega

theorem pad2_lt_iff {a b : Nat} (ha : a < 100) (hb : b < 100) :
    pad2 a < pad2 b ↔ a < b := by
  unfold pad2
  rw [← digitChar_mod a, ← digitChar_mod b]
  rw [lex_cons_iff, lex_cons_iff]
  rw [digitChar_lt_iff (by omega) (by omega), digitChar_eq_iff (by omega) (by omega),
    digitChar_lt_iff (Nat.mod_lt _ (by decide)) (Nat.mod_lt _ (by decide))]
  have hnil : ¬ (([] : List Char) < []) := lt_irrefl _
  simp only [hnil, and_false, or_false]
  omega

theorem pad2_length (n : Nat) : (pad2 n).length = 2 := rfl

theorem padYear_length {n : Nat} (h : n < 10000) : (padYear n).length = 4 := by
  simp [padYear, h, pad2]

theorem padYear_eq_iff {a b : Nat} (ha : a < 10000) (hb : b < 10000) :
    padYear a = padYear b ↔ a = b := by
  unfold padYear
  rw [if_pos ha, if_pos hb]
  constructor
  · intro h
    obtain ⟨h1, h2⟩ := List.append_inj h rfl
    have e1 := (pad2_eq_iff (by omega) (by omega)).1 h1
    have e2 := (pad2_eq_iff (Nat.mod_lt _ (by decide)) (Nat.mod_lt _ (by decide))).1 h2
    omega
  · rintro rfl; rfl

theorem padYear_lt_iff {a b : Nat} (ha : a < 10000) (hb : b < 10000) :
    padYear a < padYear b ↔ a < b := by
  unfold padYear
  rw [if_pos ha, if_pos hb, lex_append_iff (pad2 (a / 100)) (pad2 (b / 100)) _ _ rfl,
    pad2_lt_iff (by omega) (by omega), pad2_eq_iff (by omega) (by omega),
    pad2_lt_iff (Nat.mod_lt _ (by decide)) (Nat.mod_lt _ (by decide))]
  omega

theorem stamp_data (i : Instant) :
    i.stamp.data = padYear i.year ++ (pad2 i.month ++ (pad2 i.day ++ ('_' ::
      (pad2 i.hour ++ pad2 i.minute)))) := by
  simp [Instant.stamp]

theorem stamp_length {i : Instant} (hy : i.year < 10000) : i.stamp.data.length = 13 := by
  rw [stamp_data]
  simp [padYear_length hy, pad2_length]

theorem stamp_lt_iff {i j : Instant} (hi : i.Valid) (hj : j.Valid)
    (hyi : i.year < 10000) (hyj : j.year < 10000) :
    i.stamp.data < j.stamp.data ↔ i.MinuteBefore j := by
  obtain ⟨_, hi2, _, hi4, hi5, hi6, _⟩ := hi
  obtain ⟨_, hj2, _, hj4, hj5, hj6, _⟩ := hj
  rw [stamp_data, stamp_data,
    lex_append_iff (padYear i.year) (padYear j.year) _ _
      (by rw [padYear_length hyi, padYear_length hyj]),
    lex_append_iff (pad2 i.month) (pad2 j.month) _ _ rfl,
    lex_append_iff (pad2 i.day) (pad2 j.day) _ _ rfl, lex_cons_iff,
    lex_append_iff (pad2 i.hour) (pad2 j.hour) _ _ rfl,
    padYear_lt_iff hyi hyj, padYear_eq_iff hyi hyj,
    pad2_lt_iff (by omega) (by omega), pad2_eq_iff (by omega) (by omega),
    pad2_lt_iff (by omega) (by omega), pad2_eq_iff (by omega) (by omega),
    pad2_lt_iff (by omega) (by omega), pad2_eq_iff (by omega) (by omega),
    pad2_lt_iff (by omega) (by omega)]
  have hu : ¬ ('_' < '_') := lt_irrefl _
  simp only [hu, false_or, true_and]
  unfold Instant.MinuteBefore
  rfl

theorem stamp_eq_iff {i j : Instant} (hi : i.Valid) (hj : j.Valid)
    (hyi : i.year < 10000) (hyj : j.year < 10000) :
    i.stamp = j.stamp ↔ i.SameMinute j := by
  constructor
  · intro h
    have h1 : ¬ i.MinuteBefore j := by
      rw [← stamp_lt_iff hi hj hyi hyj, h]; exact lt_irrefl _
    have h2 : ¬ j.MinuteBefore i := by
      rw [← stamp_lt_iff hj hi hyj hyi, h]; exact lt_irrefl _
    unfold Instant.MinuteBefore at h1 h2
    unfold Instant.SameMinute
    omega
  · rintro ⟨h1, h2, h3, h4, h5⟩
    apply String.ext
    rw [stamp_data, stamp_data, h1, h2, h3, h4, h5]

theorem backupName_data (t : String) :
    (backupName t).data = "backup_".data ++ (t.data ++ ".json".data) := by
  simp [backupName, String.data_append]

theorem backupName_injective {s t : String} (h : backupName s = backupName t) : s = t := by
  have hd := congrArg String.data h
  rw [backupName_data, backupName_data] at hd
  exact String.ext (List.append_cancel_right (List.append_cancel_left hd))

theorem backupName_lt_iff {s t : String} (hlen : s.data.length = t.data.length) :
    (backupName s).data < (backupName t).data ↔ s.data < t.data := by
  rw [backupName_data, backupName_data,
    lex_append_iff "backup_".data "backup_".data _ _ rfl,
    lex_append_iff s.data t.data _ _ hlen]
  have h1 : ¬ ("backup_".data < "backup_".data) := lt_irrefl _
  have h2 : ¬ (".json".data < ".json".data) := lt_irrefl _
  simp only [h1, h2, false_or, true_and, and_false, or_false]

theorem backupName_matches (t : String) : matchesBackupPattern (backupName t) = true := by
  unfold matchesBackupPattern
  rw [Bool.and_eq_true, List.isPrefixOf_iff_prefix, List.isSuffixOf_iff_suffix,
    backupName_data]
  refine ⟨List.prefix_append _ _, ?_⟩
  have hdrop : ("backup_".data ++ (t.data ++ ".json".data)).drop "backup_".length
      = t.data ++ ".json".data := by
    have : "backup_".length = "backup_".data.length := rfl
    rw [this, List.drop_left]
  rw [hdrop]
  exact List.suffix_append _ _

/-- C23: a backup file is named `backup_` followed by the timestamp
`YYYYMMDD_HHMM`, thirteen characters for a four-digit year, followed by
`.json`, and the order of the names is the order of time. For two readings of
the clock with four-digit years, the name of the earlier one is
lexicographically smaller whenever the two do not fall in the same minute, a
name is smaller exactly when its minute is earlier, and two readings have the
same name exactly when they fall in the same minute. -/
theorem C23_backup_names_chronological (i j : Instant) (hi : i.Valid) (hj : j.Valid)
    (hyi : i.year < 10000) (hyj : j.year < 10000) :
    (backupName i.stamp).data = "backup_".data ++ (i.stamp.data ++ ".json".data) ∧
    i.stamp.data.length = 13 ∧
    (i.Before j → ¬ i.SameMinute j →
      (backupName i.stamp).data < (backupName j.stamp).data ∧
      backupName i.stamp < backupName j.stamp) ∧
    ((backupName i.stamp).data < (backupName j.stamp).data ↔ i.MinuteBefore j) ∧
    (i.SameMinute j → backupName i.stamp = backupName j.stamp) ∧
    (backupName i.stamp = backupName j.stamp → i.SameMinute j) := by
  have hlen : i.stamp.data.length = j.stamp.data.length := by
    rw [stamp_length hyi, stamp_length hyj]
  have hlt : (backupName i.stamp).data < (backupName j.stamp).data ↔ i.MinuteBefore j := by
    rw [backupName_lt_iff hlen, stamp_lt_iff hi hj hyi hyj]
  refine ⟨backupName_data _, stamp_length hyi, ?_, hlt, ?_, ?_⟩
  · intro hb hs
    have hm : i.MinuteBefore j := by
      rcases hb with h | ⟨h, _⟩
      · exact h
      · exact absurd h hs
    exact ⟨hlt.2 hm, String.lt_iff_toList_lt.2 (hlt.2 hm)⟩
  · intro hs
    rw [(stamp_eq_iff hi hj hyi hyj).2 hs]
  · intro hn
    exact (stamp_eq_iff hi hj hyi hyj).1 (backupName_injective hn)

/-- C23 at a concrete input: a backup at 23:59 on the last day of 2023 is
named before a backup at 00:00 on the first day of 2024. -/
theorem C23_backup_names_chronological_witness :
    (backupName (Instant.stamp ⟨2023, 12, 31, 23, 59, 30⟩)).data
      < (backupName (Instant.stamp ⟨2024, 1, 1, 0, 0, 5⟩)).data :=
  ((C23_backup_names_chronological ⟨2023, 12, 31, 23, 59, 30⟩ ⟨2024, 1, 1, 0, 0, 5⟩
    (by decide) (by decide) (by decide) (by decide)).2.2.1
    (by decide) (by decide)).1

/-! ## Pruning the backups -/

theorem remove_files {fs : FS} {p : Path} (h : fs.removeDenied p = false) :
    (fs.Remove p).files = fs.files.filter (fun f => !f.isAt p) := by
  simp [FS.Remove, h]

theorem removeAll_files (dir : String) (names : List String) :
    ∀ fs : FS, (∀ n ∈ names, fs.removeDenied ⟨dir, n⟩ = false) →
      (CleanOldBackups.removeAll dir fs names).files
        = fs.files.filter (fun f => !(decide (f.dir = dir) && decide (f.name ∈ names))) := by
  induction names with
  | nil =>
    intro fs _
    simp [CleanOldBackups.removeAll]
  | cons n rest ih =>
    intro fs h
    unfold CleanOldBackups.removeAll
    have hrest : ∀ m ∈ rest, (fs.Remove ⟨dir, n⟩).removeDenied ⟨dir, m⟩ = false := by
      intro m hm
      rw [(remove_oracles fs ⟨dir, n⟩).2.2.2]
      exact h m (by simp [hm])
    rw [ih _ hrest, remove_files (h n (by simp)), List.filter_filter]
    apply List.filter_congr
    intro f _
    by_cases h1 : f.dir = dir <;> by_cases h2 : f.name = n <;>
      simp [File.isAt, h1, h2]

theorem glob_filter (dir : String) (R : List String) (files : List File) (fs : FS)
    (h : fs.files
      = files.filter (fun f => !(decide (f.dir = dir) && decide (f.name ∈ R)))) :
    fs.Glob dir
      = ((((files.filter (fun f => decide (f.dir = dir))).map File.name).filter
          matchesBackupPattern).filter (fun n => decide (n ∉ R))) := by
  unfold FS.Glob
  rw [h]
  have e1 : (files.filter
      (fun f => !(decide (f.dir = dir) && decide (f.name ∈ R)))).filter
        (fun f => decide (f.dir = dir))
      = (files.filter (fun f => decide (f.dir = dir))).filter
          ((fun n => decide (n ∉ R)) ∘ File.name) := by
    rw [List.filter_filter, List.filter_filter]
    apply List.filter_congr
    intro f _
    by_cases h1 : f.dir = dir <;> by_cases h2 : f.name ∈ R <;> simp [h1, h2]
  rw [e1, ← List.filter_map, List.filter_filter, List.filter_filter]
  apply List.filter_congr
  intro n _
  exact Bool.and_comm _ _

theorem wellFormed_filter {fs fs1 : FS} (p : File → Bool)
    (h : fs1.files = fs.files.filter p) (hwf : fs.WellFormed) : fs1.WellFormed := by
  unfold FS.WellFormed at hwf ⊢
  rw [h]
  exact List.Nodup.sublist ((List.filter_sublist _).map _) hwf

theorem wellFormed_remove (fs : FS) (p : Path) (hwf : fs.WellFormed) :
    (fs.Remove p).WellFormed := by
  unfold FS.Remove
  by_cases hd : fs.removeDenied p = true
  · simpa [hd] using hwf
  · simp only [hd, if_false, Bool.false_eq_true]
    exact wellFormed_filter (fun f => !f.isAt p) rfl hwf

theorem wellFormed_removeAll (dir : String) (names : List String) :
    ∀ fs : FS, fs.WellFormed → (CleanOldBackups.removeAll dir fs names).WellFormed := by
  induction names with
  | nil => intro fs h; exact h
  | cons n rest ih =>
    intro fs h
    unfold CleanOldBackups.removeAll
    exact ih _ (wellFormed_remove fs ⟨dir, n⟩ h)

theorem wellFormed_writeFile {fs fs1 : FS} {p : Path} {data : String}
    (h : fs.WriteFile p data = some fs1) (hwf : fs.WellFormed) : fs1.WellFormed := by
  unfold FS.WriteFile at h
  by_cases hd : fs.writeDenied p = true
  · simp [hd] at h
  · simp only [hd, if_false, Option.some.injEq, Bool.false_eq_true] at h
    subst h
    unfold FS.WellFormed at hwf ⊢
    simp only [List.map_cons, List.nodup_cons]
    constructor
    · intro hmem
      obtain ⟨f, hf, hpair⟩ := List.mem_map.1 hmem
      have hfa := (List.mem_filter.1 hf).2
      simp only [Prod.mk.injEq] at hpair
      simp [File.isAt, hpair.1, hpair.2] at hfa
    · exact List.Nodup.sublist ((List.filter_sublist _).map _) hwf

theorem nodup_glob {fs : FS} (hwf : fs.WellFormed) (dir : String) :
    (fs.Glob dir).Nodup := by
  unfold FS.Glob
  apply List.Nodup.filter
  unfold FS.WellFormed at hwf
  have h1 : ((fs.files.filter (fun f => decide (f.dir = dir))).map
      (fun f => (f.dir, f.name))).Nodup :=
    List.Nodup.sublist ((List.filter_sublist _).map _) hwf
  have h2 : (fs.files.filter (fun f => decide (f.dir = dir))).map
      (fun f => (f.dir, f.name))
      = ((fs.files.filter (fun f => decide (f.dir = dir))).map File.name).map
          (fun n => (dir, n)) := by
    rw [List.map_map]
    apply List.map_congr_left
    intro f hf
    have := (List.mem_filter.1 hf).2
    simp only [decide_eq_true_eq] at this
    simp [this]
  rw [h2] at h1
  exact List.Nodup.of_map _ h1

theorem sortStrings_perm (l : List String) : (sortStrings l).Perm l :=
  List.perm_insertionSort _ l

theorem sortStrings_sorted (l : List String) :
    List.Sorted (fun a b : String => a.data ≤ b.data) (sortStrings l) := by
  haveI : IsTotal String (fun a b => a.data ≤ b.data) := ⟨fun a b => le_total a.data b.data⟩
  haveI : IsTrans String (fun a b => a.data ≤ b.data) :=
    ⟨fun a b c h1 h2 => le_trans h1 h2⟩
  exact List.sorted_insertionSort _ l

/-- What is left of a list of distinct names when the first `k` of its sorted
form are taken away: the last names of the sorted form, each greater than
every name taken away. -/
theorem kept_names {names : List String} (hnd : names.Nodup) (k : Nat) :
    (∀ n, n ∈ names.filter (fun n => decide (n ∉ (sortStrings names).take k)) ↔
      n ∈ (sortStrings names).drop k) ∧
    (names.filter (fun n => decide (n ∉ (sortStrings names).take k))).length
      = names.length - k ∧
    (∀ r ∈ names, r ∉ names.filter (fun n => decide (n ∉ (sortStrings names).take k)) →
      r ∈ (sortStrings names).take k) ∧
    (∀ r ∈ (sortStrings names).take k, ∀ n ∈ (sortStrings names).drop k,
      r.data < n.data) := by
  have hperm := sortStrings_perm names
  have hsnd : (sortStrings names).Nodup := hperm.nodup_iff.2 hnd
  have hsplit := List.take_append_drop k (sortStrings names)
  have hdisj : ∀ x, x ∈ (sortStrings names).take k → x ∈ (sortStrings names).drop k →
      False := by
    intro x h1 h2
    rw [← hsplit, List.nodup_append] at hsnd
    exact hsnd.2.2 h1 h2
  have hmem : ∀ x, x ∈ names ↔ x ∈ (sortStrings names).take k
      ∨ x ∈ (sortStrings names).drop k := by
    intro x
    rw [← hperm.mem_iff, ← List.mem_append, hsplit]
  refine ⟨?_, ?_, ?_, ?_⟩
  · intro n
    simp only [List.mem_filter, decide_eq_true_eq]
    constructor
    · rintro ⟨h1, h2⟩
      exact ((hmem n).1 h1).resolve_left h2
    · intro h
      exact ⟨(hmem n).2 (Or.inr h), fun h2 => hdisj n h2 h⟩
  · have h1 : (names.filter (fun n => decide (n ∉ (sortStrings names).take k))).length
        = ((sortStrings names).filter
            (fun n => decide (n ∉ (sortStrings names).take k))).length :=
      (List.Perm.filter _ hperm).length_eq.symm
    have hgen : ∀ (R D : List String), (∀ x, x ∈ R → x ∈ D → False) →
        (R ++ D).filter (fun n => decide (n ∉ R)) = D := by
      intro R D hd
      rw [List.filter_append]
      have e1 : R.filter (fun n => decide (n ∉ R)) = [] := by
        rw [List.filter_eq_nil_iff]
        intro x hx
        simp [hx]
      have e2 : D.filter (fun n => decide (n ∉ R)) = D := by
        rw [List.filter_eq_self]
        intro x hx
        simpa using fun h => hd x h hx
      rw [e1, e2, List.nil_append]
    have h2 : (sortStrings names).filter
        (fun n => decide (n ∉ (sortStrings names).take k))
        = (sortStrings names).drop k := by
      have := hgen _ _ hdisj
      rw [hsplit] at this
      exact this
    rw [h1, h2, List.length_drop, hperm.length_eq]
  · intro r hr hnot
    simp only [List.mem_filter, decide_eq_true_eq, not_and, not_not] at hnot
    exact hnot hr
  · intro r hr n hn
    have hle : r.data ≤ n.data :=
      (sortStrings_sorted names).rel_of_mem_take_of_mem_drop hr hn
    have hne : r.data ≠ n.data := by
      intro e
      have : r = n := String.ext e
      subst this
      exact hdisj r hr hn
    exact lt_of_le_of_ne hle hne

/-- The backup names after `CleanOldBackups`, when no two files share a path
and the backups can be removed. -/
theorem glob_clean {w : World} (hrm : ∀ n, w.fs.removeDenied ⟨w.backupDir, n⟩ = false) :
    (CleanOldBackups w).fs.Glob w.backupDir
      = (w.fs.Glob w.backupDir).filter (fun n => decide
          (n ∉ (sortStrings (w.fs.Glob w.backupDir)).take
            ((w.fs.Glob w.backupDir).length - MAX_BACKUPS))) ∧
    (CleanOldBackups w).fs.files
      = w.fs.files.filter (fun f => !(decide (f.dir = w.backupDir) && decide
          (f.name ∈ (sortStrings (w.fs.Glob w.backupDir)).take
            ((w.fs.Glob w.backupDir).length - MAX_BACKUPS)))) := by
  unfold CleanOldBackups
  by_cases h : (w.fs.Glob (joinDir w.UserConfigPath BACKUP_DIR)).length ≤ MAX_BACKUPS
  · have hz : (w.fs.Glob w.backupDir).length - MAX_BACKUPS = 0 := by
      unfold World.backupDir; omega
    simp only [h, if_true, hz, List.take_zero]
    simp
  · simp only [h, if_false]
    have hfiles := removeAll_files w.backupDir
      ((sortStrings (w.fs.Glob w.backupDir)).take
        ((w.fs.Glob w.backupDir).length - MAX_BACKUPS)) w.fs (fun n _ => hrm n)
    refine ⟨?_, hfiles⟩
    exact glob_filter w.backupDir _ w.fs.files _ hfiles

/-- C21: `CleanOldBackups` deletes nothing when the backup directory holds at
most 5 backup files. When it holds more, and the files can be removed, it
deletes exactly the lexicographically smallest names, all but 5 of them, so
that precisely the 5 greatest names remain; every other file stays, and the
content of a backup, so the level it came from, plays no part. -/
theorem C21_clean_keeps_five_greatest (w : World) (hwf : w.fs.WellFormed)
    (hrm : ∀ n, w.fs.removeDenied ⟨w.backupDir, n⟩ = false) :
    ((w.fs.Glob w.backupDir).length ≤ 5 → CleanOldBackups w = w) ∧
    (5 < (w.fs.Glob w.backupDir).length →
      ((CleanOldBackups w).fs.Glob w.backupDir).length = 5 ∧
      (∀ n, n ∈ (CleanOldBackups w).fs.Glob w.backupDir ↔
        n ∈ (sortStrings (w.fs.Glob w.backupDir)).drop
          ((w.fs.Glob w.backupDir).length - 5)) ∧
      (∀ r ∈ w.fs.Glob w.backupDir, r ∉ (CleanOldBackups w).fs.Glob w.backupDir →
        ∀ k ∈ (CleanOldBackups w).fs.Glob w.backupDir, r.data < k.data) ∧
      (CleanOldBackups w).fs.files
        = w.fs.files.filter (fun f => !(decide (f.dir = w.backupDir) && decide
            (f.name ∈ (sortStrings (w.fs.Glob w.backupDir)).take
              ((w.fs.Glob w.backupDir).length - 5)))) ∧
      ((sortStrings (w.fs.Glob w.backupDir)).take
        ((w.fs.Glob w.backupDir).length - 5)).length
        = (w.fs.Glob w.backupDir).length - 5) ∧
    (CleanOldBackups w).qa = w.qa := by
  have hmax : MAX_BACKUPS = 5 := rfl
  obtain ⟨hglob, hfiles⟩ := glob_clean hrm
  rw [hmax] at hglob hfiles
  obtain ⟨k1, k2, k3, k4⟩ := kept_names (nodup_glob hwf w.backupDir)
    ((w.fs.Glob w.backupDir).length - 5)
  refine ⟨?_, ?_, (cleanOldBackups_setting w).1⟩
  · intro h
    unfold CleanOldBackups
    rw [if_pos (by rw [hmax]; exact h)]
  · intro h
    rw [hglob]
    refine ⟨by rw [k2]; omega, k1, ?_, hfiles, ?_⟩
    · intro r hr hnot k hk
      exact k4 r (k3 r hr hnot) k ((k1 k).1 hk)
    · rw [List.length_take, (sortStrings_perm _).length_eq]
      omega

/-- C21 at a concrete input: of seven backups the five greatest names
remain. -/
theorem C21_clean_keeps_five_greatest_witness :
    ((CleanOldBackups crowdedWorld).fs.Glob crowdedWorld.backupDir).length = 5 :=
  ((C21_clean_keeps_five_greatest crowdedWorld (by decide) (fun _ => rfl)).2.1
    (by decide)).1

/-! ## Backup retention -/

theorem glob_writeFile {fs fs1 : FS} {dir name data : String}
    (h : fs.WriteFile ⟨dir, name⟩ data = some fs1)
    (hpat : matchesBackupPattern name = true) :
    fs1.Glob dir = name :: (fs.Glob dir).filter (fun n => decide (n ∉ [name])) := by
  unfold FS.WriteFile at h
  by_cases hd : fs.writeDenied ⟨dir, name⟩ = true
  · simp [hd] at h
  · simp only [hd, if_false, Option.some.injEq, Bool.false_eq_true] at h
    subst h
    have hrest := glob_filter dir [name] fs.files
      { fs with files := fs.files.filter (fun f => !f.isAt ⟨dir, name⟩) }
      (by
        simp only
        apply List.filter_congr
        intro f _
        by_cases h1 : f.dir = dir <;> by_cases h2 : f.name = name <;>
          simp [File.isAt, h1, h2])
    unfold FS.Glob at hrest ⊢
    simp only at hrest
    simp only [List.filter_cons, decide_True, if_true, List.map_cons, hpat]
    rw [hrest]

/-- One `CreateBackup` call that can write and remove: it returns no error,
and the backup names after it are the names before it with the new name put
first, pruned as `CleanOldBackups` prunes. -/
theorem glob_createBackup {lib : Lib} {w : World} {level : String} (t : String)
    (hwf : w.fs.WellFormed)
    (hw : ∀ p, w.fs.writeDenied p = false) (hrm : ∀ p, w.fs.removeDenied p = false)
    (hm : lib.MarshalIndent (w.qa.aliasesOf level) ≠ none) :
    (CreateBackup lib w level t).2 = none ∧
    (CreateBackup lib w level t).1.fs.WellFormed ∧
    (CreateBackup lib w level t).1.fs.Glob w.backupDir
      = (backupName t :: (w.fs.Glob w.backupDir).filter
            (fun n => decide (n ∉ [backupName t]))).filter (fun n => decide
          (n ∉ (sortStrings (backupName t :: (w.fs.Glob w.backupDir).filter
                (fun n => decide (n ∉ [backupName t])))).take
            ((backupName t :: (w.fs.Glob w.backupDir).filter
                (fun n => decide (n ∉ [backupName t]))).length - MAX_BACKUPS))) := by
  obtain ⟨text, hm2⟩ := Option.ne_none_iff_exists'.1 hm
  obtain ⟨fs1, hfs1⟩ : ∃ fs1, w.fs.WriteFile ⟨w.backupDir, backupName t⟩ text = some fs1 :=
    ⟨_, writeFile_eq_some (hw _)⟩
  have hcb : CreateBackup lib w level t = (CleanOldBackups { w with fs := fs1 }, none) := by
    have hfs2 : w.fs.WriteFile
        ⟨joinDir w.UserConfigPath BACKUP_DIR, "backup_" ++ t ++ ".json"⟩ text
        = some fs1 := hfs1
    unfold CreateBackup
    simp only [hm2, hfs2]
  have hwf1 := wellFormed_writeFile hfs1 hwf
  have hg1 := glob_writeFile hfs1 (backupName_matches t)
  have hrm1 : ∀ n, fs1.removeDenied ⟨w.backupDir, n⟩ = false := by
    intro n
    rw [(writeFile_oracles hfs1).2.2.2]
    exact hrm _
  have hclean := @glob_clean ⟨w.UserConfigPath, w.GlobalConfigPath, w.qa, fs1⟩ hrm1
  rw [hcb]
  refine ⟨rfl, wellFormed_filter _ hclean.2 hwf1, ?_⟩
  have h1 : (CleanOldBackups { w with fs := fs1 }).fs.Glob w.backupDir
      = (fs1.Glob w.backupDir).filter (fun n => decide
          (n ∉ (sortStrings (fs1.Glob w.backupDir)).take
            ((fs1.Glob w.backupDir).length - MAX_BACKUPS))) := hclean.1
  rw [hg1] at h1
  exact h1

theorem retains_step {seen kept : List String} {x : String}
    (h : Retains seen kept) (hx : x ∉ seen) :
    Retains (seen ++ [x])
      ((x :: kept).filter (fun n => decide
        (n ∉ (sortStrings (x :: kept)).take ((x :: kept).length - MAX_BACKUPS)))) := by
  obtain ⟨hnd, hsub, hlen, hord⟩ := h
  have hmax : MAX_BACKUPS = 5 := rfl
  have hxk : x ∉ kept := fun hk => hx (hsub x hk)
  have hnd1 : (x :: kept).Nodup := List.nodup_cons.2 ⟨hxk, hnd⟩
  obtain ⟨k1, k2, k3, k4⟩ := kept_names hnd1 ((x :: kept).length - MAX_BACKUPS)
  refine ⟨List.Nodup.filter _ hnd1, ?_, ?_, ?_⟩
  · intro k hk
    have hk1 := (List.mem_filter.1 hk).1
    rcases List.mem_cons.1 hk1 with rfl | hk2
    · simp
    · simp [hsub k hk2]
  · have e1 : (x :: kept).length = kept.length + 1 := rfl
    have e2 : (seen ++ [x]).length = seen.length + 1 := by simp
    rw [k2, e1, e2, hlen, hmax]
    omega
  · intro s hs hnot k hk
    by_cases hs1 : s ∈ x :: kept
    · exact k4 s (k3 s hs1 hnot) k ((k1 k).1 hk)
    · have hsx : s ≠ x := fun e => hs1 (by simp [e])
      have hsk : s ∉ kept := fun hk => hs1 (by simp [hk])
      have hseen : s ∈ seen := by
        rcases List.mem_append.1 hs with h1 | h1
        · exact h1
        · exact absurd (List.mem_singleton.1 h1) hsx
      have hlt : kept.length < seen.length := by
        have hnd2 : (s :: kept).Nodup := List.nodup_cons.2 ⟨hsk, hnd⟩
        have hsub2 : (s :: kept) ⊆ seen := by
          intro y hy
          rcases List.mem_cons.1 hy with rfl | hy
          · exact hseen
          · exact hsub y hy
        have := (hnd2.subperm hsub2).length_le
        simpa using this
      have hk5 : kept.length = 5 := by rw [hmax] at hlen; omega
      have hk1 := (List.mem_filter.1 hk).1
      rcases List.mem_cons.1 hk1 with hkx | hk2
      · have hex : ∃ r ∈ x :: kept, r ∉ (x :: kept).filter (fun n => decide
            (n ∉ (sortStrings (x :: kept)).take ((x :: kept).length - MAX_BACKUPS))) := by
          by_contra hall
          push_neg at hall
          have hle := ((hnd1.subperm (fun y hy => hall y hy)).length_le)
          have e1 : (x :: kept).length = kept.length + 1 := rfl
          rw [k2, e1, hk5, hmax] at hle
          omega
        obtain ⟨r, hr, hrnot⟩ := hex
        have hrk : r ∈ kept := by
          rcases List.mem_cons.1 hr with hrx | hr2
          · have hrk2 : r = k := hrx.trans hkx.symm
            exact absurd (hrk2 ▸ hk) hrnot
          · exact hr2
        exact lt_trans (hord s hseen hsk r hrk) (k4 r (k3 r hr hrnot) k ((k1 k).1 hk))
      · exact hord s hseen hsk k hk2

theorem createBackups_retains (lib : Lib) (level : String) :
    ∀ (ts : List String) (w : World) (seen : List String),
      w.fs.WellFormed → (∀ p, w.fs.writeDenied p = false) →
      (∀ p, w.fs.removeDenied p = false) →
      lib.MarshalIndent (w.qa.aliasesOf level) ≠ none →
      Retains seen (w.fs.Glob w.backupDir) →
      (seen ++ ts.map backupName).Nodup →
      Retains (seen ++ ts.map backupName)
        ((createBackups lib level w ts).fs.Glob w.backupDir) := by
  intro ts
  induction ts with
  | nil =>
    intro w seen _ _ _ _ h _
    simpa [createBackups] using h
  | cons t rest ih =>
    intro w seen hwf hw hrm hm h hnd
    obtain ⟨_, hwf1, hglob⟩ := glob_createBackup t hwf hw hrm hm
    obtain ⟨hq, hp, _, _, hwd, _, hrd⟩ := createBackup_setting lib w level t
    have hx : backupName t ∉ seen := by
      intro hmem
      rw [List.map_cons, List.nodup_append] at hnd
      exact hnd.2.2 hmem (by simp)
    have hxk : backupName t ∉ w.fs.Glob w.backupDir := fun hk => hx (h.2.1 _ hk)
    have hfilter : (w.fs.Glob w.backupDir).filter (fun n => decide (n ∉ [backupName t]))
        = w.fs.Glob w.backupDir := by
      rw [List.filter_eq_self]
      intro n hn
      simp only [List.mem_singleton, decide_eq_true_eq]
      intro e
      exact hxk (e ▸ hn)
    rw [hfilter] at hglob
    have hstep := retains_step h hx
    rw [← hglob] at hstep
    have hdir : (CreateBackup lib w level t).1.backupDir = w.backupDir := by
      simp [World.backupDir, hp]
    have hnd2 : ((seen ++ [backupName t]) ++ rest.map backupName).Nodup := by
      simpa using hnd
    have := ih (CreateBackup lib w level t).1 (seen ++ [backupName t]) hwf1
      (fun p => by rw [hwd]; exact hw p) (fun p => by rw [hrd]; exact hrm p)
      (by rw [hq]; exact hm) (by rw [hdir]; exact hstep) hnd2
    rw [hdir] at this
    simpa [createBackups] using this

theorem stamps_nodup {instants : List Instant}
    (hvalid : ∀ i ∈ instants, i.Valid ∧ i.year < 10000)
    (hdistinct : instants.Pairwise (fun i j => ¬ i.SameMinute j)) :
    ((instants.map Instant.stamp).map backupName).Nodup := by
  rw [List.map_map]
  unfold List.Nodup
  rw [List.pairwise_map]
  refine List.Pairwise.imp_of_mem ?_ hdistinct
  intro i j hi hj hnot heq
  exact hnot ((stamp_eq_iff (hvalid i hi).1 (hvalid j hj).1 (hvalid i hi).2
    (hvalid j hj).2).1 (backupName_injective heq))

/-- C22: backup retention. From an empty backup directory, with `CreateBackup`
called for one level at instants with four-digit years no two of which fall in
the same minute, every call able to write and to remove: after the first `k`
calls there are `min k 5` backup files, so never more than 5, and once more
than 5 calls were made exactly 5 files remain. They are files of these calls,
and every call whose file is gone was at an earlier minute than every call
whose file remains: the 5 most recent are kept. -/
theorem C22_backup_retention (lib : Lib) (level : String) (w : World)
    (instants : List Instant)
    (hwf : w.fs.WellFormed) (hempty : w.fs.Glob w.backupDir = [])
    (hw : ∀ p, w.fs.writeDenied p = false) (hrm : ∀ p, w.fs.removeDenied p = false)
    (hm : lib.MarshalIndent (w.qa.aliasesOf level) ≠ none)
    (hvalid : ∀ i ∈ instants, i.Valid ∧ i.year < 10000)
    (hdistinct : instants.Pairwise (fun i j => ¬ i.SameMinute j)) :
    (∀ k, (backupsAfter lib level w (instants.take k)).length
        = min (min k instants.length) 5) ∧
    (∀ k, (backupsAfter lib level w (instants.take k)).length ≤ 5) ∧
    (5 < instants.length →
      (backupsAfter lib level w instants).length = 5 ∧
      (backupsAfter lib level w instants).Nodup ∧
      (∀ g ∈ backupsAfter lib level w instants,
        ∃ i ∈ instants, g = backupName i.stamp) ∧
      (∀ i ∈ instants, backupName i.stamp ∉ backupsAfter lib level w instants →
        ∀ j ∈ instants, backupName j.stamp ∈ backupsAfter lib level w instants →
          i.MinuteBefore j)) := by
  have hmax : MAX_BACKUPS = 5 := rfl
  have hstart : Retains [] (w.fs.Glob w.backupDir) := by
    rw [hempty]
    exact ⟨List.nodup_nil, by simp, by simp, by simp⟩
  have hgen : ∀ l : List Instant, (∀ i ∈ l, i.Valid ∧ i.year < 10000) →
      l.Pairwise (fun i j => ¬ i.SameMinute j) →
      Retains ((l.map Instant.stamp).map backupName) (backupsAfter lib level w l) := by
    intro l hv hd
    have := createBackups_retains lib level (l.map Instant.stamp) w [] hwf hw hrm hm
      hstart (by simpa using stamps_nodup hv hd)
    simpa [backupsAfter] using this
  have hlen : ∀ k, (backupsAfter lib level w (instants.take k)).length
      = min (min k instants.length) 5 := by
    intro k
    have h := (hgen (instants.take k)
      (fun i hi => hvalid i (List.mem_of_mem_take hi))
      (List.Pairwise.sublist (List.take_sublist k instants) hdistinct)).2.2.1
    simpa [hmax] using h
  refine ⟨hlen, fun k => by rw [hlen k]; omega, ?_⟩
  intro h5
  obtain ⟨r1, r2, r3, r4⟩ := hgen instants hvalid hdistinct
  refine ⟨by simp only [List.length_map, hmax] at r3; omega, r1, ?_, ?_⟩
  · intro g hg
    obtain ⟨t, ht, rfl⟩ := List.mem_map.1 (r2 g hg)
    obtain ⟨i, hi, rfl⟩ := List.mem_map.1 ht
    exact ⟨i, hi, rfl⟩
  · intro i hi hnot j hj hin
    have hlt := r4 (backupName i.stamp)
      (List.mem_map.2 ⟨i.stamp, List.mem_map.2 ⟨i, hi, rfl⟩, rfl⟩) hnot
      (backupName j.stamp) hin
    have hl : i.stamp.data.length = j.stamp.data.length := by
      rw [stamp_length (hvalid i hi).2, stamp_length (hvalid j hj).2]
    rw [backupName_lt_iff hl,
      stamp_lt_iff (hvalid i hi).1 (hvalid j hj).1 (hvalid i hi).2 (hvalid j hj).2] at hlt
    exact hlt

/-- C22 at a concrete input: after backups at seven instants, five files
remain. -/
theorem C22_backup_retention_witness :
    (backupsAfter refLib "user" scenarioWorld sevenInstants).length = 5 :=
  ((C22_backup_retention refLib "user" scenarioWorld sevenInstants (by decide)
    (by decide) (fun _ => rfl) (fun _ => rfl) (by decide) (by decide) (by decide)).2.2
    (by decide)).1

/-- C27 at the scenario of the specification: listing with the empty keyword
counts the one global record. -/
theorem C27_list_filter_witness :
    (ListAliases [⟨"a", "cmd1", "", "user"⟩] [⟨"b", "cmd2", "", "global"⟩] "").globalCount
      = ([(⟨"b", "cmd2", "", "global"⟩ : Alias)].filter (Matches "")).length :=
  (C27_list_filter [⟨"a", "cmd1", "", "user"⟩] [⟨"b", "cmd2", "", "global"⟩] "").2.1

/-- C30 at a concrete input: a search for a keyword no record contains prints
the line for no results. -/
theorem C30_list_search_same_filter_witness :
    Line.noResults "zz"
      ∈ (SearchAliases [⟨"a", "cmd1", "", "user"⟩] [⟨"b", "cmd2", "", "global"⟩] "zz").out :=
  (C30_list_search_same_filter [⟨"a", "cmd1", "", "user"⟩]
    [⟨"b", "cmd2", "", "global"⟩] "zz").2.2.2.1.2 (by decide)

/-! ## The reference codec reads back what it writes -/

theorem scanNormal_frame (pre toks : List Tok) (c : Char) :
    scanNormal (pre ++ toks) c
      = (scanNormal toks c).map (fun r => (r.1, pre ++ r.2)) := by
  simp only [scanNormal, apply_ite (Option.map (fun r : ScanMode × List Tok => (r.1, pre ++ r.2))),
    Option.map_some', Option.map_none', List.append_assoc]

theorem scanStep_frame (pre : List Tok) (m : ScanMode) (toks : List Tok) (c : Char) :
    scanStep (m, pre ++ toks) c
      = (scanStep (m, toks) c).map (fun r => (r.1, pre ++ r.2)) := by
  cases m with
  | normal => exact scanNormal_frame pre toks c
  | str buf => simp only [scanStep]; split_ifs <;> simp
  | esc buf => simp only [scanStep]; split_ifs <;> simp
  | uni buf digits =>
    simp only [scanStep]
    split_ifs
    · cases hexValue c <;> simp
    · cases hexNumber (digits ++ [c]) with
      | none => simp
      | some n => simp only []; split_ifs <;> simp
  | num buf =>
    simp only [scanStep]
    split_ifs
    · simp
    · cases numberTok buf with
      | none => simp
      | some t => simp [List.append_assoc, scanNormal_frame]
  | word buf =>
    simp only [scanStep]
    split_ifs
    · simp
    · cases wordTok buf with
      | none => simp
      | some t => simp [List.append_assoc, scanNormal_frame]

theorem scan_frame (pre : List Tok) (cs : List Char) (m : ScanMode) (toks : List Tok) :
    cs.foldlM scanStep (m, pre ++ toks)
      = (cs.foldlM scanStep (m, toks)).map (fun r => (r.1, pre ++ r.2)) := by
  induction cs generalizing m toks with
  | nil => simp [pure]
  | cons c cs ih =>
    simp only [List.foldlM_cons, scanStep_frame]
    cases h : scanStep (m, toks) c with
    | none => simp
    | some r =>
      obtain ⟨m1, t1⟩ := r
      simp [ih]

theorem scan_segment {seg : List Char} {segToks : List Tok}
    (h : seg.foldlM scanStep (ScanMode.normal, []) = some (ScanMode.normal, segToks))
    (toks : List Tok) (rest : List Char) :
    (seg ++ rest).foldlM scanStep (ScanMode.normal, toks)
      = rest.foldlM scanStep (ScanMode.normal, toks ++ segToks) := by
  have hf := scan_frame toks seg ScanMode.normal []
  rw [List.append_nil, h] at hf
  rw [List.foldlM_append, hf]
  simp

theorem hexValue_hexDigit : ∀ d, d < 16 → hexValue (hexDigit d) = some d := by
  decide

theorem hexNumber_unicodeEscape (n : Nat) (hn : n < 65536) :
    hexNumber [hexDigit (n / 4096 % 16), hexDigit (n / 256 % 16),
      hexDigit (n / 16 % 16), hexDigit (n % 16)] = some n := by
  have h3 := hexValue_hexDigit (n / 4096 % 16) (Nat.mod_lt _ (by decide))
  have h2 := hexValue_hexDigit (n / 256 % 16) (Nat.mod_lt _ (by decide))
  have h1 := hexValue_hexDigit (n / 16 % 16) (Nat.mod_lt _ (by decide))
  have h0 := hexValue_hexDigit (n % 16) (Nat.mod_lt _ (by decide))
  simp only [hexNumber, List.foldlM_cons, List.foldlM_nil, h3, h2, h1, h0, Option.map_some',
    Option.some_bind, Option.pure_def, Option.bind_eq_bind, Option.some.injEq]
  omega

theorem scan_unicodeEscape (c : Char) (hn : c.toNat < 55296) (buf : List Char)
    (toks : List Tok) (rest : List Char) :
    (unicodeEscape c.toNat ++ rest).foldlM scanStep (ScanMode.str buf, toks)
      = rest.foldlM scanStep (ScanMode.str (buf ++ [c]), toks) := by
  have h3 := hexValue_hexDigit (c.toNat / 4096 % 16) (Nat.mod_lt _ (by decide))
  have h2 := hexValue_hexDigit (c.toNat / 256 % 16) (Nat.mod_lt _ (by decide))
  have h1 := hexValue_hexDigit (c.toNat / 16 % 16) (Nat.mod_lt _ (by decide))
  have hnum := hexNumber_unicodeEscape c.toNat (by omega)
  have hsur : ¬ (55296 ≤ c.toNat ∧ c.toNat < 57344) := by omega
  simp [unicodeEscape, List.foldlM_cons, scanStep, h3, h2, h1, hnum, hsur, Char.ofNat_toNat]

theorem scan_escapeChar (c : Char) (buf : List Char) (toks : List Tok)
    (rest : List Char) :
    (escapeChar c ++ rest).foldlM scanStep (ScanMode.str buf, toks)
      = rest.foldlM scanStep (ScanMode.str (buf ++ [c]), toks) := by
  unfold escapeChar
  split_ifs with h1 h2 h3 h4 h5 h6
  · subst h1; simp [List.foldlM_cons, scanStep]
  · subst h2; simp [List.foldlM_cons, scanStep]
  · subst h3; simp [List.foldlM_cons, scanStep]
  · subst h4; simp [List.foldlM_cons, scanStep]
  · subst h5; simp [List.foldlM_cons, scanStep]
  · refine scan_unicodeEscape c ?_ buf toks rest
    rcases h6 with h | h | h | h | h | h
    · omega
    · subst h; decide
    · subst h; decide
    · subst h; decide
    · omega
    · omega
  · have hlt : ¬ c.toNat < 32 := fun h => h6 (Or.inl h)
    simp [List.foldlM_cons, scanStep, h1, h2, hlt]

theorem scan_body (cs buf : List Char) (toks : List Tok) (rest : List Char) :
    (cs.flatMap escapeChar ++ rest).foldlM scanStep (ScanMode.str buf, toks)
      = rest.foldlM scanStep (ScanMode.str (buf ++ cs), toks) := by
  induction cs generalizing buf with
  | nil => simp
  | cons c cs ih =>
    rw [List.flatMap_cons, List.append_assoc, scan_escapeChar, ih]
    simp

theorem scan_quoteString (s : String) (toks : List Tok) (rest : List Char) :
    ((quoteString s).data ++ rest).foldlM scanStep (ScanMode.normal, toks)
      = rest.foldlM scanStep (ScanMode.normal, toks ++ [Tok.str s]) := by
  have hq : (quoteString s).data ++ rest
      = '"' :: (s.data.flatMap escapeChar ++ ('"' :: rest)) := by
    simp [quoteString]
  rw [hq, List.foldlM_cons]
  have h0 : scanStep (ScanMode.normal, toks) '"' = some (ScanMode.str [], toks) := by
    simp [scanStep, scanNormal]
  rw [h0]
  simp only [Option.some_bind, Option.bind_eq_bind]
  rw [scan_body, List.foldlM_cons]
  simp [scanStep]

theorem scan_encodeAlias (a : Alias) (toks : List Tok) (rest : List Char) :
    ((encodeAlias a).data ++ rest).foldlM scanStep (ScanMode.normal, toks)
      = rest.foldlM scanStep (ScanMode.normal, toks ++ recordToks a) := by
  have hd : (encodeAlias a).data ++ rest
      = "  \x7b\n    \"name\": ".data ++ ((quoteString a.Name).data ++
        (",\n    \"command\": ".data ++ ((quoteString a.Command).data ++
        (",\n    \"created\": ".data ++ ((quoteString a.Created).data ++
        (",\n    \"level\": ".data ++ ((quoteString a.Level).data ++
        ("\n  \x7d".data ++ rest)))))))) := by
    simp only [encodeAlias, String.data_append, List.append_assoc]
  have s1 : "  \x7b\n    \"name\": ".data.foldlM scanStep (ScanMode.normal, [])
      = some (ScanMode.normal, [Tok.lbrace, Tok.str "name", Tok.colon]) := by decide
  have s2 : ",\n    \"command\": ".data.foldlM scanStep (ScanMode.normal, [])
      = some (ScanMode.normal, [Tok.comma, Tok.str "command", Tok.colon]) := by decide
  have s3 : ",\n    \"created\": ".data.foldlM scanStep (ScanMode.normal, [])
      = some (ScanMode.normal, [Tok.comma, Tok.str "created", Tok.colon]) := by decide
  have s4 : ",\n    \"level\": ".data.foldlM scanStep (ScanMode.normal, [])
      = some (ScanMode.normal, [Tok.comma, Tok.str "level", Tok.colon]) := by decide
  have s5 : "\n  \x7d".data.foldlM scanStep (ScanMode.normal, [])
      = some (ScanMode.normal, [Tok.rbrace]) := by decide
  rw [hd, scan_segment s1, scan_quoteString, scan_segment s2, scan_quoteString,
    scan_segment s3, scan_quoteString, scan_segment s4, scan_quoteString,
    scan_segment s5]
  simp [recordToks]

theorem intercalate_go_data (sep acc : String) (l : List String) :
    (String.intercalate.go acc sep l).data
      = acc.data ++ l.flatMap (fun a => sep.data ++ a.data) := by
  induction l generalizing acc with
  | nil => simp [String.intercalate.go]
  | cons a l ih => simp [String.intercalate.go, ih, String.data_append]

theorem refMarshalIndent_data (a : Alias) (l : List Alias) :
    (refMarshalIndent (a :: l)).data
      = "[\n".data ++ ((encodeAlias a).data ++
          (l.flatMap (fun b => ",\n".data ++ (encodeAlias b).data) ++ "\n]".data)) := by
  simp [refMarshalIndent, String.intercalate, intercalate_go_data, String.data_append,
    List.flatMap_map]

theorem scan_records (l : List Alias) (toks : List Tok) (rest : List Char) :
    (l.flatMap (fun b => ",\n".data ++ (encodeAlias b).data) ++ rest).foldlM scanStep
        (ScanMode.normal, toks)
      = rest.foldlM scanStep
        (ScanMode.normal, toks ++ l.flatMap (fun b => Tok.comma :: recordToks b)) := by
  induction l generalizing toks with
  | nil => simp
  | cons b l ih =>
    have s1 : ",\n".data.foldlM scanStep (ScanMode.normal, [])
        = some (ScanMode.normal, [Tok.comma]) := by decide
    rw [List.flatMap_cons, List.append_assoc, List.append_assoc, scan_segment s1,
      scan_encodeAlias, ih]
    simp

theorem scan_refMarshalIndent (l : List Alias) :
    scan (refMarshalIndent l) = some (sliceToks l) := by
  cases l with
  | nil => decide
  | cons a l =>
    have s1 : "[\n".data.foldlM scanStep (ScanMode.normal, [])
        = some (ScanMode.normal, [Tok.lbrack]) := by decide
    have s2 : "\n]".data.foldlM scanStep (ScanMode.normal, [])
        = some (ScanMode.normal, [Tok.rbrack]) := by decide
    have h : (refMarshalIndent (a :: l)).data.foldlM scanStep (ScanMode.normal, [])
        = some (ScanMode.normal, sliceToks (a :: l)) := by
      rw [refMarshalIndent_data, scan_segment s1, scan_encodeAlias, scan_records]
      have := scan_segment s2
        ([] ++ [Tok.lbrack] ++ recordToks a ++
          l.flatMap (fun b => Tok.comma :: recordToks b)) []
      rw [List.append_nil] at this
      rw [this]
      simp [sliceToks, pure]
    simp only [scan, h]

theorem decodeStep_lbrace (acc : List Alias) (cur : Alias) (te : Bool) (p : Phase)
    (hp : p = Phase.elemOrEnd ∨ p = Phase.elem) :
    decodeStep ⟨p, acc, cur, te⟩ Tok.lbrace
      = some ⟨Phase.keyOrEnd, acc, Alias.zero, te⟩ := by
  rcases hp with rfl | rfl <;> simp [decodeStep]

theorem decodeStep_key (k : String) (acc : List Alias) (cur : Alias) (te : Bool)
    (p : Phase) (hp : p = Phase.keyOrEnd ∨ p = Phase.key) :
    decodeStep ⟨p, acc, cur, te⟩ (Tok.str k) = some ⟨Phase.colon k, acc, cur, te⟩ := by
  rcases hp with rfl | rfl <;> simp [decodeStep]

theorem decodeStep_colon (k : String) (acc : List Alias) (cur : Alias) (te : Bool) :
    decodeStep ⟨Phase.colon k, acc, cur, te⟩ Tok.colon
      = some ⟨Phase.value k, acc, cur, te⟩ := by
  simp [decodeStep]

theorem decodeStep_value (k v : String) (acc : List Alias) (cur : Alias) (te : Bool) :
    decodeStep ⟨Phase.value k, acc, cur, te⟩ (Tok.str v)
      = some ⟨Phase.afterValue, acc, cur.setField k v, te⟩ := by
  simp [decodeStep]

theorem decodeStep_next (acc : List Alias) (cur : Alias) (te : Bool) :
    decodeStep ⟨Phase.afterValue, acc, cur, te⟩ Tok.comma
      = some ⟨Phase.key, acc, cur, te⟩ := by
  simp [decodeStep]

theorem decodeStep_rbrace (acc : List Alias) (cur : Alias) (te : Bool) :
    decodeStep ⟨Phase.afterValue, acc, cur, te⟩ Tok.rbrace
      = some ⟨Phase.afterElem, acc ++ [cur], cur, te⟩ := by
  simp [decodeStep]

theorem decodeStep_comma (acc : List Alias) (cur : Alias) (te : Bool) :
    decodeStep ⟨Phase.afterElem, acc, cur, te⟩ Tok.comma
      = some ⟨Phase.elem, acc, cur, te⟩ := by
  simp [decodeStep]

theorem decodeStep_rbrack (acc : List Alias) (cur : Alias) (te : Bool) :
    decodeStep ⟨Phase.afterElem, acc, cur, te⟩ Tok.rbrack
      = some ⟨Phase.done, acc, cur, te⟩ := by
  simp [decodeStep]

theorem decodeStep_lbrack (acc : List Alias) (cur : Alias) (te : Bool) :
    decodeStep ⟨Phase.start, acc, cur, te⟩ Tok.lbrack
      = some ⟨Phase.elemOrEnd, acc, cur, te⟩ := by
  simp [decodeStep]

theorem decode_field (k v : String) (acc : List Alias) (cur : Alias) (te : Bool)
    (p : Phase) (hp : p = Phase.keyOrEnd ∨ p = Phase.key) (rest : List Tok) :
    (Tok.str k :: Tok.colon :: Tok.str v :: rest).foldlM decodeStep ⟨p, acc, cur, te⟩
      = rest.foldlM decodeStep ⟨Phase.afterValue, acc, cur.setField k v, te⟩ := by
  simp only [List.foldlM_cons, decodeStep_key k acc cur te p hp, decodeStep_colon,
    decodeStep_value, Option.some_bind, Option.bind_eq_bind]

theorem decode_comma_field (k v : String) (acc : List Alias) (cur : Alias) (te : Bool)
    (rest : List Tok) :
    (Tok.comma :: Tok.str k :: Tok.colon :: Tok.str v :: rest).foldlM decodeStep
        ⟨Phase.afterValue, acc, cur, te⟩
      = rest.foldlM decodeStep ⟨Phase.afterValue, acc, cur.setField k v, te⟩ := by
  rw [List.foldlM_cons, decodeStep_next]
  simp only [Option.some_bind, Option.bind_eq_bind]
  exact decode_field k v acc cur te Phase.key (Or.inr rfl) rest

theorem setField_all (n c d v : String) :
    (((Alias.zero.setField "name" n).setField "command" c).setField "created" d).setField
        "level" v
      = ⟨n, c, d, v⟩ := by
  have e1 : asciiLower "name" = "name" := by decide
  have e2 : asciiLower "command" = "command" := by decide
  have e3 : asciiLower "created" = "created" := by decide
  have e4 : asciiLower "level" = "level" := by decide
  simp [Alias.setField, e1, e2, e3, e4, Alias.zero]

theorem decode_record (a : Alias) (acc : List Alias) (cur : Alias) (te : Bool)
    (p : Phase) (hp : p = Phase.elemOrEnd ∨ p = Phase.elem) (rest : List Tok) :
    (recordToks a ++ rest).foldlM decodeStep ⟨p, acc, cur, te⟩
      = rest.foldlM decodeStep ⟨Phase.afterElem, acc ++ [a], a, te⟩ := by
  obtain ⟨n, c, d, v⟩ := a
  have hr : recordToks ⟨n, c, d, v⟩ ++ rest
      = Tok.lbrace :: Tok.str "name" :: Tok.colon :: Tok.str n
        :: Tok.comma :: Tok.str "command" :: Tok.colon :: Tok.str c
        :: Tok.comma :: Tok.str "created" :: Tok.colon :: Tok.str d
        :: Tok.comma :: Tok.str "level" :: Tok.colon :: Tok.str v
        :: Tok.rbrace :: rest := by
    simp [recordToks]
  rw [hr, List.foldlM_cons, decodeStep_lbrace acc cur te p hp, Option.bind_eq_bind,
    Option.some_bind, decode_field _ _ _ _ _ _ (Or.inl rfl), decode_comma_field,
    decode_comma_field, decode_comma_field, setField_all, List.foldlM_cons,
    decodeStep_rbrace, Option.bind_eq_bind, Option.some_bind]

theorem decode_records (l acc : List Alias) (cur : Alias) (te : Bool) :
    ∃ cur1, (l.flatMap (fun b => Tok.comma :: recordToks b) ++ [Tok.rbrack]).foldlM
        decodeStep ⟨Phase.afterElem, acc, cur, te⟩
      = some ⟨Phase.done, acc ++ l, cur1, te⟩ := by
  induction l generalizing acc cur with
  | nil =>
    refine ⟨cur, ?_⟩
    rw [List.flatMap_nil, List.nil_append, List.foldlM_cons, decodeStep_rbrack,
      Option.bind_eq_bind, Option.some_bind, List.foldlM_nil, List.append_nil]
    rfl
  | cons b l ih =>
    obtain ⟨cur1, h⟩ := ih (acc ++ [b]) b
    refine ⟨cur1, ?_⟩
    rw [List.flatMap_cons, List.append_assoc, List.cons_append, List.foldlM_cons,
      decodeStep_comma, Option.bind_eq_bind, Option.some_bind,
      decode_record b acc cur te Phase.elem (Or.inr rfl), h, List.append_assoc,
      List.singleton_append]

theorem decode_sliceToks (l : List Alias) :
    ∃ cur1, (sliceToks l).foldlM decodeStep ⟨Phase.start, [], Alias.zero, false⟩
      = some ⟨Phase.done, l, cur1, false⟩ := by
  cases l with
  | nil => exact ⟨Alias.zero, by decide⟩
  | cons a l =>
    obtain ⟨cur1, h⟩ := decode_records l [a] a false
    refine ⟨cur1, ?_⟩
    rw [sliceToks, List.foldlM_cons, decodeStep_lbrack, Option.bind_eq_bind,
      Option.some_bind, decode_record a [] Alias.zero false Phase.elemOrEnd (Or.inl rfl),
      List.nil_append, h, List.singleton_append]

/-- The reference decoder reads back every slice the reference encoder writes,
without an error, whatever the target held. -/
theorem refUnmarshal_refMarshalIndent (l target : List Alias) :
    refUnmarshal (refMarshalIndent l) target = (l, false) := by
  obtain ⟨cur1, h⟩ := decode_sliceToks l
  simp only [refUnmarshal, scan_refMarshalIndent, h]

/-! ## Save then load -/

theorem rawUnmarshal_raw (data : String) (target : List Alias) :
    rawUnmarshal data (target.map Alias.raw)
      = ((refUnmarshal data target).1.map Alias.raw, (refUnmarshal data target).2) := by
  unfold rawUnmarshal refUnmarshal
  rcases scan data with _ | toks
  · rfl
  · simp only []
    rcases toks.foldlM decodeStep ⟨Phase.start, [], Alias.zero, false⟩ with _ | st
    · rfl
    · obtain ⟨p, acc, cur, te⟩ := st
      cases p <;> rfl

theorem rawQuote_ofString (s : String) :
    rawQuote (GoString.ofString s) = quoteString s := by
  have h : ∀ cs : List Char,
      (cs.map GoUnit.rune).flatMap escapeUnit = cs.flatMap escapeChar := by
    intro cs
    induction cs with
    | nil => rfl
    | cons c cs ih => simp [List.flatMap_cons, escapeUnit, ih]
  simp only [rawQuote, quoteString, GoString.ofString, h]

theorem rawEncodeAlias_raw (a : Alias) : rawEncodeAlias a.raw = encodeAlias a := by
  simp only [rawEncodeAlias, encodeAlias, Alias.raw, rawQuote_ofString]

theorem rawMarshalIndent_raw (l : List Alias) :
    rawMarshalIndent (l.map Alias.raw) = refMarshalIndent l := by
  have h : (l.map Alias.raw).map rawEncodeAlias = l.map encodeAlias := by
    rw [List.map_map]
    exact List.map_congr_left (fun a _ => rawEncodeAlias_raw a)
  cases l with
  | nil => rfl
  | cons a l =>
    simp only [rawMarshalIndent, refMarshalIndent]
    rw [h]
    rfl

/-- On records whose strings are valid UTF-8 the decoder reads back what the
encoder writes, without an error, whatever the target held. -/
theorem rawUnmarshal_rawMarshalIndent (l : List Alias) (target : List RawAlias) :
    rawUnmarshal (rawMarshalIndent (l.map Alias.raw)) target
      = (l.map Alias.raw, false) := by
  obtain ⟨cur1, h⟩ := decode_sliceToks l
  simp only [rawMarshalIndent_raw, rawUnmarshal, scan_refMarshalIndent, h]

theorem goString_of_valid (s : GoString) (h : GoString.Valid s) :
    ∃ t : String, s = GoString.ofString t := by
  induction s with
  | nil => exact ⟨"", rfl⟩
  | cons u s ih =>
    have h1 : u.isRune = true ∧ GoString.Valid s := by
      simpa [GoString.Valid] using h
    obtain ⟨t, ht⟩ := ih h1.2
    cases u with
    | rune c => exact ⟨String.mk (c :: t.data), by rw [ht]; rfl⟩
    | invalid b => simp [GoUnit.isRune] at h1

theorem rawAlias_of_valid (a : RawAlias) (h : a.Valid) : ∃ b : Alias, a = b.raw := by
  obtain ⟨n, hn⟩ := goString_of_valid a.Name h.1
  obtain ⟨c, hc⟩ := goString_of_valid a.Command h.2.1
  obtain ⟨d, hd⟩ := goString_of_valid a.Created h.2.2.1
  obtain ⟨v, hv⟩ := goString_of_valid a.Level h.2.2.2
  refine ⟨⟨n, c, d, v⟩, ?_⟩
  cases a
  simp only [Alias.raw] at *
  simp only [hn, hc, hd, hv]

theorem rawAliases_of_valid (l : List RawAlias) (h : ∀ a ∈ l, a.Valid) :
    ∃ l1 : List Alias, l = l1.map Alias.raw := by
  induction l with
  | nil => exact ⟨[], rfl⟩
  | cons a l ih =>
    obtain ⟨b, hb⟩ := rawAlias_of_valid a (h a (List.mem_cons_self a l))
    obtain ⟨l1, hl⟩ := ih (fun x hx => h x (List.mem_cons_of_mem a hx))
    exact ⟨b :: l1, by rw [hb, hl]; rfl⟩

theorem rawLoadAliases_user (lib : RawLib) (w : RawWorld) :
    (RawWorld.LoadAliases lib w).qa.UserAliases
      = match w.fs.ReadFile ⟨w.UserConfigPath, ALIASES_FILE⟩ with
        | some data => (lib.Unmarshal data w.qa.UserAliases).1
        | none => w.qa.UserAliases := by
  rcases hu : w.fs.ReadFile ⟨w.UserConfigPath, ALIASES_FILE⟩ with _ | du <;>
    rcases hg : w.fs.ReadFile ⟨w.GlobalConfigPath, ALIASES_FILE⟩ with _ | dg <;>
    simp [RawWorld.LoadAliases, hu, hg]

theorem rawLoadAliases_global (lib : RawLib) (w : RawWorld) :
    (RawWorld.LoadAliases lib w).qa.GlobalAliases
      = match w.fs.ReadFile ⟨w.GlobalConfigPath, ALIASES_FILE⟩ with
        | some data => (lib.Unmarshal data w.qa.GlobalAliases).1
        | none => w.qa.GlobalAliases := by
  rcases hu : w.fs.ReadFile ⟨w.UserConfigPath, ALIASES_FILE⟩ with _ | du <;>
    rcases hg : w.fs.ReadFile ⟨w.GlobalConfigPath, ALIASES_FILE⟩ with _ | dg <;>
    simp [RawWorld.LoadAliases, hu, hg]

theorem rawSaveAliases_saved {w saved : RawWorld} {level : String}
    (hsave : RawWorld.SaveAliases rawLib w level = (saved, none)) :
    ∃ fs1, w.fs.WriteFile (w.aliasFile level) (rawMarshalIndent (w.qa.aliasesOf level))
        = some fs1 ∧ saved = { w with fs := fs1 } := by
  unfold RawWorld.SaveAliases at hsave
  by_cases hdir : level ≠ "user" ∧ w.fs.MkdirAll w.GlobalConfigPath = false
  · rw [if_pos hdir] at hsave
    simp at hsave
  · rw [if_neg hdir] at hsave
    simp only [rawLib] at hsave
    rcases hw : w.fs.WriteFile (w.aliasFile level)
        (rawMarshalIndent (w.qa.aliasesOf level)) with _ | fs1
    · rw [hw] at hsave
      simp at hsave
    · rw [hw] at hsave
      exact ⟨fs1, rfl, (congrArg Prod.fst hsave).symm⟩

/-- In the embedding over `String`, with the reference codec: a successful
`SaveAliases` followed by `LoadAliases` into empty sets, the alias file being
readable, gives the saved set back. -/
theorem saveAliases_loadAliases (w saved : World) (level : String)
    (hsave : SaveAliases refLib w level = (saved, none))
    (hread : w.fs.readDenied (w.aliasFile level) = false) :
    (LoadAliases refLib { saved with qa := ⟨[], []⟩ }).qa.aliasesOf level
      = w.qa.aliasesOf level := by
  rcases saveAliases_cases refLib w level with h | h | h | ⟨text, fs1, hm, hw, h⟩
  · rw [h] at hsave; simp at hsave
  · rw [h] at hsave; simp at hsave
  · rw [h] at hsave; simp at hsave
  · rw [h] at hsave
    have hsaved : saved = { w with fs := fs1 } := (congrArg Prod.fst hsave).symm
    subst hsaved
    have hfile := readFile_after_write hw hread
    have ht : text = refMarshalIndent (w.qa.aliasesOf level) :=
      (Option.some.inj hm).symm
    have hdec : refLib.Unmarshal text [] = (w.qa.aliasesOf level, false) := by
      rw [ht]
      exact refUnmarshal_refMarshalIndent _ _
    by_cases hl : level = "user"
    · subst hl
      have hfile2 : fs1.ReadFile ⟨w.UserConfigPath, ALIASES_FILE⟩ = some text := by
        simpa [World.aliasFile] using hfile
      rw [State.aliasesOf, if_pos rfl, loadAliases_user]
      simp only [hfile2, hdec]
    · have hfile2 : fs1.ReadFile ⟨w.GlobalConfigPath, ALIASES_FILE⟩ = some text := by
        simpa [World.aliasFile, hl] using hfile
      rw [State.aliasesOf, if_neg hl, loadAliases_global]
      simp only [hfile2, hdec]

/-- C19 as stated fails: the User set holds one alias whose name is the letter
a followed by the byte 0xFF, which is not valid UTF-8. `SaveAliases` succeeds,
and `json.MarshalIndent` has written the replacement rune U+FFFD for the byte;
`LoadAliases` into empty sets yields one record whose name is the letter a
followed by U+FFFD, so the loaded set is not the saved one. -/
theorem C19_save_load_roundtrip_counterexample :
    (RawWorld.SaveAliases rawLib strayByteWorld "user").2 = none ∧
    (RawWorld.LoadAliases rawLib
        { (RawWorld.SaveAliases rawLib strayByteWorld "user").1 with
          qa := ⟨[], []⟩ }).qa.aliasesOf "user"
      = [⟨[GoUnit.rune 'a', GoUnit.rune (Char.ofNat 65533)], GoString.ofString "ls",
          GoString.ofString "2024-01-01 10:00:00", GoString.ofString "user"⟩] ∧
    (RawWorld.LoadAliases rawLib
        { (RawWorld.SaveAliases rawLib strayByteWorld "user").1 with
          qa := ⟨[], []⟩ }).qa.aliasesOf "user"
      ≠ strayByteWorld.qa.aliasesOf "user" := by
  decide

/-- C19 amended: save then load is a round trip for strings that are valid
UTF-8. For every level and every alias set `S` of that level, the empty one
included, in which every name, command, creation date and level is valid UTF-8:
when `SaveAliases` succeeds and the alias file can be read, `LoadAliases` into
empty sets yields for that level a set equal to `S`, the same records in the
same order. -/
theorem C19_save_load_roundtrip_amended (w saved : RawWorld) (level : String)
    (hvalid : ∀ a ∈ w.qa.aliasesOf level, a.Valid)
    (hsave : RawWorld.SaveAliases rawLib w level = (saved, none))
    (hread : w.fs.readDenied (w.aliasFile level) = false) :
    (RawWorld.LoadAliases rawLib { saved with qa := ⟨[], []⟩ }).qa.aliasesOf level
      = w.qa.aliasesOf level := by
  obtain ⟨l, hl⟩ := rawAliases_of_valid _ hvalid
  obtain ⟨fs1, hw, hsaved⟩ := rawSaveAliases_saved hsave
  subst hsaved
  have hfile := readFile_after_write hw hread
  have hdec : rawLib.Unmarshal (rawMarshalIndent (w.qa.aliasesOf level)) []
      = (w.qa.aliasesOf level, false) := by
    rw [hl]
    exact rawUnmarshal_rawMarshalIndent l []
  by_cases hu : level = "user"
  · subst hu
    have hfile2 : fs1.ReadFile ⟨w.UserConfigPath, ALIASES_FILE⟩
        = some (rawMarshalIndent (w.qa.aliasesOf "user")) := by
      simpa [RawWorld.aliasFile] using hfile
    rw [RawState.aliasesOf, if_pos rfl, rawLoadAliases_user]
    simp only [hfile2, hdec]
  · have hfile2 : fs1.ReadFile ⟨w.GlobalConfigPath, ALIASES_FILE⟩
        = some (rawMarshalIndent (w.qa.aliasesOf level)) := by
      simpa [RawWorld.aliasFile, hu] using hfile
    rw [RawState.aliasesOf, if_neg hu, rawLoadAliases_global]
    simp only [hfile2, hdec]

set_option maxRecDepth 100000 in
/-- C19 amended at a concrete input: a User set of two aliases of valid UTF-8
strings, with quotes, a backslash, a tab, an ampersand, angle brackets and a
letter outside ASCII, is read back as it was saved. -/
theorem C19_save_load_roundtrip_amended_witness :
    (RawWorld.LoadAliases rawLib
        { (RawWorld.SaveAliases rawLib quotedWorld "user").1 with
          qa := ⟨[], []⟩ }).qa.aliasesOf "user"
      = quotedWorld.qa.aliasesOf "user" :=
  C19_save_load_roundtrip_amended quotedWorld
    (RawWorld.SaveAliases rawLib quotedWorld "user").1 "user"
    (by decide) (Prod.ext rfl (by decide)) rfl


end QuickAlias
